import Mathlib

/-!
PyNuSMV bounded-model-checking lower interface (`lower_intf.c`).

A shallow embedding of the bounded-semantics encoders of
`src/pynusmv/bmc/lower_intf/lower_intf.c` and the properties of them that
the specification states.

C `int` values are unbounded integers here: the functions only add and
subtract one, and signed overflow is undefined behaviour in C.
-/

namespace PyNuSMV

/-! ## Data model -/

/-- Modelled from the spec: the boolean-expression algebra of the external Be
manager (truth, falsity, and, or, not, xor, implies, iff) over variables, as
a term algebra. A variable is an index of the encoder, untimed (`none`) or
instantiated at a time step (`some t`). -/
inductive Be where
  | Truth : Be
  | Falsity : Be
  | Var (index : Nat) (time : Option Int) : Be
  | Not (a : Be) : Be
  | And (a b : Be) : Be
  | Or (a b : Be) : Be
  | Xor (a b : Be) : Be
  | Implies (a b : Be) : Be
  | Iff (a b : Be) : Be
  deriving DecidableEq

/-- An assignment of truth values to the (untimed and timed) variables. -/
abbrev Assignment := Nat → Option Int → Bool

/-- Truth value of a boolean expression under an assignment. -/
def Be.eval (σ : Assignment) : Be → Bool
  | .Truth => true
  | .Falsity => false
  | .Var v t => σ v t
  | .Not a => !(a.eval σ)
  | .And a b => a.eval σ && b.eval σ
  | .Or a b => a.eval σ || b.eval σ
  | .Xor a b => xor (a.eval σ) (b.eval σ)
  | .Implies a b => !(a.eval σ) || b.eval σ
  | .Iff a b => a.eval σ == b.eval σ

/-- Modelled from the spec: the tag of a formula node (`node_get_type`). The
eleven operators the encoders dispatch on, the identifier leaf `ATOM`, the
list cell `CONS` of which the memoization keys are made, and `other` for
every further symbol of the parser. -/
inductive NodeType where
  | AND | OR | XOR | NOT | IMPLIES | IFF
  | OP_NEXT | OP_GLOBAL | OP_FUTURE | UNTIL | RELEASES
  | ATOM
  | CONS
  | other (code : Nat)
  deriving DecidableEq

/-- Modelled from the spec: a formula node of the parse tree: a tag and two
children `car` and `cdr`. `Nil` is the null pointer (the `cdr` of a unary
node), `atom` a leaf whose payload is no node (an identifier), and
`ptr_from_int i` the integer `i` cast to a node pointer (`PTR_FROM_INT`).
Nodes are interned (`find_node`), so that pointer equality is equality of
the trees. -/
inductive node where
  | Nil : node
  | atom (name : Nat) : node
  | ptr_from_int (i : Int) : node
  | mk (type : NodeType) (car cdr : node) : node
  deriving DecidableEq

/-- Modelled from the spec: the variable encoder `BeEnc`. `Bexp2Be` stands
for the conversion of a leaf to an untimed boolean expression
(`Compile_detexpr2bexpr` followed by `Bmc_Conv_Bexp2Be`), and `state_vars`
is the enumeration of the current-state variable indices. -/
structure BeEnc where
  Bexp2Be : node → Be
  state_vars : List Nat

/-- Modelled from the spec: the transition system `BeFsm`, of which the
encoders use the variable encoder and the fairness list only. -/
structure BeFsm where
  enc : BeEnc
  fairness_list : List Be

/-- Modelled from the spec: `BeEnc_untimed_expr_to_timed`, the instantiation
of every untimed variable of an expression at step `time`. -/
def BeEnc_untimed_expr_to_timed (enc : BeEnc) : Be → Int → Be
  | .Truth, _ => .Truth
  | .Falsity, _ => .Falsity
  | .Var v none, time => .Var v (some time)
  | .Var v (some t), _ => .Var v (some t)
  | .Not a, time => .Not (BeEnc_untimed_expr_to_timed enc a time)
  | .And a b, time =>
      .And (BeEnc_untimed_expr_to_timed enc a time) (BeEnc_untimed_expr_to_timed enc b time)
  | .Or a b, time =>
      .Or (BeEnc_untimed_expr_to_timed enc a time) (BeEnc_untimed_expr_to_timed enc b time)
  | .Xor a b, time =>
      .Xor (BeEnc_untimed_expr_to_timed enc a time) (BeEnc_untimed_expr_to_timed enc b time)
  | .Implies a b, time =>
      .Implies (BeEnc_untimed_expr_to_timed enc a time) (BeEnc_untimed_expr_to_timed enc b time)
  | .Iff a b, time =>
      .Iff (BeEnc_untimed_expr_to_timed enc a time) (BeEnc_untimed_expr_to_timed enc b time)

/-- Modelled from the spec: the "no loop" sentinel `Bmc_Utils_GetNoLoopback`
of the host model checker, a value that is no real loop start (there it is
the negative constant `-(INT_MAX - 1)`). -/
def Bmc_Utils_GetNoLoopback : Int := -(2147483647 - 1)

/-- Modelled from the spec: `Bmc_Utils_IsNoLoopback`, the test for the
"no loop" sentinel. -/
def Bmc_Utils_IsNoLoopback (l : Int) : Bool := l == Bmc_Utils_GetNoLoopback

/-! ## The functions of `lower_intf.c` -/

/-- The function `proposition_at_time`: the leaf `formula` converted to a
boolean expression and shifted to `time`. -/
def proposition_at_time (enc : BeEnc) (formula : node) (time : Int) : Be :=
  let expr := enc.Bexp2Be formula
  BeEnc_untimed_expr_to_timed enc expr time

/-- The function `succ`: `time < k - 1 ? time + 1 : l`. -/
def succ (k l time : Int) : Int :=
  if time < k - 1 then time + 1 else l

/-- The integers `lo, lo + 1, ..., hi - 1`, the values a loop
`for (i = lo; i < hi; i++)` runs through. -/
def int_range (lo hi : Int) : List Int :=
  (List.range (hi - lo).toNat).map (fun (n : Nat) => lo + (n : Int))

/-- The function `NO_MEMOIZE_sem_no_loop_offset`, with its recursive calls
(which the source routes through the memoizing wrapper) made directly. -/
def NO_MEMOIZE_sem_no_loop_offset (fsm : BeFsm) (formula : node)
    (time bound offset : Int) : Be :=
  if time > bound then Be.Falsity
  else
    match formula with
    | .mk .AND l r =>
        Be.And (NO_MEMOIZE_sem_no_loop_offset fsm l time bound offset)
          (NO_MEMOIZE_sem_no_loop_offset fsm r time bound offset)
    | .mk .OR l r =>
        Be.Or (NO_MEMOIZE_sem_no_loop_offset fsm l time bound offset)
          (NO_MEMOIZE_sem_no_loop_offset fsm r time bound offset)
    | .mk .XOR l r =>
        Be.Xor (NO_MEMOIZE_sem_no_loop_offset fsm l time bound offset)
          (NO_MEMOIZE_sem_no_loop_offset fsm r time bound offset)
    | .mk .NOT l _ =>
        Be.Not (NO_MEMOIZE_sem_no_loop_offset fsm l time bound offset)
    | .mk .IMPLIES l r =>
        Be.Implies (NO_MEMOIZE_sem_no_loop_offset fsm l time bound offset)
          (NO_MEMOIZE_sem_no_loop_offset fsm r time bound offset)
    | .mk .IFF l r =>
        Be.Iff (NO_MEMOIZE_sem_no_loop_offset fsm l time bound offset)
          (NO_MEMOIZE_sem_no_loop_offset fsm r time bound offset)
    | .mk .OP_NEXT l _ =>
        NO_MEMOIZE_sem_no_loop_offset fsm l (time + 1) bound offset
    | .mk .OP_GLOBAL _ _ => Be.Falsity
    | .mk .OP_FUTURE l r =>
        let now := NO_MEMOIZE_sem_no_loop_offset fsm l time bound offset
        let then_ := NO_MEMOIZE_sem_no_loop_offset fsm (.mk .OP_FUTURE l r) (time + 1) bound offset
        Be.Or now then_
    | .mk .UNTIL l r =>
        let psi := NO_MEMOIZE_sem_no_loop_offset fsm r time bound offset
        let phi := NO_MEMOIZE_sem_no_loop_offset fsm l time bound offset
        let then_ := NO_MEMOIZE_sem_no_loop_offset fsm (.mk .UNTIL l r) (time + 1) bound offset
        Be.Or psi (Be.And phi then_)
    | .mk .RELEASES l r =>
        let psi := NO_MEMOIZE_sem_no_loop_offset fsm r time bound offset
        let phi := NO_MEMOIZE_sem_no_loop_offset fsm l time bound offset
        let then_ := NO_MEMOIZE_sem_no_loop_offset fsm (.mk .RELEASES l r) (time + 1) bound offset
        Be.And psi (Be.Or phi then_)
    | f => proposition_at_time fsm.enc f (time + offset)
termination_by (formula, (bound + 1 - time).toNat)
decreasing_by
  all_goals simp_wf
  all_goals first
    | (apply Prod.Lex.left; simp only [node.mk.sizeOf_spec]; omega)
    | (apply Prod.Lex.right; omega)

/-- The function `NO_MEMOIZE_sem_with_loop_offset`, with its recursive calls
(which the source routes through the memoizing wrapper) made directly. -/
def NO_MEMOIZE_sem_with_loop_offset (fsm : BeFsm) (formula : node)
    (time bound loop offset : Int) : Be :=
  if bound = 0 then Be.Falsity
  else if time > bound then Be.Falsity
  else
    match formula with
    | .mk .AND l r =>
        Be.And (NO_MEMOIZE_sem_with_loop_offset fsm l time bound loop offset)
          (NO_MEMOIZE_sem_with_loop_offset fsm r time bound loop offset)
    | .mk .OR l r =>
        Be.Or (NO_MEMOIZE_sem_with_loop_offset fsm l time bound loop offset)
          (NO_MEMOIZE_sem_with_loop_offset fsm r time bound loop offset)
    | .mk .XOR l r =>
        Be.Xor (NO_MEMOIZE_sem_with_loop_offset fsm l time bound loop offset)
          (NO_MEMOIZE_sem_with_loop_offset fsm r time bound loop offset)
    | .mk .NOT l _ =>
        Be.Not (NO_MEMOIZE_sem_with_loop_offset fsm l time bound loop offset)
    | .mk .IMPLIES l r =>
        Be.Implies (NO_MEMOIZE_sem_with_loop_offset fsm l time bound loop offset)
          (NO_MEMOIZE_sem_with_loop_offset fsm r time bound loop offset)
    | .mk .IFF l r =>
        Be.Iff (NO_MEMOIZE_sem_with_loop_offset fsm l time bound loop offset)
          (NO_MEMOIZE_sem_with_loop_offset fsm r time bound loop offset)
    | .mk .OP_NEXT l _ =>
        NO_MEMOIZE_sem_with_loop_offset fsm l (succ bound loop time) bound loop offset
    | .mk .OP_GLOBAL l _ =>
        (int_range (min time loop) bound).foldl
          (fun result i =>
            Be.And result (NO_MEMOIZE_sem_with_loop_offset fsm l i bound loop offset))
          Be.Truth
    | .mk .OP_FUTURE l _ =>
        (int_range (min time loop) bound).foldl
          (fun result i =>
            Be.Or result (NO_MEMOIZE_sem_with_loop_offset fsm l i bound loop offset))
          Be.Falsity
    | .mk .UNTIL l r =>
        (int_range (min time loop) bound).reverse.foldl
          (fun result i =>
            let psi := NO_MEMOIZE_sem_with_loop_offset fsm r i bound loop offset
            let phi := NO_MEMOIZE_sem_with_loop_offset fsm l i bound loop offset
            Be.Or psi (Be.And phi result))
          Be.Falsity
    | .mk .RELEASES l r =>
        (int_range (min time loop) (bound - 1)).reverse.foldl
          (fun result i =>
            let psi := NO_MEMOIZE_sem_with_loop_offset fsm r i bound loop offset
            let phi := NO_MEMOIZE_sem_with_loop_offset fsm l i bound loop offset
            Be.And psi (Be.Or phi result))
          (NO_MEMOIZE_sem_with_loop_offset fsm r (bound - 1) bound loop offset)
    | f => proposition_at_time fsm.enc f (time + offset)

/-! ## Memoization -/

/-- Modelled from the spec: the association table `hash_ptr` of the host
model checker, as an association list in which the first entry of a key is
the one in force. -/
abbrev hash_ptr := List (node × Be)

/-- Modelled from the spec: `new_assoc`, the empty table. -/
def new_assoc : hash_ptr := []

/-- Modelled from the spec: `find_assoc`, the value stored under `key`, or
`none` (the null pointer) when there is none. -/
def find_assoc (h : hash_ptr) (key : node) : Option Be := h.lookup key

/-- Modelled from the spec: `insert_assoc`, which associates `value` with
`key`, in place of any value the key had. -/
def insert_assoc (h : hash_ptr) (key : node) (value : Be) : hash_ptr := (key, value) :: h

/-- The global state of the module: the static variable `MEMOIZER` (`none`
is the null pointer: no table), and a ghost field `raw_runs`, which is not
in the source and records the key of every completed execution of a raw
encoder body, the latest first. -/
structure MemoState where
  MEMOIZER : Option hash_ptr
  raw_runs : List node

/-- The function `MEMOIZER_key`: the list cells
`CONS(formula, CONS(time, CONS(k, CONS(l, offset))))`. -/
def MEMOIZER_key (formula : node) (time k l offset : Int) : node :=
  node.mk NodeType.CONS formula
    (node.mk NodeType.CONS (node.ptr_from_int time)
      (node.mk NodeType.CONS (node.ptr_from_int k)
        (node.mk NodeType.CONS (node.ptr_from_int l) (node.ptr_from_int offset))))

/-- The function `MEMOIZER_get`: creates the table when there is none and
looks `key` up. -/
def MEMOIZER_get (key : node) (W : MemoState) : Option Be × MemoState :=
  match W.MEMOIZER with
  | none => (find_assoc new_assoc key, { W with MEMOIZER := some new_assoc })
  | some h => (find_assoc h key, W)

/-- The function `MEMOIZER_put`: creates the table when there is none and
stores `be` under `key`. -/
def MEMOIZER_put (key : node) (be : Be) (W : MemoState) : MemoState :=
  match W.MEMOIZER with
  | none => { W with MEMOIZER := some (insert_assoc new_assoc key be) }
  | some h => { W with MEMOIZER := some (insert_assoc h key be) }

/-- The function `MEMOIZER_clear`: frees the table, if there is one, and
resets the variable to the null pointer. -/
def MEMOIZER_clear (W : MemoState) : MemoState :=
  match W.MEMOIZER with
  | some _ => { W with MEMOIZER := none }
  | none => W

/-- The ghost record of one completed execution of a raw encoder body. -/
def MemoState.ran (W : MemoState) (key : node) : MemoState :=
  { W with raw_runs := key :: W.raw_runs }

/-- The entry of `key` in the cache, `none` when the key is absent or there
is no table. -/
def MemoState.entry (W : MemoState) (key : node) : Option Be :=
  match W.MEMOIZER with
  | none => none
  | some h => find_assoc h key

mutual

/-- The function `sem_no_loop_offset`: the memoizing wrapper of
`NO_MEMOIZE_sem_no_loop_offset`, the global state passed along. -/
def sem_no_loop_offset (fsm : BeFsm) (formula : node) (time bound offset : Int)
    (W : MemoState) : Be × MemoState :=
  let key := MEMOIZER_key formula time bound Bmc_Utils_GetNoLoopback offset
  match MEMOIZER_get key W with
  | (some result, W1) => (result, W1)
  | (none, W1) =>
      let r := NO_MEMOIZE_sem_no_loop_offset_st fsm formula time bound offset W1
      (r.1, MEMOIZER_put key r.1 r.2)
termination_by (formula, (bound + 1 - time).toNat, 1)
decreasing_by
  all_goals (apply Prod.Lex.right; apply Prod.Lex.right; omega)

/-- The function `NO_MEMOIZE_sem_no_loop_offset` as the source has it: the
global state passed along and the recursive calls made through the
memoizing wrapper. -/
def NO_MEMOIZE_sem_no_loop_offset_st (fsm : BeFsm) (formula : node)
    (time bound offset : Int) (W : MemoState) : Be × MemoState :=
  let r : Be × MemoState :=
    if time > bound then (Be.Falsity, W)
    else
      match formula with
      | .mk .AND l r =>
          let left := sem_no_loop_offset fsm l time bound offset W
          let right := sem_no_loop_offset fsm r time bound offset left.2
          (Be.And left.1 right.1, right.2)
      | .mk .OR l r =>
          let left := sem_no_loop_offset fsm l time bound offset W
          let right := sem_no_loop_offset fsm r time bound offset left.2
          (Be.Or left.1 right.1, right.2)
      | .mk .XOR l r =>
          let left := sem_no_loop_offset fsm l time bound offset W
          let right := sem_no_loop_offset fsm r time bound offset left.2
          (Be.Xor left.1 right.1, right.2)
      | .mk .NOT l _ =>
          let left := sem_no_loop_offset fsm l time bound offset W
          (Be.Not left.1, left.2)
      | .mk .IMPLIES l r =>
          let left := sem_no_loop_offset fsm l time bound offset W
          let right := sem_no_loop_offset fsm r time bound offset left.2
          (Be.Implies left.1 right.1, right.2)
      | .mk .IFF l r =>
          let left := sem_no_loop_offset fsm l time bound offset W
          let right := sem_no_loop_offset fsm r time bound offset left.2
          (Be.Iff left.1 right.1, right.2)
      | .mk .OP_NEXT l _ =>
          sem_no_loop_offset fsm l (time + 1) bound offset W
      | .mk .OP_GLOBAL _ _ => (Be.Falsity, W)
      | .mk .OP_FUTURE l r =>
          let now := sem_no_loop_offset fsm l time bound offset W
          let then_ := sem_no_loop_offset fsm (.mk .OP_FUTURE l r) (time + 1) bound offset now.2
          (Be.Or now.1 then_.1, then_.2)
      | .mk .UNTIL l r =>
          let psi := sem_no_loop_offset fsm r time bound offset W
          let phi := sem_no_loop_offset fsm l time bound offset psi.2
          let then_ := sem_no_loop_offset fsm (.mk .UNTIL l r) (time + 1) bound offset phi.2
          (Be.Or psi.1 (Be.And phi.1 then_.1), then_.2)
      | .mk .RELEASES l r =>
          let psi := sem_no_loop_offset fsm r time bound offset W
          let phi := sem_no_loop_offset fsm l time bound offset psi.2
          let then_ := sem_no_loop_offset fsm (.mk .RELEASES l r) (time + 1) bound offset phi.2
          (Be.And psi.1 (Be.Or phi.1 then_.1), then_.2)
      | f => (proposition_at_time fsm.enc f (time + offset), W)
  (r.1, r.2.ran (MEMOIZER_key formula time bound Bmc_Utils_GetNoLoopback offset))
termination_by (formula, (bound + 1 - time).toNat, 0)
decreasing_by
  all_goals simp_wf
  all_goals first
    | (apply Prod.Lex.left; simp only [node.mk.sizeOf_spec]; omega)
    | (apply Prod.Lex.right; apply Prod.Lex.left; omega)

end

mutual

/-- The function `sem_with_loop_offset`: the memoizing wrapper of
`NO_MEMOIZE_sem_with_loop_offset`, the global state passed along. -/
def sem_with_loop_offset (fsm : BeFsm) (formula : node) (time bound loop offset : Int)
    (W : MemoState) : Be × MemoState :=
  let key := MEMOIZER_key formula time bound loop offset
  match MEMOIZER_get key W with
  | (some result, W1) => (result, W1)
  | (none, W1) =>
      let r := NO_MEMOIZE_sem_with_loop_offset_st fsm formula time bound loop offset W1
      (r.1, MEMOIZER_put key r.1 r.2)
termination_by (formula, 1)
decreasing_by
  all_goals (apply Prod.Lex.right; omega)

/-- The function `NO_MEMOIZE_sem_with_loop_offset` as the source has it: the
global state passed along and the recursive calls made through the
memoizing wrapper. -/
def NO_MEMOIZE_sem_with_loop_offset_st (fsm : BeFsm) (formula : node)
    (time bound loop offset : Int) (W : MemoState) : Be × MemoState :=
  let r : Be × MemoState :=
    if bound = 0 then (Be.Falsity, W)
    else if time > bound then (Be.Falsity, W)
    else
      match formula with
      | .mk .AND l r =>
          let left := sem_with_loop_offset fsm l time bound loop offset W
          let right := sem_with_loop_offset fsm r time bound loop offset left.2
          (Be.And left.1 right.1, right.2)
      | .mk .OR l r =>
          let left := sem_with_loop_offset fsm l time bound loop offset W
          let right := sem_with_loop_offset fsm r time bound loop offset left.2
          (Be.Or left.1 right.1, right.2)
      | .mk .XOR l r =>
          let left := sem_with_loop_offset fsm l time bound loop offset W
          let right := sem_with_loop_offset fsm r time bound loop offset left.2
          (Be.Xor left.1 right.1, right.2)
      | .mk .NOT l _ =>
          let left := sem_with_loop_offset fsm l time bound loop offset W
          (Be.Not left.1, left.2)
      | .mk .IMPLIES l r =>
          let left := sem_with_loop_offset fsm l time bound loop offset W
          let right := sem_with_loop_offset fsm r time bound loop offset left.2
          (Be.Implies left.1 right.1, right.2)
      | .mk .IFF l r =>
          let left := sem_with_loop_offset fsm l time bound loop offset W
          let right := sem_with_loop_offset fsm r time bound loop offset left.2
          (Be.Iff left.1 right.1, right.2)
      | .mk .OP_NEXT l _ =>
          sem_with_loop_offset fsm l (succ bound loop time) bound loop offset W
      | .mk .OP_GLOBAL l _ =>
          (int_range (min time loop) bound).foldl
            (fun (acc : Be × MemoState) i =>
              let phi := sem_with_loop_offset fsm l i bound loop offset acc.2
              (Be.And acc.1 phi.1, phi.2))
            (Be.Truth, W)
      | .mk .OP_FUTURE l _ =>
          (int_range (min time loop) bound).foldl
            (fun (acc : Be × MemoState) i =>
              let phi := sem_with_loop_offset fsm l i bound loop offset acc.2
              (Be.Or acc.1 phi.1, phi.2))
            (Be.Falsity, W)
      | .mk .UNTIL l r =>
          (int_range (min time loop) bound).reverse.foldl
            (fun (acc : Be × MemoState) i =>
              let psi := sem_with_loop_offset fsm r i bound loop offset acc.2
              let phi := sem_with_loop_offset fsm l i bound loop offset psi.2
              (Be.Or psi.1 (Be.And phi.1 acc.1), phi.2))
            (Be.Falsity, W)
      | .mk .RELEASES l r =>
          (int_range (min time loop) (bound - 1)).reverse.foldl
            (fun (acc : Be × MemoState) i =>
              let psi := sem_with_loop_offset fsm r i bound loop offset acc.2
              let phi := sem_with_loop_offset fsm l i bound loop offset psi.2
              (Be.And psi.1 (Be.Or phi.1 acc.1), phi.2))
            (sem_with_loop_offset fsm r (bound - 1) bound loop offset W)
      | f => (proposition_at_time fsm.enc f (time + offset), W)
  (r.1, r.2.ran (MEMOIZER_key formula time bound loop offset))
termination_by (formula, 0)
decreasing_by
  all_goals (apply Prod.Lex.left; simp only [node.mk.sizeOf_spec]; omega)

end

/-! ## Fairness -/

/-- Modelled from the spec: `BeEnc_untimed_to_timed_or_interval`, the
expression "the untimed expression holds at some time of `[from, to]`": the
disjunction, seeded with falsity, of its instances at the times
`from_ .. to_`. -/
def BeEnc_untimed_to_timed_or_interval (enc : BeEnc) (exp : Be) (from_ to_ : Int) : Be :=
  (int_range from_ (to_ + 1)).foldl
    (fun result t => Be.Or result (BeEnc_untimed_expr_to_timed enc exp t))
    Be.Falsity

/-- The function `fairness_constraint`. -/
def fairness_constraint (fsm : BeFsm) (k l : Int) : Be :=
  let enc := fsm.enc
  if Bmc_Utils_IsNoLoopback l then Be.Falsity
  else
    let constraint := Be.Truth
    if k = 0 then constraint
    else
      fsm.fairness_list.foldl
        (fun constraint fairness =>
          let expr := BeEnc_untimed_to_timed_or_interval enc fairness l (k - 1)
          Be.And constraint expr)
        constraint

/-- The tags on which the encoders dispatch: the eleven operators that have
a case of their own in the `switch`. -/
def supported_operator : NodeType → Bool
  | .AND | .OR | .XOR | .NOT | .IMPLIES | .IFF => true
  | .OP_NEXT | .OP_GLOBAL | .OP_FUTURE | .UNTIL | .RELEASES => true
  | _ => false

/-! ## The loop condition -/

/-- Modelled from the spec: `BeEnc_index_to_timed`, the variable of untimed
index `index` instantiated at step `time`. -/
def BeEnc_index_to_timed (_enc : BeEnc) (index : Nat) (time : Int) : Be :=
  Be.Var index (some time)

/-- The function `loop_condition`. The iteration
`BeEnc_get_first_untimed_var_index`, `BeEnc_is_var_index_valid`,
`BeEnc_get_next_var_index` over the current-state variables is the traversal
of the enumeration `state_vars` of the encoder, each index in turn. -/
def loop_condition (enc : BeEnc) (k l : Int) : Be :=
  enc.state_vars.foldl
    (fun cond iter =>
      let vl := BeEnc_index_to_timed enc iter l
      let vk := BeEnc_index_to_timed enc iter k
      Be.And cond (Be.Iff vl vk))
    Be.Truth

/-! ## Shifting an expression in time -/

/-- The expression in which every variable timed at a step `s` is timed at
`s + o` instead. -/
def Be.shift (o : Int) : Be → Be
  | .Truth => .Truth
  | .Falsity => .Falsity
  | .Var v none => .Var v none
  | .Var v (some s) => .Var v (some (s + o))
  | .Not a => .Not (a.shift o)
  | .And a b => .And (a.shift o) (b.shift o)
  | .Or a b => .Or (a.shift o) (b.shift o)
  | .Xor a b => .Xor (a.shift o) (b.shift o)
  | .Implies a b => .Implies (a.shift o) (b.shift o)
  | .Iff a b => .Iff (a.shift o) (b.shift o)

/-- An expression is untimed when none of its variables is timed. -/
def Be.untimed : Be → Bool
  | .Truth => true
  | .Falsity => true
  | .Var _ none => true
  | .Var _ (some _) => false
  | .Not a => a.untimed
  | .And a b => a.untimed && b.untimed
  | .Or a b => a.untimed && b.untimed
  | .Xor a b => a.untimed && b.untimed
  | .Implies a b => a.untimed && b.untimed
  | .Iff a b => a.untimed && b.untimed

/-! ## What the cache has to hold -/

/-- The expression the cache-free encoders yield for the key
`(formula, time, bound, l, offset)`: that of the encoder without loop when
`l` is the "no loop" sentinel, and that of the encoder with loop `l`
otherwise. -/
def cache_free (fsm : BeFsm) (formula : node) (time bound l offset : Int) : Be :=
  if l = Bmc_Utils_GetNoLoopback then NO_MEMOIZE_sem_no_loop_offset fsm formula time bound offset
  else NO_MEMOIZE_sem_with_loop_offset fsm formula time bound l offset

/-- Every entry of the cache holds the expression the cache-free encoder
yields for its key. -/
def cache_consistent (fsm : BeFsm) (W : MemoState) : Prop :=
  ∀ formula time bound l offset e,
    W.entry (MEMOIZER_key formula time bound l offset) = some e →
      e = cache_free fsm formula time bound l offset

/-- The cache of `W2` contains every entry of the cache of `W1`. -/
def cache_extends (W1 W2 : MemoState) : Prop :=
  ∀ key e, W1.entry key = some e → W2.entry key = some e

/-- A call that starts in the state `W` and ends with `r` returns `e`: it
only adds to the record of the raw runs, and from a consistent cache it
returns `e` and leaves a consistent cache that contains the one it found. -/
def returns (fsm : BeFsm) (W : MemoState) (r : Be × MemoState) (e : Be) : Prop :=
  (∃ pre, r.2.raw_runs = pre ++ W.raw_runs) ∧
    (cache_consistent fsm W →
      r.1 = e ∧ cache_consistent fsm r.2 ∧ cache_extends W r.2)

/-- The state with no table and no raw run recorded. -/
def initial_state : MemoState := { MEMOIZER := none, raw_runs := [] }

/-- A raw encoder body that starts in the state `W` and ends with `r`
returns `e` and records its run under `key`: `r` is the outcome `x` of the
body proper, which returns `e`, with the run recorded on top. -/
def raw_returns (fsm : BeFsm) (W : MemoState) (r : Be × MemoState) (key : node) (e : Be) :
    Prop :=
  ∃ x : Be × MemoState, r = (x.1, x.2.ran key) ∧ returns fsm W x e

/-! ## Reference semantics -/

/-- Formulas of linear temporal logic over atomic propositions `atom p`. -/
inductive Ltl where
  | atom (p : Nat) : Ltl
  | and (f g : Ltl) : Ltl
  | or (f g : Ltl) : Ltl
  | xor (f g : Ltl) : Ltl
  | not (f : Ltl) : Ltl
  | implies (f g : Ltl) : Ltl
  | iff (f g : Ltl) : Ltl
  | next (f : Ltl) : Ltl
  | globally (f : Ltl) : Ltl
  | eventually (f : Ltl) : Ltl
  | until (f g : Ltl) : Ltl
  | releases (f g : Ltl) : Ltl
  deriving DecidableEq

/-- The parse tree of a formula: a unary node has its operand in `car` and
`Nil` in `cdr`. -/
def Ltl.toNode : Ltl → node
  | .atom p => node.atom p
  | .and f g => node.mk NodeType.AND f.toNode g.toNode
  | .or f g => node.mk NodeType.OR f.toNode g.toNode
  | .xor f g => node.mk NodeType.XOR f.toNode g.toNode
  | .not f => node.mk NodeType.NOT f.toNode node.Nil
  | .implies f g => node.mk NodeType.IMPLIES f.toNode g.toNode
  | .iff f g => node.mk NodeType.IFF f.toNode g.toNode
  | .next f => node.mk NodeType.OP_NEXT f.toNode node.Nil
  | .globally f => node.mk NodeType.OP_GLOBAL f.toNode node.Nil
  | .eventually f => node.mk NodeType.OP_FUTURE f.toNode node.Nil
  | .until f g => node.mk NodeType.UNTIL f.toNode g.toNode
  | .releases f g => node.mk NodeType.RELEASES f.toNode g.toNode

/-- The standard semantics of linear temporal logic on an infinite path:
`path i p` is the value of the atom `p` in the state at position `i`. -/
def Ltl.holds (path : Nat → Nat → Bool) : Ltl → Nat → Prop
  | .atom p, i => path i p = true
  | .and f g, i => f.holds path i ∧ g.holds path i
  | .or f g, i => f.holds path i ∨ g.holds path i
  | .xor f g, i => ¬ (f.holds path i ↔ g.holds path i)
  | .not f, i => ¬ f.holds path i
  | .implies f g, i => f.holds path i → g.holds path i
  | .iff f g, i => (f.holds path i ↔ g.holds path i)
  | .next f, i => f.holds path (i + 1)
  | .globally f, i => ∀ j, i ≤ j → f.holds path j
  | .eventually f, i => ∃ j, i ≤ j ∧ f.holds path j
  | .until f g, i => ∃ j, i ≤ j ∧ g.holds path j ∧ ∀ n, i ≤ n → n < j → f.holds path n
  | .releases f g, i =>
      (∀ j, i ≤ j → g.holds path j) ∨
        ∃ j, i ≤ j ∧ f.holds path j ∧ ∀ n, i ≤ n → n ≤ j → g.holds path n

/-- The value of the atom `p` at time step `t` that an assignment gives
through the encoder of `fsm`. -/
def atom_value (fsm : BeFsm) (σ : Assignment) (p : Nat) (t : Int) : Bool :=
  (proposition_at_time fsm.enc (node.atom p) t).eval σ

/-- The lasso path `s_0 ... s_(k-1) (s_l ... s_(k-1))^ω` over the states
`s_t = val · t`: position `i` is the state `i` before the bound and the
state `l + (i - l) mod (k - l)` from then on. -/
def lasso_path (val : Nat → Int → Bool) (k l : Int) (i : Nat) (p : Nat) : Bool :=
  if (i : Int) < k then val p i else val p (l + ((i : Int) - l) % (k - l))

/-- Formulas in negation normal form: negation is applied to atoms only. -/
inductive Nnf where
  | atom (p : Nat) : Nnf
  | natom (p : Nat) : Nnf
  | and (f g : Nnf) : Nnf
  | or (f g : Nnf) : Nnf
  | next (f : Nnf) : Nnf
  | globally (f : Nnf) : Nnf
  | eventually (f : Nnf) : Nnf
  | until (f g : Nnf) : Nnf
  | releases (f g : Nnf) : Nnf
  deriving DecidableEq

/-- The parse tree of a formula in negation normal form. -/
def Nnf.toNode : Nnf → node
  | .atom p => node.atom p
  | .natom p => node.mk NodeType.NOT (node.atom p) node.Nil
  | .and f g => node.mk NodeType.AND f.toNode g.toNode
  | .or f g => node.mk NodeType.OR f.toNode g.toNode
  | .next f => node.mk NodeType.OP_NEXT f.toNode node.Nil
  | .globally f => node.mk NodeType.OP_GLOBAL f.toNode node.Nil
  | .eventually f => node.mk NodeType.OP_FUTURE f.toNode node.Nil
  | .until f g => node.mk NodeType.UNTIL f.toNode g.toNode
  | .releases f g => node.mk NodeType.RELEASES f.toNode g.toNode

/-- The bounded semantics without loop of Biere et al., as the specification
words it: on the path of the states `0 .. k`, `val p t` being the value of
the atom `p` at time `t`. -/
def Nnf.bounded_holds (val : Nat → Int → Bool) (k : Int) : Nnf → Int → Prop
  | .atom p, i => val p i = true
  | .natom p, i => val p i = false
  | .and f g, i => f.bounded_holds val k i ∧ g.bounded_holds val k i
  | .or f g, i => f.bounded_holds val k i ∨ g.bounded_holds val k i
  | .next f, i => i < k ∧ f.bounded_holds val k (i + 1)
  | .globally _, _ => False
  | .eventually f, i => ∃ j, i ≤ j ∧ j ≤ k ∧ f.bounded_holds val k j
  | .until f g, i =>
      ∃ j, i ≤ j ∧ j ≤ k ∧ g.bounded_holds val k j ∧
        ∀ n, i ≤ n → n < j → f.bounded_holds val k n
  | .releases f g, i =>
      ∃ j, i ≤ j ∧ j ≤ k ∧ f.bounded_holds val k j ∧
        ∀ n, i ≤ n → n ≤ j → g.bounded_holds val k n

/-- A formula in negation normal form as a formula of linear temporal
logic. -/
def Nnf.toLtl : Nnf → Ltl
  | .atom p => Ltl.atom p
  | .natom p => Ltl.not (Ltl.atom p)
  | .and f g => Ltl.and f.toLtl g.toLtl
  | .or f g => Ltl.or f.toLtl g.toLtl
  | .next f => Ltl.next f.toLtl
  | .globally f => Ltl.globally f.toLtl
  | .eventually f => Ltl.eventually f.toLtl
  | .until f g => Ltl.until f.toLtl g.toLtl
  | .releases f g => Ltl.releases f.toLtl g.toLtl

/-! ## Concrete inputs -/

/-- An encoder whose atom `p` is the variable of index `p`. -/
def example_enc : BeEnc :=
  { Bexp2Be := fun f => match f with
      | node.atom p => Be.Var p none
      | _ => Be.Falsity,
    state_vars := [0, 1] }

/-- A transition system over `example_enc` without fairness constraints. -/
def example_fsm : BeFsm := { enc := example_enc, fairness_list := [] }

/-- The formula `X (p U q)`, with `p` the atom 0 and `q` the atom 1. -/
def next_until : Ltl := Ltl.next (Ltl.until (Ltl.atom 0) (Ltl.atom 1))

/-- The assignment in which `q` (the variable 1) is true at the times 0 and
2 and everything else is false. -/
def q_at_start : Assignment :=
  fun v t => decide (v = 1) && (decide (t = some 0) || decide (t = some 2))

/-- The assignment in which `q` (the variable 1) is true at time 1 and
everything else is false. -/
def q_at_one : Assignment :=
  fun v t => decide (v = 1) && decide (t = some 1)

/-- The expression
`q@0 OR (p@0 AND (q@1 OR (p@1 AND (q@2 OR (p@2 AND (q@3 OR (p@3 AND q@1)))))))`
that the specification gives for `UNTIL(p, q)` with bound 3 and loop 1, the
atoms timed by the encoder of `fsm`. -/
def until_closed_around_loop (fsm : BeFsm) (p q : Nat) : Be :=
  let P := fun (t : Int) => proposition_at_time fsm.enc (node.atom p) t
  let Q := fun (t : Int) => proposition_at_time fsm.enc (node.atom q) t
  Be.Or (Q 0) (Be.And (P 0) (Be.Or (Q 1) (Be.And (P 1) (Be.Or (Q 2) (Be.And (P 2)
    (Be.Or (Q 3) (Be.And (P 3) (Q 1))))))))

/-- The assignment in which `p` (the variable 0) is true at every time and
`q` (the variable 1) is true at time 3 only. -/
def q_at_three : Assignment :=
  fun v t => decide (v = 0) || (decide (v = 1) && decide (t = some 3))

/-- A transition system over `example_enc` with the two fairness
obligations `p` (the variable 0) and `q` (the variable 1). -/
def fair_fsm : BeFsm :=
  { enc := example_enc, fairness_list := [Be.Var 0 none, Be.Var 1 none] }

/-- An encoder that converts the atom `p` to the variable `p` and a node of
the unlisted tag `other c` to the variable `1000 + c`. -/
def leaf_enc : BeEnc :=
  { Bexp2Be := fun f => match f with
      | node.atom p => Be.Var p none
      | node.mk (NodeType.other c) _ _ => Be.Var (1000 + c) none
      | _ => Be.Falsity,
    state_vars := [0, 1] }

/-- A transition system over `leaf_enc` without fairness constraints. -/
def leaf_fsm : BeFsm := { enc := leaf_enc, fairness_list := [] }

/-! ## The recursion of the encoders -/

/-- The number of nodes of a formula. -/
def node.size : node → Nat
  | .Nil => 1
  | .atom _ => 1
  | .ptr_from_int _ => 1
  | .mk _ l r => 1 + l.size + r.size

/-! ## The encoders on the C type `int` -/

/-- The largest value of the C type `int`. -/
def INT_MAX : Int := 2147483647

/-- The smallest value of the C type `int`. -/
def INT_MIN : Int := -2147483648

/-- The value of an arithmetic result as a C `int`: reduced modulo `2^32`
into the range from `INT_MIN` to `INT_MAX` (the addition and subtraction of
the machine, which wrap around). -/
def int_wrap (x : Int) : Int :=
  (x + 2147483648) % 4294967296 - 2147483648

/-- The function `succ` on the C type `int`:
`time < k - 1 ? time + 1 : l`. -/
def succ_int (k l time : Int) : Int :=
  if time < int_wrap (k - 1) then int_wrap (time + 1) else l

/-- A loop `for (i = start; i < bound; i++)` on the C type `int`, started
at `i` with the accumulated result `acc`; it gives up (`none`) when it has
tested its condition `fuel` times without leaving, or when its body does. -/
def for_up (body : Int → Be × MemoState → Option (Be × MemoState)) :
    Nat → Int → Int → Be × MemoState → Option (Be × MemoState)
  | 0, _, _, _ => none
  | fuel + 1, i, bound, acc =>
    if i < bound then
      match body i acc with
      | none => none
      | some acc1 => for_up body fuel (int_wrap (i + 1)) bound acc1
    else some acc

/-- A loop `for (i = start; i >= lo; i--)` on the C type `int`, started at
`i` with the accumulated result `acc`; it gives up (`none`) when it has
tested its condition `fuel` times without leaving, or when its body does. -/
def for_down (body : Int → Be × MemoState → Option (Be × MemoState)) :
    Nat → Int → Int → Be × MemoState → Option (Be × MemoState)
  | 0, _, _, _ => none
  | fuel + 1, i, lo, acc =>
    if i ≥ lo then
      match body i acc with
      | none => none
      | some acc1 => for_down body fuel (int_wrap (i - 1)) lo acc1
    else some acc

mutual

/-- The function `sem_no_loop_offset` on the C type `int`; `fuel` bounds
the depth of the nested runs of the raw body, and the result is `none` when
it does not suffice. -/
def sem_no_loop_offset_int (fsm : BeFsm) (fuel : Nat) (formula : node)
    (time bound offset : Int) (W : MemoState) : Option (Be × MemoState) :=
  let key := MEMOIZER_key formula time bound Bmc_Utils_GetNoLoopback offset
  match MEMOIZER_get key W with
  | (some result, W1) => some (result, W1)
  | (none, W1) =>
      match NO_MEMOIZE_sem_no_loop_offset_int fsm fuel formula time bound offset W1 with
      | none => none
      | some r => some (r.1, MEMOIZER_put key r.1 r.2)
termination_by (fuel, 1)
decreasing_by
  all_goals (apply Prod.Lex.right; omega)

/-- The function `NO_MEMOIZE_sem_no_loop_offset` on the C type `int`, the
recursive calls made through the memoizing wrapper; a run with no fuel
left gives up (`none`). -/
def NO_MEMOIZE_sem_no_loop_offset_int (fsm : BeFsm) (fuel : Nat) (formula : node)
    (time bound offset : Int) (W : MemoState) : Option (Be × MemoState) :=
  match fuel with
  | 0 => none
  | fuel + 1 =>
    let r : Option (Be × MemoState) :=
      if time > bound then some (Be.Falsity, W)
      else
        match formula with
        | .mk .AND l r =>
            (sem_no_loop_offset_int fsm fuel l time bound offset W).bind fun left =>
            (sem_no_loop_offset_int fsm fuel r time bound offset left.2).bind fun right =>
            some (Be.And left.1 right.1, right.2)
        | .mk .OR l r =>
            (sem_no_loop_offset_int fsm fuel l time bound offset W).bind fun left =>
            (sem_no_loop_offset_int fsm fuel r time bound offset left.2).bind fun right =>
            some (Be.Or left.1 right.1, right.2)
        | .mk .XOR l r =>
            (sem_no_loop_offset_int fsm fuel l time bound offset W).bind fun left =>
            (sem_no_loop_offset_int fsm fuel r time bound offset left.2).bind fun right =>
            some (Be.Xor left.1 right.1, right.2)
        | .mk .NOT l _ =>
            (sem_no_loop_offset_int fsm fuel l time bound offset W).bind fun left =>
            some (Be.Not left.1, left.2)
        | .mk .IMPLIES l r =>
            (sem_no_loop_offset_int fsm fuel l time bound offset W).bind fun left =>
            (sem_no_loop_offset_int fsm fuel r time bound offset left.2).bind fun right =>
            some (Be.Implies left.1 right.1, right.2)
        | .mk .IFF l r =>
            (sem_no_loop_offset_int fsm fuel l time bound offset W).bind fun left =>
            (sem_no_loop_offset_int fsm fuel r time bound offset left.2).bind fun right =>
            some (Be.Iff left.1 right.1, right.2)
        | .mk .OP_NEXT l _ =>
            sem_no_loop_offset_int fsm fuel l (int_wrap (time + 1)) bound offset W
        | .mk .OP_GLOBAL _ _ => some (Be.Falsity, W)
        | .mk .OP_FUTURE l r =>
            (sem_no_loop_offset_int fsm fuel l time bound offset W).bind fun now =>
            (sem_no_loop_offset_int fsm fuel (.mk .OP_FUTURE l r) (int_wrap (time + 1))
              bound offset now.2).bind fun then_ =>
            some (Be.Or now.1 then_.1, then_.2)
        | .mk .UNTIL l r =>
            (sem_no_loop_offset_int fsm fuel r time bound offset W).bind fun psi =>
            (sem_no_loop_offset_int fsm fuel l time bound offset psi.2).bind fun phi =>
            (sem_no_loop_offset_int fsm fuel (.mk .UNTIL l r) (int_wrap (time + 1))
              bound offset phi.2).bind fun then_ =>
            some (Be.Or psi.1 (Be.And phi.1 then_.1), then_.2)
        | .mk .RELEASES l r =>
            (sem_no_loop_offset_int fsm fuel r time bound offset W).bind fun psi =>
            (sem_no_loop_offset_int fsm fuel l time bound offset psi.2).bind fun phi =>
            (sem_no_loop_offset_int fsm fuel (.mk .RELEASES l r) (int_wrap (time + 1))
              bound offset phi.2).bind fun then_ =>
            some (Be.And psi.1 (Be.Or phi.1 then_.1), then_.2)
        | f => some (proposition_at_time fsm.enc f (int_wrap (time + offset)), W)
    r.map fun r1 =>
      (r1.1, r1.2.ran (MEMOIZER_key formula time bound Bmc_Utils_GetNoLoopback offset))
termination_by (fuel, 0)
decreasing_by
  all_goals (apply Prod.Lex.left; omega)

end

mutual

/-- The function `sem_with_loop_offset` on the C type `int`; `fuel` bounds
the depth of the nested runs of the raw body and the number of times a
loop tests its condition, and the result is `none` when it does not
suffice. -/
def sem_with_loop_offset_int (fsm : BeFsm) (fuel : Nat) (formula : node)
    (time bound loop offset : Int) (W : MemoState) : Option (Be × MemoState) :=
  let key := MEMOIZER_key formula time bound loop offset
  match MEMOIZER_get key W with
  | (some result, W1) => some (result, W1)
  | (none, W1) =>
      match NO_MEMOIZE_sem_with_loop_offset_int fsm fuel formula time bound loop offset W1 with
      | none => none
      | some r => some (r.1, MEMOIZER_put key r.1 r.2)
termination_by (fuel, 1)
decreasing_by
  all_goals (apply Prod.Lex.right; omega)

/-- The function `NO_MEMOIZE_sem_with_loop_offset` on the C type `int`, the
recursive calls made through the memoizing wrapper and the loops run by
`for_up` and `for_down`; a run with no fuel left gives up (`none`). -/
def NO_MEMOIZE_sem_with_loop_offset_int (fsm : BeFsm) (fuel : Nat) (formula : node)
    (time bound loop offset : Int) (W : MemoState) : Option (Be × MemoState) :=
  match fuel with
  | 0 => none
  | fuel + 1 =>
    let r : Option (Be × MemoState) :=
      if bound = 0 then some (Be.Falsity, W)
      else if time > bound then some (Be.Falsity, W)
      else
        match formula with
        | .mk .AND l r =>
            (sem_with_loop_offset_int fsm fuel l time bound loop offset W).bind fun left =>
            (sem_with_loop_offset_int fsm fuel r time bound loop offset left.2).bind
              fun right => some (Be.And left.1 right.1, right.2)
        | .mk .OR l r =>
            (sem_with_loop_offset_int fsm fuel l time bound loop offset W).bind fun left =>
            (sem_with_loop_offset_int fsm fuel r time bound loop offset left.2).bind
              fun right => some (Be.Or left.1 right.1, right.2)
        | .mk .XOR l r =>
            (sem_with_loop_offset_int fsm fuel l time bound loop offset W).bind fun left =>
            (sem_with_loop_offset_int fsm fuel r time bound loop offset left.2).bind
              fun right => some (Be.Xor left.1 right.1, right.2)
        | .mk .NOT l _ =>
            (sem_with_loop_offset_int fsm fuel l time bound loop offset W).bind fun left =>
            some (Be.Not left.1, left.2)
        | .mk .IMPLIES l r =>
            (sem_with_loop_offset_int fsm fuel l time bound loop offset W).bind fun left =>
            (sem_with_loop_offset_int fsm fuel r time bound loop offset left.2).bind
              fun right => some (Be.Implies left.1 right.1, right.2)
        | .mk .IFF l r =>
            (sem_with_loop_offset_int fsm fuel l time bound loop offset W).bind fun left =>
            (sem_with_loop_offset_int fsm fuel r time bound loop offset left.2).bind
              fun right => some (Be.Iff left.1 right.1, right.2)
        | .mk .OP_NEXT l _ =>
            sem_with_loop_offset_int fsm fuel l (succ_int bound loop time) bound loop offset W
        | .mk .OP_GLOBAL l _ =>
            for_up
              (fun i acc =>
                (sem_with_loop_offset_int fsm fuel l i bound loop offset acc.2).bind
                  fun phi => some (Be.And acc.1 phi.1, phi.2))
              fuel (min time loop) bound (Be.Truth, W)
        | .mk .OP_FUTURE l _ =>
            for_up
              (fun i acc =>
                (sem_with_loop_offset_int fsm fuel l i bound loop offset acc.2).bind
                  fun phi => some (Be.Or acc.1 phi.1, phi.2))
              fuel (min time loop) bound (Be.Falsity, W)
        | .mk .UNTIL l r =>
            for_down
              (fun i acc =>
                (sem_with_loop_offset_int fsm fuel r i bound loop offset acc.2).bind
                  fun psi =>
                (sem_with_loop_offset_int fsm fuel l i bound loop offset psi.2).bind
                  fun phi => some (Be.Or psi.1 (Be.And phi.1 acc.1), phi.2))
              fuel (int_wrap (bound - 1)) (min time loop) (Be.Falsity, W)
        | .mk .RELEASES l r =>
            (sem_with_loop_offset_int fsm fuel r (int_wrap (bound - 1)) bound loop offset
              W).bind fun seed =>
            for_down
              (fun i acc =>
                (sem_with_loop_offset_int fsm fuel r i bound loop offset acc.2).bind
                  fun psi =>
                (sem_with_loop_offset_int fsm fuel l i bound loop offset psi.2).bind
                  fun phi => some (Be.And psi.1 (Be.Or phi.1 acc.1), phi.2))
              fuel (int_wrap (bound - 2)) (min time loop) seed
        | f => some (proposition_at_time fsm.enc f (int_wrap (time + offset)), W)
    r.map fun r1 => (r1.1, r1.2.ran (MEMOIZER_key formula time bound loop offset))
termination_by (fuel, 0)
decreasing_by
  all_goals (apply Prod.Lex.left; omega)

end

/-! ## A concrete path -/

/-- The infinite path whose only true atom is `q` (the atom 1) in the state
of position 1. -/
def path_q_at_one : Nat → Nat → Bool :=
  fun i p => decide (p = 1) && decide (i = 1)

/-! ## Sequences of encoder calls -/

/-- One call of a memoized encoder, with its arguments. -/
inductive EncoderCall where
  | no_loop (fsm : BeFsm) (formula : node) (time bound offset : Int) : EncoderCall
  | with_loop (fsm : BeFsm) (formula : node) (time bound loop offset : Int) : EncoderCall

/-- The global state that a call of a memoized encoder leaves. -/
def EncoderCall.run : EncoderCall → MemoState → MemoState
  | .no_loop fsm formula time bound offset, W =>
      (sem_no_loop_offset fsm formula time bound offset W).2
  | .with_loop fsm formula time bound loop offset, W =>
      (sem_with_loop_offset fsm formula time bound loop offset W).2

/-- The global state after a sequence of calls of the memoized encoders,
made one after the other with no `MEMOIZER_clear` in between. -/
def run_calls (calls : List EncoderCall) (W : MemoState) : MemoState :=
  calls.foldl (fun W1 c => c.run W1) W

/-- An encoder that converts the atom `p` to the variable `p + 100`. -/
def shifted_enc : BeEnc :=
  { Bexp2Be := fun f => match f with
      | node.atom p => Be.Var (p + 100) none
      | _ => Be.Falsity,
    state_vars := [100, 101] }

/-- A transition system over `shifted_enc` without fairness constraints. -/
def shifted_fsm : BeFsm := { enc := shifted_enc, fairness_list := [] }

/-! ## Unfolding the encoder without loop -/

theorem no_loop_past_bound (fsm : BeFsm) (formula : node) (time bound offset : Int)
    (h : time > bound) :
    NO_MEMOIZE_sem_no_loop_offset fsm formula time bound offset = Be.Falsity := by
  unfold NO_MEMOIZE_sem_no_loop_offset
  simp [h]

theorem no_loop_GLOBAL (fsm : BeFsm) (l r : node) (time bound offset : Int) :
    NO_MEMOIZE_sem_no_loop_offset fsm (node.mk NodeType.OP_GLOBAL l r) time bound offset
      = Be.Falsity := by
  rw [NO_MEMOIZE_sem_no_loop_offset]
  simp

theorem no_loop_FUTURE (fsm : BeFsm) (l r : node) (time bound offset : Int)
    (h : time ≤ bound) :
    NO_MEMOIZE_sem_no_loop_offset fsm (node.mk NodeType.OP_FUTURE l r) time bound offset
      = Be.Or (NO_MEMOIZE_sem_no_loop_offset fsm l time bound offset)
          (NO_MEMOIZE_sem_no_loop_offset fsm (node.mk NodeType.OP_FUTURE l r) (time + 1)
            bound offset) := by
  rw [NO_MEMOIZE_sem_no_loop_offset]
  simp [not_lt.mpr h]

theorem no_loop_UNTIL (fsm : BeFsm) (l r : node) (time bound offset : Int)
    (h : time ≤ bound) :
    NO_MEMOIZE_sem_no_loop_offset fsm (node.mk NodeType.UNTIL l r) time bound offset
      = Be.Or (NO_MEMOIZE_sem_no_loop_offset fsm r time bound offset)
          (Be.And (NO_MEMOIZE_sem_no_loop_offset fsm l time bound offset)
            (NO_MEMOIZE_sem_no_loop_offset fsm (node.mk NodeType.UNTIL l r) (time + 1)
              bound offset)) := by
  rw [NO_MEMOIZE_sem_no_loop_offset]
  simp [not_lt.mpr h]

theorem no_loop_RELEASES (fsm : BeFsm) (l r : node) (time bound offset : Int)
    (h : time ≤ bound) :
    NO_MEMOIZE_sem_no_loop_offset fsm (node.mk NodeType.RELEASES l r) time bound offset
      = Be.And (NO_MEMOIZE_sem_no_loop_offset fsm r time bound offset)
          (Be.Or (NO_MEMOIZE_sem_no_loop_offset fsm l time bound offset)
            (NO_MEMOIZE_sem_no_loop_offset fsm (node.mk NodeType.RELEASES l r) (time + 1)
              bound offset)) := by
  rw [NO_MEMOIZE_sem_no_loop_offset]
  simp [not_lt.mpr h]

theorem no_loop_NEXT (fsm : BeFsm) (l r : node) (time bound offset : Int)
    (h : time ≤ bound) :
    NO_MEMOIZE_sem_no_loop_offset fsm (node.mk NodeType.OP_NEXT l r) time bound offset
      = NO_MEMOIZE_sem_no_loop_offset fsm l (time + 1) bound offset := by
  rw [NO_MEMOIZE_sem_no_loop_offset]
  simp [not_lt.mpr h]

theorem no_loop_AND (fsm : BeFsm) (l r : node) (time bound offset : Int)
    (h : time ≤ bound) :
    NO_MEMOIZE_sem_no_loop_offset fsm (node.mk NodeType.AND l r) time bound offset
      = Be.And (NO_MEMOIZE_sem_no_loop_offset fsm l time bound offset)
          (NO_MEMOIZE_sem_no_loop_offset fsm r time bound offset) := by
  rw [NO_MEMOIZE_sem_no_loop_offset]
  simp [not_lt.mpr h]

theorem no_loop_OR (fsm : BeFsm) (l r : node) (time bound offset : Int)
    (h : time ≤ bound) :
    NO_MEMOIZE_sem_no_loop_offset fsm (node.mk NodeType.OR l r) time bound offset
      = Be.Or (NO_MEMOIZE_sem_no_loop_offset fsm l time bound offset)
          (NO_MEMOIZE_sem_no_loop_offset fsm r time bound offset) := by
  rw [NO_MEMOIZE_sem_no_loop_offset]
  simp [not_lt.mpr h]

theorem no_loop_NOT (fsm : BeFsm) (l r : node) (time bound offset : Int)
    (h : time ≤ bound) :
    NO_MEMOIZE_sem_no_loop_offset fsm (node.mk NodeType.NOT l r) time bound offset
      = Be.Not (NO_MEMOIZE_sem_no_loop_offset fsm l time bound offset) := by
  rw [NO_MEMOIZE_sem_no_loop_offset]
  simp [not_lt.mpr h]

theorem no_loop_atom (fsm : BeFsm) (p : Nat) (time bound offset : Int)
    (h : time ≤ bound) :
    NO_MEMOIZE_sem_no_loop_offset fsm (node.atom p) time bound offset
      = proposition_at_time fsm.enc (node.atom p) (time + offset) := by
  unfold NO_MEMOIZE_sem_no_loop_offset
  simp [not_lt.mpr h]

/-! ## What the unrolled operators of the encoder without loop evaluate to -/

theorem no_loop_future_eval_aux (fsm : BeFsm) (σ : Assignment) (l r : node) (k o : Int) :
    ∀ (n : Nat) (t : Int), (k + 1 - t).toNat = n → t ≤ k + 1 →
      ((NO_MEMOIZE_sem_no_loop_offset fsm (node.mk NodeType.OP_FUTURE l r) t k o).eval σ = true ↔
        ∃ i, t ≤ i ∧ i ≤ k ∧ (NO_MEMOIZE_sem_no_loop_offset fsm l i k o).eval σ = true) := by
  intro n
  induction n with
  | zero =>
    intro t hn ht
    have htk : t = k + 1 := by omega
    subst htk
    rw [no_loop_past_bound _ _ _ _ _ (by omega)]
    simp only [Be.eval, Bool.false_eq_true, false_iff, not_exists, not_and]
    intro i h1 h2
    omega
  | succ n ih =>
    intro t hn ht
    have htk : t ≤ k := by omega
    rw [no_loop_FUTURE _ _ _ _ _ _ htk]
    simp only [Be.eval, Bool.or_eq_true]
    rw [ih (t + 1) (by omega) (by omega)]
    constructor
    · rintro (h | ⟨i, h1, h2, h3⟩)
      · exact ⟨t, le_refl _, htk, h⟩
      · exact ⟨i, by omega, h2, h3⟩
    · rintro ⟨i, h1, h2, h3⟩
      by_cases hi : i = t
      · left
        subst hi
        exact h3
      · right
        exact ⟨i, by omega, h2, h3⟩

theorem no_loop_future_eval (fsm : BeFsm) (σ : Assignment) (l r : node) (t k o : Int)
    (h : t ≤ k) :
    (NO_MEMOIZE_sem_no_loop_offset fsm (node.mk NodeType.OP_FUTURE l r) t k o).eval σ = true ↔
      ∃ i, t ≤ i ∧ i ≤ k ∧ (NO_MEMOIZE_sem_no_loop_offset fsm l i k o).eval σ = true :=
  no_loop_future_eval_aux fsm σ l r k o _ t rfl (by omega)

theorem no_loop_until_eval_aux (fsm : BeFsm) (σ : Assignment) (l r : node) (k o : Int) :
    ∀ (n : Nat) (t : Int), (k + 1 - t).toNat = n → t ≤ k + 1 →
      ((NO_MEMOIZE_sem_no_loop_offset fsm (node.mk NodeType.UNTIL l r) t k o).eval σ = true ↔
        ∃ j, t ≤ j ∧ j ≤ k ∧ (NO_MEMOIZE_sem_no_loop_offset fsm r j k o).eval σ = true ∧
          ∀ m, t ≤ m → m < j → (NO_MEMOIZE_sem_no_loop_offset fsm l m k o).eval σ = true) := by
  intro n
  induction n with
  | zero =>
    intro t hn ht
    have htk : t = k + 1 := by omega
    subst htk
    rw [no_loop_past_bound _ _ _ _ _ (by omega)]
    simp only [Be.eval, Bool.false_eq_true, false_iff, not_exists, not_and]
    intro i h1 h2
    omega
  | succ n ih =>
    intro t hn ht
    have htk : t ≤ k := by omega
    rw [no_loop_UNTIL _ _ _ _ _ _ htk]
    simp only [Be.eval, Bool.or_eq_true, Bool.and_eq_true]
    rw [ih (t + 1) (by omega) (by omega)]
    constructor
    · rintro (h | ⟨hphi, j, h1, h2, h3, h4⟩)
      · exact ⟨t, le_refl _, htk, h, fun m hm1 hm2 => by omega⟩
      · refine ⟨j, by omega, h2, h3, fun m hm1 hm2 => ?_⟩
        by_cases hm : m = t
        · subst hm
          exact hphi
        · exact h4 m (by omega) hm2
    · rintro ⟨j, h1, h2, h3, h4⟩
      by_cases hj : j = t
      · left
        subst hj
        exact h3
      · right
        exact ⟨h4 t (le_refl _) (by omega), j, by omega, h2, h3,
          fun m hm1 hm2 => h4 m (by omega) hm2⟩

theorem no_loop_until_eval (fsm : BeFsm) (σ : Assignment) (l r : node) (t k o : Int)
    (h : t ≤ k) :
    (NO_MEMOIZE_sem_no_loop_offset fsm (node.mk NodeType.UNTIL l r) t k o).eval σ = true ↔
      ∃ j, t ≤ j ∧ j ≤ k ∧ (NO_MEMOIZE_sem_no_loop_offset fsm r j k o).eval σ = true ∧
        ∀ m, t ≤ m → m < j → (NO_MEMOIZE_sem_no_loop_offset fsm l m k o).eval σ = true :=
  no_loop_until_eval_aux fsm σ l r k o _ t rfl (by omega)

theorem no_loop_releases_eval_aux (fsm : BeFsm) (σ : Assignment) (l r : node) (k o : Int) :
    ∀ (n : Nat) (t : Int), (k + 1 - t).toNat = n → t ≤ k + 1 →
      ((NO_MEMOIZE_sem_no_loop_offset fsm (node.mk NodeType.RELEASES l r) t k o).eval σ = true ↔
        ∃ j, t ≤ j ∧ j ≤ k ∧ (NO_MEMOIZE_sem_no_loop_offset fsm l j k o).eval σ = true ∧
          ∀ m, t ≤ m → m ≤ j → (NO_MEMOIZE_sem_no_loop_offset fsm r m k o).eval σ = true) := by
  intro n
  induction n with
  | zero =>
    intro t hn ht
    have htk : t = k + 1 := by omega
    subst htk
    rw [no_loop_past_bound _ _ _ _ _ (by omega)]
    simp only [Be.eval, Bool.false_eq_true, false_iff, not_exists, not_and]
    intro i h1 h2
    omega
  | succ n ih =>
    intro t hn ht
    have htk : t ≤ k := by omega
    rw [no_loop_RELEASES _ _ _ _ _ _ htk]
    simp only [Be.eval, Bool.or_eq_true, Bool.and_eq_true]
    rw [ih (t + 1) (by omega) (by omega)]
    constructor
    · rintro ⟨hpsi, h | ⟨j, h1, h2, h3, h4⟩⟩
      · refine ⟨t, le_refl _, htk, h, fun m hm1 hm2 => ?_⟩
        have hm : m = t := by omega
        subst hm
        exact hpsi
      · refine ⟨j, by omega, h2, h3, fun m hm1 hm2 => ?_⟩
        by_cases hm : m = t
        · subst hm
          exact hpsi
        · exact h4 m (by omega) hm2
    · rintro ⟨j, h1, h2, h3, h4⟩
      refine ⟨h4 t (le_refl _) h1, ?_⟩
      by_cases hj : j = t
      · left
        subst hj
        exact h3
      · right
        exact ⟨j, by omega, h2, h3, fun m hm1 hm2 => h4 m (by omega) hm2⟩

theorem no_loop_releases_eval (fsm : BeFsm) (σ : Assignment) (l r : node) (t k o : Int)
    (h : t ≤ k) :
    (NO_MEMOIZE_sem_no_loop_offset fsm (node.mk NodeType.RELEASES l r) t k o).eval σ = true ↔
      ∃ j, t ≤ j ∧ j ≤ k ∧ (NO_MEMOIZE_sem_no_loop_offset fsm l j k o).eval σ = true ∧
        ∀ m, t ≤ m → m ≤ j → (NO_MEMOIZE_sem_no_loop_offset fsm r m k o).eval σ = true :=
  no_loop_releases_eval_aux fsm σ l r k o _ t rfl (by omega)

/-! ## Unfolding the encoder with loop -/

theorem mem_int_range (lo hi i : Int) : i ∈ int_range lo hi ↔ lo ≤ i ∧ i < hi := by
  unfold int_range
  simp only [List.mem_map, List.mem_range]
  constructor
  · rintro ⟨n, hn, rfl⟩
    omega
  · rintro ⟨h1, h2⟩
    exact ⟨(i - lo).toNat, by omega, by omega⟩

theorem foldl_and_eval (σ : Assignment) (g : Int → Be) (L : List Int) (init : Be) :
    (L.foldl (fun result i => Be.And result (g i)) init).eval σ = true ↔
      init.eval σ = true ∧ ∀ i ∈ L, (g i).eval σ = true := by
  induction L generalizing init with
  | nil => simp
  | cons a L ih =>
    rw [List.foldl_cons, ih]
    simp only [Be.eval, Bool.and_eq_true, List.mem_cons, forall_eq_or_imp]
    tauto

theorem foldl_or_eval (σ : Assignment) (g : Int → Be) (L : List Int) (init : Be) :
    (L.foldl (fun result i => Be.Or result (g i)) init).eval σ = true ↔
      init.eval σ = true ∨ ∃ i ∈ L, (g i).eval σ = true := by
  induction L generalizing init with
  | nil => simp
  | cons a L ih =>
    rw [List.foldl_cons, ih]
    simp only [Be.eval, Bool.or_eq_true, List.mem_cons, exists_eq_or_imp]
    tauto

theorem with_loop_GLOBAL (fsm : BeFsm) (l r : node) (time bound loop offset : Int)
    (hb : bound ≠ 0) (h : time ≤ bound) :
    NO_MEMOIZE_sem_with_loop_offset fsm (node.mk NodeType.OP_GLOBAL l r) time bound loop offset
      = (int_range (min time loop) bound).foldl
          (fun result i =>
            Be.And result (NO_MEMOIZE_sem_with_loop_offset fsm l i bound loop offset))
          Be.Truth := by
  rw [NO_MEMOIZE_sem_with_loop_offset]
  simp [hb, not_lt.mpr h]

theorem with_loop_FUTURE (fsm : BeFsm) (l r : node) (time bound loop offset : Int)
    (hb : bound ≠ 0) (h : time ≤ bound) :
    NO_MEMOIZE_sem_with_loop_offset fsm (node.mk NodeType.OP_FUTURE l r) time bound loop offset
      = (int_range (min time loop) bound).foldl
          (fun result i =>
            Be.Or result (NO_MEMOIZE_sem_with_loop_offset fsm l i bound loop offset))
          Be.Falsity := by
  rw [NO_MEMOIZE_sem_with_loop_offset]
  simp [hb, not_lt.mpr h]

theorem with_loop_NOT (fsm : BeFsm) (l r : node) (time bound loop offset : Int)
    (hb : bound ≠ 0) (h : time ≤ bound) :
    NO_MEMOIZE_sem_with_loop_offset fsm (node.mk NodeType.NOT l r) time bound loop offset
      = Be.Not (NO_MEMOIZE_sem_with_loop_offset fsm l time bound loop offset) := by
  rw [NO_MEMOIZE_sem_with_loop_offset]
  simp [hb, not_lt.mpr h]

theorem with_loop_base (fsm : BeFsm) (formula : node) (time bound loop offset : Int)
    (h : bound = 0 ∨ time > bound) :
    NO_MEMOIZE_sem_with_loop_offset fsm formula time bound loop offset = Be.Falsity := by
  unfold NO_MEMOIZE_sem_with_loop_offset
  rcases h with h | h
  · simp [h]
  · simp [h]

/-! ## The successor function -/

/-- C3 (evaluation of the code): with the "no loop" sentinel as `l`, `succ`
returns the sentinel, not `time + 1`, as soon as `time >= k - 1`: for
`k = 5` at the times 4 and 5. -/
theorem succ_no_loopback_returns_sentinel :
    succ 5 Bmc_Utils_GetNoLoopback 4 = Bmc_Utils_GetNoLoopback ∧
      succ 5 Bmc_Utils_GetNoLoopback 4 ≠ 4 + 1 ∧
      succ 5 Bmc_Utils_GetNoLoopback 5 = Bmc_Utils_GetNoLoopback ∧
      succ 5 Bmc_Utils_GetNoLoopback 5 ≠ 5 + 1 := by
  decide

/-- C4: for a real loop start `0 <= l < k`, `succ k l time` is `time + 1`
when `time < k - 1` and `l` otherwise; in particular `succ k l (k - 1) = l`. -/
theorem succ_real_loop (k l time : Int) (_hl : 0 ≤ l) (_hlk : l < k) :
    (time < k - 1 → succ k l time = time + 1) ∧
      (¬ time < k - 1 → succ k l time = l) ∧
      succ k l (k - 1) = l := by
  refine ⟨fun h => ?_, fun h => ?_, ?_⟩
  · simp [succ, h]
  · simp [succ, h]
  · simp [succ]

theorem succ_real_loop_witness :
    (0 : Int) ≤ 1 ∧ (1 : Int) < 3 ∧
      (((2 : Int) < 3 - 1 → succ 3 1 2 = 2 + 1) ∧
        (¬ (2 : Int) < 3 - 1 → succ 3 1 2 = 1) ∧
        succ 3 1 (3 - 1) = 1) :=
  ⟨by decide, by decide, succ_real_loop 3 1 2 (by decide) (by decide)⟩

/-! ## The encoder without loop -/

/-- C2: on a formula in negation normal form, at a time `t <= k` and with
offset 0, the encoding without loop evaluates to true exactly when the
formula holds at `t` in the bounded semantics without loop of Biere et al.
(`Nnf.bounded_holds`), the atoms having the values the assignment gives them. -/
theorem sem_no_loop_is_bounded_semantics (fsm : BeFsm) (σ : Assignment) (f : Nnf)
    (k t : Int) (h : t ≤ k) :
    (NO_MEMOIZE_sem_no_loop_offset fsm f.toNode t k 0).eval σ = true ↔
      f.bounded_holds (atom_value fsm σ) k t := by
  induction f generalizing t with
  | atom p =>
    simp only [Nnf.toNode, Nnf.bounded_holds, atom_value]
    rw [no_loop_atom _ _ _ _ _ h, Int.add_zero]
  | natom p =>
    simp only [Nnf.toNode, Nnf.bounded_holds, atom_value]
    rw [no_loop_NOT _ _ _ _ _ _ h, no_loop_atom _ _ _ _ _ h, Int.add_zero]
    simp [Be.eval]
  | and f g ihf ihg =>
    simp only [Nnf.toNode, Nnf.bounded_holds]
    rw [no_loop_AND _ _ _ _ _ _ h]
    simp only [Be.eval, Bool.and_eq_true, ihf t h, ihg t h]
  | or f g ihf ihg =>
    simp only [Nnf.toNode, Nnf.bounded_holds]
    rw [no_loop_OR _ _ _ _ _ _ h]
    simp only [Be.eval, Bool.or_eq_true, ihf t h, ihg t h]
  | next f ih =>
    simp only [Nnf.toNode, Nnf.bounded_holds]
    rw [no_loop_NEXT _ _ _ _ _ _ h]
    by_cases htk : t < k
    · rw [ih (t + 1) (by omega)]
      exact ⟨fun hf => ⟨htk, hf⟩, fun hf => hf.2⟩
    · rw [no_loop_past_bound _ _ _ _ _ (by omega)]
      simp [Be.eval, htk]
  | globally f _ =>
    simp only [Nnf.toNode, Nnf.bounded_holds]
    rw [no_loop_GLOBAL]
    simp [Be.eval]
  | eventually f ih =>
    simp only [Nnf.toNode, Nnf.bounded_holds]
    rw [no_loop_future_eval _ _ _ _ _ _ _ h]
    constructor
    · rintro ⟨j, h1, h2, h3⟩
      exact ⟨j, h1, h2, (ih j h2).mp h3⟩
    · rintro ⟨j, h1, h2, h3⟩
      exact ⟨j, h1, h2, (ih j h2).mpr h3⟩
  | «until» f g ihf ihg =>
    simp only [Nnf.toNode, Nnf.bounded_holds]
    rw [no_loop_until_eval _ _ _ _ _ _ _ h]
    constructor
    · rintro ⟨j, h1, h2, h3, h4⟩
      exact ⟨j, h1, h2, (ihg j h2).mp h3, fun m hm1 hm2 => (ihf m (by omega)).mp (h4 m hm1 hm2)⟩
    · rintro ⟨j, h1, h2, h3, h4⟩
      exact ⟨j, h1, h2, (ihg j h2).mpr h3, fun m hm1 hm2 => (ihf m (by omega)).mpr (h4 m hm1 hm2)⟩
  | releases f g ihf ihg =>
    simp only [Nnf.toNode, Nnf.bounded_holds]
    rw [no_loop_releases_eval _ _ _ _ _ _ _ h]
    constructor
    · rintro ⟨j, h1, h2, h3, h4⟩
      exact ⟨j, h1, h2, (ihf j h2).mp h3, fun m hm1 hm2 => (ihg m (by omega)).mp (h4 m hm1 hm2)⟩
    · rintro ⟨j, h1, h2, h3, h4⟩
      exact ⟨j, h1, h2, (ihf j h2).mpr h3, fun m hm1 hm2 => (ihg m (by omega)).mpr (h4 m hm1 hm2)⟩

theorem sem_no_loop_is_bounded_semantics_witness :
    (0 : Int) ≤ 2 ∧
      ((NO_MEMOIZE_sem_no_loop_offset example_fsm
          (Nnf.until (Nnf.natom 0) (Nnf.atom 1)).toNode 0 2 0).eval q_at_one = true ↔
        (Nnf.until (Nnf.natom 0) (Nnf.atom 1)).bounded_holds
          (atom_value example_fsm q_at_one) 2 0) :=
  ⟨by decide,
    sem_no_loop_is_bounded_semantics example_fsm q_at_one
      (Nnf.until (Nnf.natom 0) (Nnf.atom 1)) 2 0 (by decide)⟩

/-- C5: past the bound (`time > bound`) the encoding without loop of every
formula node, whatever its tag, and for every offset, is falsity. -/
theorem sem_no_loop_falsity_past_bound (fsm : BeFsm) (formula : node)
    (time bound offset : Int) (h : time > bound) :
    NO_MEMOIZE_sem_no_loop_offset fsm formula time bound offset = Be.Falsity :=
  no_loop_past_bound fsm formula time bound offset h

theorem sem_no_loop_falsity_past_bound_witness :
    (3 : Int) > 2 ∧
      NO_MEMOIZE_sem_no_loop_offset example_fsm (node.mk NodeType.NOT (node.atom 0) node.Nil)
        3 2 7 = Be.Falsity :=
  ⟨by decide,
    sem_no_loop_falsity_past_bound example_fsm (node.mk NodeType.NOT (node.atom 0) node.Nil)
      3 2 7 (by decide)⟩

/-- C6: the encoding without loop of `GLOBALLY(phi)` is falsity for every
sub-formula `phi`, time, bound and offset. -/
theorem sem_no_loop_globally_falsity (fsm : BeFsm) (phi cdr : node)
    (time bound offset : Int) :
    NO_MEMOIZE_sem_no_loop_offset fsm (node.mk NodeType.OP_GLOBAL phi cdr) time bound offset
      = Be.Falsity :=
  no_loop_GLOBAL fsm phi cdr time bound offset

/-- C7: at a time `t <= k` the encoding without loop of `EVENTUALLY(phi)`
is equivalent to the disjunction of the encodings of `phi` at the times
`t .. k`; for an atom `p`, bound 2, time 0 and offset 0 it has the value of
`p@0 OR p@1 OR p@2`. -/
theorem sem_no_loop_eventually_unrolled (fsm : BeFsm) (σ : Assignment) (phi : node)
    (p : Nat) (t k offset : Int) :
    (t ≤ k →
      ((NO_MEMOIZE_sem_no_loop_offset fsm (node.mk NodeType.OP_FUTURE phi node.Nil)
          t k offset).eval σ = true ↔
        ∃ i, t ≤ i ∧ i ≤ k ∧
          (NO_MEMOIZE_sem_no_loop_offset fsm phi i k offset).eval σ = true)) ∧
      (NO_MEMOIZE_sem_no_loop_offset fsm (node.mk NodeType.OP_FUTURE (node.atom p) node.Nil)
          0 2 0).eval σ =
        ((proposition_at_time fsm.enc (node.atom p) 0).eval σ ||
          (proposition_at_time fsm.enc (node.atom p) 1).eval σ ||
          (proposition_at_time fsm.enc (node.atom p) 2).eval σ) := by
  refine ⟨fun h => no_loop_future_eval fsm σ phi node.Nil t k offset h, ?_⟩
  have e0 : NO_MEMOIZE_sem_no_loop_offset fsm (node.mk NodeType.OP_FUTURE (node.atom p) node.Nil)
      0 2 0 = Be.Or (NO_MEMOIZE_sem_no_loop_offset fsm (node.atom p) 0 2 0)
        (NO_MEMOIZE_sem_no_loop_offset fsm (node.mk NodeType.OP_FUTURE (node.atom p) node.Nil)
          1 2 0) := no_loop_FUTURE fsm _ _ 0 2 0 (by decide)
  have e1 : NO_MEMOIZE_sem_no_loop_offset fsm (node.mk NodeType.OP_FUTURE (node.atom p) node.Nil)
      1 2 0 = Be.Or (NO_MEMOIZE_sem_no_loop_offset fsm (node.atom p) 1 2 0)
        (NO_MEMOIZE_sem_no_loop_offset fsm (node.mk NodeType.OP_FUTURE (node.atom p) node.Nil)
          2 2 0) := no_loop_FUTURE fsm _ _ 1 2 0 (by decide)
  have e2 : NO_MEMOIZE_sem_no_loop_offset fsm (node.mk NodeType.OP_FUTURE (node.atom p) node.Nil)
      2 2 0 = Be.Or (NO_MEMOIZE_sem_no_loop_offset fsm (node.atom p) 2 2 0)
        (NO_MEMOIZE_sem_no_loop_offset fsm (node.mk NodeType.OP_FUTURE (node.atom p) node.Nil)
          3 2 0) := no_loop_FUTURE fsm _ _ 2 2 0 (by decide)
  have e3 := no_loop_past_bound fsm (node.mk NodeType.OP_FUTURE (node.atom p) node.Nil)
    3 2 0 (by decide)
  have a0 : NO_MEMOIZE_sem_no_loop_offset fsm (node.atom p) 0 2 0
      = proposition_at_time fsm.enc (node.atom p) 0 := no_loop_atom fsm p 0 2 0 (by decide)
  have a1 : NO_MEMOIZE_sem_no_loop_offset fsm (node.atom p) 1 2 0
      = proposition_at_time fsm.enc (node.atom p) 1 := no_loop_atom fsm p 1 2 0 (by decide)
  have a2 : NO_MEMOIZE_sem_no_loop_offset fsm (node.atom p) 2 2 0
      = proposition_at_time fsm.enc (node.atom p) 2 := no_loop_atom fsm p 2 2 0 (by decide)
  rw [e0, e1, e2, e3, a0, a1, a2]
  simp [Be.eval, Bool.or_assoc]

theorem sem_no_loop_eventually_unrolled_witness :
    ((0 : Int) ≤ 2 →
      ((NO_MEMOIZE_sem_no_loop_offset example_fsm (node.mk NodeType.OP_FUTURE (node.atom 1) node.Nil)
          0 2 0).eval q_at_one = true ↔
        ∃ i, (0 : Int) ≤ i ∧ i ≤ 2 ∧
          (NO_MEMOIZE_sem_no_loop_offset example_fsm (node.atom 1) i 2 0).eval q_at_one = true)) ∧
      (NO_MEMOIZE_sem_no_loop_offset example_fsm (node.mk NodeType.OP_FUTURE (node.atom 1) node.Nil)
          0 2 0).eval q_at_one =
        ((proposition_at_time example_fsm.enc (node.atom 1) 0).eval q_at_one ||
          (proposition_at_time example_fsm.enc (node.atom 1) 1).eval q_at_one ||
          (proposition_at_time example_fsm.enc (node.atom 1) 2).eval q_at_one) :=
  sem_no_loop_eventually_unrolled example_fsm q_at_one (node.atom 1) 1 0 2 0

/-! ## The encoder with loop -/

/-- C1 (evaluation of the code): for `X (p U q)`, bound 2, loop start 0 and
the assignment `q_at_start` (which gives every atom the same value at the
times 2 and 0), the encoding with loop at time 0 evaluates to true although
the formula does not hold at position 0 of the lasso path `(s_0 s_1)^ω`:
the fold of UNTIL entered at time 1 starts at the loop start 0. -/
theorem sem_with_loop_next_until_diverges :
    (∀ p, atom_value example_fsm q_at_start p 2 = atom_value example_fsm q_at_start p 0) ∧
      (NO_MEMOIZE_sem_with_loop_offset example_fsm next_until.toNode 0 2 0 0).eval q_at_start
        = true ∧
      ¬ next_until.holds (lasso_path (atom_value example_fsm q_at_start) 2 0) 0 := by
  refine ⟨?_, by decide, ?_⟩
  · intro p
    simp [atom_value, proposition_at_time, example_fsm, example_enc,
      BeEnc_untimed_expr_to_timed, Be.eval, q_at_start]
  · simp only [next_until, Ltl.holds]
    rintro ⟨j, hj, hq, hp⟩
    rcases Nat.eq_or_lt_of_le hj with h | h
    · subst h
      revert hq
      decide
    · have h1 := hp 1 (le_refl _) h
      revert h1
      decide

/-- C8: the encoding with loop of every formula node is falsity whenever
`bound = 0` or `time > bound`, for every loop and offset. -/
theorem sem_with_loop_base_cases (fsm : BeFsm) (formula : node)
    (time bound loop offset : Int) (h : bound = 0 ∨ time > bound) :
    NO_MEMOIZE_sem_with_loop_offset fsm formula time bound loop offset = Be.Falsity :=
  with_loop_base fsm formula time bound loop offset h

theorem sem_with_loop_base_cases_witness :
    ((0 : Int) = 0 ∨ (0 : Int) > 0) ∧
      NO_MEMOIZE_sem_with_loop_offset example_fsm (node.atom 0) 0 0 0 0 = Be.Falsity :=
  ⟨Or.inl rfl, sem_with_loop_base_cases example_fsm (node.atom 0) 0 0 0 0 (Or.inl rfl)⟩

/-- C9: for `bound >= 1` and `time <= bound` the encoding with loop of
`GLOBALLY(phi)` is the conjunction, seeded with truth, of the encodings of
`phi` at the integers `i` with `min(time, loop) <= i < bound` in increasing
order: it evaluates to true exactly when the encoding of `phi` does at every
such `i`, and it is truth when there is no such `i`. -/
theorem sem_with_loop_globally (fsm : BeFsm) (σ : Assignment) (phi : node)
    (time bound loop offset : Int) (hb : 1 ≤ bound) (ht : time ≤ bound) :
    NO_MEMOIZE_sem_with_loop_offset fsm (node.mk NodeType.OP_GLOBAL phi node.Nil)
        time bound loop offset
      = (int_range (min time loop) bound).foldl
          (fun result i =>
            Be.And result (NO_MEMOIZE_sem_with_loop_offset fsm phi i bound loop offset))
          Be.Truth ∧
      (∀ i, i ∈ int_range (min time loop) bound ↔ min time loop ≤ i ∧ i < bound) ∧
      ((NO_MEMOIZE_sem_with_loop_offset fsm (node.mk NodeType.OP_GLOBAL phi node.Nil)
          time bound loop offset).eval σ = true ↔
        ∀ i, min time loop ≤ i → i < bound →
          (NO_MEMOIZE_sem_with_loop_offset fsm phi i bound loop offset).eval σ = true) ∧
      (bound ≤ min time loop →
        NO_MEMOIZE_sem_with_loop_offset fsm (node.mk NodeType.OP_GLOBAL phi node.Nil)
          time bound loop offset = Be.Truth) := by
  have hb0 : bound ≠ 0 := by omega
  have hG := with_loop_GLOBAL fsm phi node.Nil time bound loop offset hb0 ht
  refine ⟨hG, fun i => mem_int_range _ _ i, ?_, ?_⟩
  · rw [hG, foldl_and_eval σ
      (fun i => NO_MEMOIZE_sem_with_loop_offset fsm phi i bound loop offset)]
    simp only [Be.eval, true_and, mem_int_range]
    exact ⟨fun h i h1 h2 => h i ⟨h1, h2⟩, fun h i hi => h i hi.1 hi.2⟩
  · intro hempty
    rw [hG]
    have hnil : int_range (min time loop) bound = [] := by
      unfold int_range
      have hz : (bound - min time loop).toNat = 0 := by omega
      rw [hz]
      rfl
    rw [hnil]
    rfl

theorem sem_with_loop_globally_witness :
    (1 : Int) ≤ 3 ∧ (0 : Int) ≤ 3 ∧
      (NO_MEMOIZE_sem_with_loop_offset example_fsm
          (node.mk NodeType.OP_GLOBAL (node.atom 1) node.Nil) 0 3 1 0
        = (int_range (min 0 1) 3).foldl
            (fun result i =>
              Be.And result (NO_MEMOIZE_sem_with_loop_offset example_fsm (node.atom 1) i 3 1 0))
            Be.Truth ∧
        (∀ i, i ∈ int_range (min 0 1) 3 ↔ min 0 1 ≤ i ∧ i < 3) ∧
        ((NO_MEMOIZE_sem_with_loop_offset example_fsm
            (node.mk NodeType.OP_GLOBAL (node.atom 1) node.Nil) 0 3 1 0).eval q_at_one = true ↔
          ∀ i, min 0 1 ≤ i → i < 3 →
            (NO_MEMOIZE_sem_with_loop_offset example_fsm (node.atom 1) i 3 1 0).eval q_at_one
              = true) ∧
        ((3 : Int) ≤ min 0 1 →
          NO_MEMOIZE_sem_with_loop_offset example_fsm
            (node.mk NodeType.OP_GLOBAL (node.atom 1) node.Nil) 0 3 1 0 = Be.Truth)) :=
  ⟨by decide, by decide,
    sem_with_loop_globally example_fsm q_at_one (node.atom 1) 0 3 1 0 (by decide) (by decide)⟩

/-- C10: for `bound >= 1` and `time <= bound` the encoding with loop of
`EVENTUALLY(phi)` has the value of the negation of the encoding of
`GLOBALLY(NOT(phi))`, and it evaluates to true exactly when the encoding of
`phi` does at some integer `i` with `min(time, loop) <= i < bound`. -/
theorem sem_with_loop_eventually_dual (fsm : BeFsm) (σ : Assignment) (phi : node)
    (time bound loop offset : Int) (hb : 1 ≤ bound) (ht : time ≤ bound) :
    (NO_MEMOIZE_sem_with_loop_offset fsm (node.mk NodeType.OP_FUTURE phi node.Nil)
        time bound loop offset).eval σ
      = !(NO_MEMOIZE_sem_with_loop_offset fsm
          (node.mk NodeType.OP_GLOBAL (node.mk NodeType.NOT phi node.Nil) node.Nil)
          time bound loop offset).eval σ ∧
      ((NO_MEMOIZE_sem_with_loop_offset fsm (node.mk NodeType.OP_FUTURE phi node.Nil)
          time bound loop offset).eval σ = true ↔
        ∃ i, min time loop ≤ i ∧ i < bound ∧
          (NO_MEMOIZE_sem_with_loop_offset fsm phi i bound loop offset).eval σ = true) := by
  have hb0 : bound ≠ 0 := by omega
  have hF : (NO_MEMOIZE_sem_with_loop_offset fsm (node.mk NodeType.OP_FUTURE phi node.Nil)
        time bound loop offset).eval σ = true ↔
      ∃ i, min time loop ≤ i ∧ i < bound ∧
        (NO_MEMOIZE_sem_with_loop_offset fsm phi i bound loop offset).eval σ = true := by
    rw [with_loop_FUTURE fsm phi node.Nil time bound loop offset hb0 ht, foldl_or_eval σ
      (fun i => NO_MEMOIZE_sem_with_loop_offset fsm phi i bound loop offset)]
    simp only [Be.eval, Bool.false_eq_true, false_or, mem_int_range]
    exact ⟨fun ⟨i, hi, h⟩ => ⟨i, hi.1, hi.2, h⟩, fun ⟨i, h1, h2, h⟩ => ⟨i, ⟨h1, h2⟩, h⟩⟩
  have hG : (NO_MEMOIZE_sem_with_loop_offset fsm
        (node.mk NodeType.OP_GLOBAL (node.mk NodeType.NOT phi node.Nil) node.Nil)
        time bound loop offset).eval σ = true ↔
      ∀ i, min time loop ≤ i → i < bound →
        (NO_MEMOIZE_sem_with_loop_offset fsm phi i bound loop offset).eval σ = false := by
    rw [with_loop_GLOBAL fsm _ node.Nil time bound loop offset hb0 ht, foldl_and_eval σ
      (fun i => NO_MEMOIZE_sem_with_loop_offset fsm (node.mk NodeType.NOT phi node.Nil)
        i bound loop offset)]
    simp only [Be.eval, true_and, mem_int_range]
    constructor
    · intro h i h1 h2
      have h3 := h i ⟨h1, h2⟩
      rw [with_loop_NOT fsm phi node.Nil i bound loop offset hb0 (by omega)] at h3
      simpa [Be.eval] using h3
    · intro h i hi
      rw [with_loop_NOT fsm phi node.Nil i bound loop offset hb0 (by omega)]
      simpa [Be.eval] using h i hi.1 hi.2
  refine ⟨?_, hF⟩
  rw [Bool.eq_iff_iff, hF]
  have hnot : ∀ b : Bool, (!b) = true ↔ ¬ b = true := by
    intro b
    cases b <;> simp
  rw [hnot, hG]
  constructor
  · rintro ⟨i, h1, h2, h⟩ hall
    rw [hall i h1 h2] at h
    exact Bool.false_ne_true h
  · intro hn
    by_contra hne
    apply hn
    intro i h1 h2
    by_contra hf
    exact hne ⟨i, h1, h2, by simpa using hf⟩

theorem sem_with_loop_eventually_dual_witness :
    (1 : Int) ≤ 3 ∧ (0 : Int) ≤ 3 ∧
      ((NO_MEMOIZE_sem_with_loop_offset example_fsm
          (node.mk NodeType.OP_FUTURE (node.atom 1) node.Nil) 0 3 1 0).eval q_at_one
        = !(NO_MEMOIZE_sem_with_loop_offset example_fsm
            (node.mk NodeType.OP_GLOBAL (node.mk NodeType.NOT (node.atom 1) node.Nil) node.Nil)
            0 3 1 0).eval q_at_one ∧
        ((NO_MEMOIZE_sem_with_loop_offset example_fsm
            (node.mk NodeType.OP_FUTURE (node.atom 1) node.Nil) 0 3 1 0).eval q_at_one = true ↔
          ∃ i, min 0 1 ≤ i ∧ i < 3 ∧
            (NO_MEMOIZE_sem_with_loop_offset example_fsm (node.atom 1) i 3 1 0).eval q_at_one
              = true)) :=
  ⟨by decide, by decide,
    sem_with_loop_eventually_dual example_fsm q_at_one (node.atom 1) 0 3 1 0
      (by decide) (by decide)⟩

/-! ## The folds of UNTIL and RELEASES with loop -/

theorem int_range_nil (lo hi : Int) (h : hi ≤ lo) : int_range lo hi = [] := by
  unfold int_range
  have hz : (hi - lo).toNat = 0 := by omega
  rw [hz]
  rfl

theorem int_range_cons (lo hi : Int) (h : lo < hi) :
    int_range lo hi = lo :: int_range (lo + 1) hi := by
  unfold int_range
  have hz : (hi - lo).toNat = (hi - (lo + 1)).toNat + 1 := by omega
  rw [hz, List.range_succ_eq_map, List.map_cons, List.map_map]
  simp only [Nat.cast_zero, add_zero, List.cons.injEq, true_and]
  apply List.map_congr_left
  intro n _
  simp only [Function.comp_apply, Nat.cast_succ]
  omega

theorem with_loop_UNTIL (fsm : BeFsm) (l r : node) (time bound loop offset : Int)
    (hb : bound ≠ 0) (h : time ≤ bound) :
    NO_MEMOIZE_sem_with_loop_offset fsm (node.mk NodeType.UNTIL l r) time bound loop offset
      = (int_range (min time loop) bound).reverse.foldl
          (fun result i =>
            Be.Or (NO_MEMOIZE_sem_with_loop_offset fsm r i bound loop offset)
              (Be.And (NO_MEMOIZE_sem_with_loop_offset fsm l i bound loop offset) result))
          Be.Falsity := by
  rw [NO_MEMOIZE_sem_with_loop_offset]
  simp [hb, not_lt.mpr h]

theorem with_loop_RELEASES (fsm : BeFsm) (l r : node) (time bound loop offset : Int)
    (hb : bound ≠ 0) (h : time ≤ bound) :
    NO_MEMOIZE_sem_with_loop_offset fsm (node.mk NodeType.RELEASES l r) time bound loop offset
      = (int_range (min time loop) (bound - 1)).reverse.foldl
          (fun result i =>
            Be.And (NO_MEMOIZE_sem_with_loop_offset fsm r i bound loop offset)
              (Be.Or (NO_MEMOIZE_sem_with_loop_offset fsm l i bound loop offset) result))
          (NO_MEMOIZE_sem_with_loop_offset fsm r (bound - 1) bound loop offset) := by
  rw [NO_MEMOIZE_sem_with_loop_offset]
  simp [hb, not_lt.mpr h]

theorem with_loop_atom (fsm : BeFsm) (p : Nat) (time bound loop offset : Int)
    (hb : bound ≠ 0) (h : time ≤ bound) :
    NO_MEMOIZE_sem_with_loop_offset fsm (node.atom p) time bound loop offset
      = proposition_at_time fsm.enc (node.atom p) (time + offset) := by
  unfold NO_MEMOIZE_sem_with_loop_offset
  simp [hb, not_lt.mpr h]

theorem until_fold_eval (σ : Assignment) (A B : Int → Be) (k : Int) :
    ∀ (n : Nat) (m : Int), (k - m).toNat = n →
      (((int_range m k).reverse.foldl (fun result i => Be.Or (B i) (Be.And (A i) result))
          Be.Falsity).eval σ = true ↔
        ∃ j, m ≤ j ∧ j ≤ k - 1 ∧ (B j).eval σ = true ∧
          ∀ i, m ≤ i → i < j → (A i).eval σ = true) := by
  intro n
  induction n with
  | zero =>
    intro m hn
    rw [int_range_nil m k (by omega)]
    simp only [List.reverse_nil, List.foldl_nil, Be.eval, Bool.false_eq_true, false_iff,
      not_exists, not_and]
    intro j h1 h2
    omega
  | succ n ih =>
    intro m hn
    rw [int_range_cons m k (by omega), List.reverse_cons, List.foldl_append]
    simp only [List.foldl_cons, List.foldl_nil, Be.eval, Bool.or_eq_true, Bool.and_eq_true]
    rw [ih (m + 1) (by omega)]
    constructor
    · rintro (h | ⟨hA, j, h1, h2, h3, h4⟩)
      · exact ⟨m, le_refl _, by omega, h, fun i hi1 hi2 => by omega⟩
      · refine ⟨j, by omega, h2, h3, fun i hi1 hi2 => ?_⟩
        by_cases hi : i = m
        · subst hi
          exact hA
        · exact h4 i (by omega) hi2
    · rintro ⟨j, h1, h2, h3, h4⟩
      by_cases hj : j = m
      · left
        subst hj
        exact h3
      · right
        exact ⟨h4 m (le_refl _) (by omega), j, by omega, h2, h3,
          fun i hi1 hi2 => h4 i (by omega) hi2⟩

theorem foldl_congr_mem {α β : Type} (L : List α) (f g : β → α → β) (init : β)
    (h : ∀ b, ∀ a ∈ L, f b a = g b a) : L.foldl f init = L.foldl g init := by
  induction L generalizing init with
  | nil => rfl
  | cons a L ih =>
    rw [List.foldl_cons, List.foldl_cons, h init a (List.mem_cons_self a L)]
    exact ih _ (fun b x hx => h b x (List.mem_cons_of_mem a hx))

/-- C11: for `k >= 1` and `time <= k` the encoding with loop of
`UNTIL(phi, psi)` is the backward fold `r := falsity; for i = k-1 down to
m = min(time, loop): r := psi(i) OR (phi(i) AND r)` over the encodings of
the operands; it evaluates to true exactly when there is a `j` in
`[m, k-1]` with `psi(j)` true and `phi(n)` true for every `n` in `[m, j)`. -/
theorem sem_with_loop_until_fold (fsm : BeFsm) (σ : Assignment) (phi psi : node)
    (time k loop offset : Int) (hk : 1 ≤ k) (ht : time ≤ k) :
    NO_MEMOIZE_sem_with_loop_offset fsm (node.mk NodeType.UNTIL phi psi) time k loop offset
      = (int_range (min time loop) k).reverse.foldl
          (fun r i =>
            Be.Or (NO_MEMOIZE_sem_with_loop_offset fsm psi i k loop offset)
              (Be.And (NO_MEMOIZE_sem_with_loop_offset fsm phi i k loop offset) r))
          Be.Falsity ∧
      ((NO_MEMOIZE_sem_with_loop_offset fsm (node.mk NodeType.UNTIL phi psi)
          time k loop offset).eval σ = true ↔
        ∃ j, min time loop ≤ j ∧ j ≤ k - 1 ∧
          (NO_MEMOIZE_sem_with_loop_offset fsm psi j k loop offset).eval σ = true ∧
          ∀ n, min time loop ≤ n → n < j →
            (NO_MEMOIZE_sem_with_loop_offset fsm phi n k loop offset).eval σ = true) := by
  have hU := with_loop_UNTIL fsm phi psi time k loop offset (by omega) ht
  refine ⟨hU, ?_⟩
  rw [hU]
  exact until_fold_eval σ
    (fun i => NO_MEMOIZE_sem_with_loop_offset fsm phi i k loop offset)
    (fun i => NO_MEMOIZE_sem_with_loop_offset fsm psi i k loop offset) k _ _ rfl

theorem sem_with_loop_until_fold_witness :
    (1 : Int) ≤ 3 ∧ (0 : Int) ≤ 3 ∧
      (NO_MEMOIZE_sem_with_loop_offset example_fsm
          (node.mk NodeType.UNTIL (node.atom 0) (node.atom 1)) 0 3 1 0
        = (int_range (min 0 1) 3).reverse.foldl
            (fun r i =>
              Be.Or (NO_MEMOIZE_sem_with_loop_offset example_fsm (node.atom 1) i 3 1 0)
                (Be.And (NO_MEMOIZE_sem_with_loop_offset example_fsm (node.atom 0) i 3 1 0) r))
            Be.Falsity ∧
        ((NO_MEMOIZE_sem_with_loop_offset example_fsm
            (node.mk NodeType.UNTIL (node.atom 0) (node.atom 1)) 0 3 1 0).eval q_at_one = true ↔
          ∃ j, min 0 1 ≤ j ∧ j ≤ 3 - 1 ∧
            (NO_MEMOIZE_sem_with_loop_offset example_fsm (node.atom 1) j 3 1 0).eval q_at_one
              = true ∧
            ∀ n, min 0 1 ≤ n → n < j →
              (NO_MEMOIZE_sem_with_loop_offset example_fsm (node.atom 0) n 3 1 0).eval q_at_one
                = true)) :=
  ⟨by decide, by decide,
    sem_with_loop_until_fold example_fsm q_at_one (node.atom 0) (node.atom 1) 0 3 1 0
      (by decide) (by decide)⟩

/-- C12 (counterexample): the encoding with loop of `UNTIL(p, q)` at time 0
with bound 3 and loop 1 is not equivalent to the expression of the
specification: under `q_at_three` (p always true, q true at time 3 only)
the encoding is false and that expression is true. -/
theorem sem_with_loop_until_not_closed_around_loop :
    ¬ ∀ σ : Assignment,
      (NO_MEMOIZE_sem_with_loop_offset example_fsm
          (node.mk NodeType.UNTIL (node.atom 0) (node.atom 1)) 0 3 1 0).eval σ
        = (until_closed_around_loop example_fsm 0 1).eval σ := by
  intro h
  have h3 := h q_at_three
  revert h3
  decide

/-- C12 (amended): for atoms `p` and `q` the encoding with loop of
`UNTIL(p, q)` at time 0 with bound 3, loop 1 and offset 0 is
`q@0 OR (p@0 AND (q@1 OR (p@1 AND (q@2 OR (p@2 AND falsity)))))`: the fold
ends at time `bound - 1 = 2` and mentions neither `p@3` nor `q@3`. It has
the value of the expression of the specification under every assignment
that gives `q` the same value at time 3 and at time 1, as the loop
condition does. -/
theorem sem_with_loop_until_example (fsm : BeFsm) (p q : Nat) (σ : Assignment) :
    NO_MEMOIZE_sem_with_loop_offset fsm (node.mk NodeType.UNTIL (node.atom p) (node.atom q))
        0 3 1 0
      = Be.Or (proposition_at_time fsm.enc (node.atom q) 0)
          (Be.And (proposition_at_time fsm.enc (node.atom p) 0)
            (Be.Or (proposition_at_time fsm.enc (node.atom q) 1)
              (Be.And (proposition_at_time fsm.enc (node.atom p) 1)
                (Be.Or (proposition_at_time fsm.enc (node.atom q) 2)
                  (Be.And (proposition_at_time fsm.enc (node.atom p) 2) Be.Falsity))))) ∧
      ((proposition_at_time fsm.enc (node.atom q) 3).eval σ
          = (proposition_at_time fsm.enc (node.atom q) 1).eval σ →
        (NO_MEMOIZE_sem_with_loop_offset fsm
            (node.mk NodeType.UNTIL (node.atom p) (node.atom q)) 0 3 1 0).eval σ
          = (until_closed_around_loop fsm p q).eval σ) := by
  have hS : NO_MEMOIZE_sem_with_loop_offset fsm
        (node.mk NodeType.UNTIL (node.atom p) (node.atom q)) 0 3 1 0
      = Be.Or (proposition_at_time fsm.enc (node.atom q) 0)
          (Be.And (proposition_at_time fsm.enc (node.atom p) 0)
            (Be.Or (proposition_at_time fsm.enc (node.atom q) 1)
              (Be.And (proposition_at_time fsm.enc (node.atom p) 1)
                (Be.Or (proposition_at_time fsm.enc (node.atom q) 2)
                  (Be.And (proposition_at_time fsm.enc (node.atom p) 2) Be.Falsity))))) := by
    rw [with_loop_UNTIL fsm _ _ 0 3 1 0 (by decide) (by decide)]
    have hr : int_range (min 0 1) 3 = [0, 1, 2] := by decide
    rw [hr]
    simp only [List.reverse_cons, List.reverse_nil, List.nil_append, List.cons_append,
      List.foldl_cons, List.foldl_nil]
    rw [with_loop_atom fsm q 0 3 1 0 (by decide) (by decide),
      with_loop_atom fsm p 0 3 1 0 (by decide) (by decide),
      with_loop_atom fsm q 1 3 1 0 (by decide) (by decide),
      with_loop_atom fsm p 1 3 1 0 (by decide) (by decide),
      with_loop_atom fsm q 2 3 1 0 (by decide) (by decide),
      with_loop_atom fsm p 2 3 1 0 (by decide) (by decide)]
    simp only [add_zero]
  refine ⟨hS, fun h31 => ?_⟩
  rw [hS]
  simp only [until_closed_around_loop, Be.eval, h31]
  cases (proposition_at_time fsm.enc (node.atom q) 0).eval σ <;>
    cases (proposition_at_time fsm.enc (node.atom p) 0).eval σ <;>
    cases (proposition_at_time fsm.enc (node.atom q) 1).eval σ <;>
    cases (proposition_at_time fsm.enc (node.atom p) 1).eval σ <;>
    cases (proposition_at_time fsm.enc (node.atom q) 2).eval σ <;>
    cases (proposition_at_time fsm.enc (node.atom p) 2).eval σ <;>
    cases (proposition_at_time fsm.enc (node.atom p) 3).eval σ <;> rfl

theorem sem_with_loop_until_example_witness :
    NO_MEMOIZE_sem_with_loop_offset example_fsm
        (node.mk NodeType.UNTIL (node.atom 0) (node.atom 1)) 0 3 1 0
      = Be.Or (proposition_at_time example_fsm.enc (node.atom 1) 0)
          (Be.And (proposition_at_time example_fsm.enc (node.atom 0) 0)
            (Be.Or (proposition_at_time example_fsm.enc (node.atom 1) 1)
              (Be.And (proposition_at_time example_fsm.enc (node.atom 0) 1)
                (Be.Or (proposition_at_time example_fsm.enc (node.atom 1) 2)
                  (Be.And (proposition_at_time example_fsm.enc (node.atom 0) 2)
                    Be.Falsity))))) ∧
      (NO_MEMOIZE_sem_with_loop_offset example_fsm
          (node.mk NodeType.UNTIL (node.atom 0) (node.atom 1)) 0 3 1 0).eval q_at_start
        = (until_closed_around_loop example_fsm 0 1).eval q_at_start :=
  ⟨(sem_with_loop_until_example example_fsm 0 1 q_at_start).1,
    (sem_with_loop_until_example example_fsm 0 1 q_at_start).2 (by decide)⟩

/-- C13: for `k >= 1` and `time <= k` the encoding with loop of
`RELEASES(phi, psi)` is the backward fold seeded with `psi(k-1)` alone and
continued, for `i = k-2` down to `min(time, loop)`, by
`r := psi(i) AND (phi(i) OR r)`. The encoding of `phi` at time `k - 1` does
not enter it: the result is the same for any `phi2` whose encodings agree
with those of `phi` at the times before `k - 1`. For atoms `p`, `q`, bound 2,
loop 0, time 0 and offset 0 it is `q@0 AND (p@0 OR q@1)`, whose value does
not depend on `p@1`. -/
theorem sem_with_loop_releases_seed (fsm : BeFsm) (phi phi2 psi : node)
    (time k loop offset : Int) (hk : 1 ≤ k) (ht : time ≤ k) :
    NO_MEMOIZE_sem_with_loop_offset fsm (node.mk NodeType.RELEASES phi psi) time k loop offset
      = (int_range (min time loop) (k - 1)).reverse.foldl
          (fun r i =>
            Be.And (NO_MEMOIZE_sem_with_loop_offset fsm psi i k loop offset)
              (Be.Or (NO_MEMOIZE_sem_with_loop_offset fsm phi i k loop offset) r))
          (NO_MEMOIZE_sem_with_loop_offset fsm psi (k - 1) k loop offset) ∧
      ((∀ i, i < k - 1 →
          NO_MEMOIZE_sem_with_loop_offset fsm phi i k loop offset
            = NO_MEMOIZE_sem_with_loop_offset fsm phi2 i k loop offset) →
        NO_MEMOIZE_sem_with_loop_offset fsm (node.mk NodeType.RELEASES phi psi)
            time k loop offset
          = NO_MEMOIZE_sem_with_loop_offset fsm (node.mk NodeType.RELEASES phi2 psi)
            time k loop offset) ∧
      (∀ p q : Nat,
        NO_MEMOIZE_sem_with_loop_offset fsm
            (node.mk NodeType.RELEASES (node.atom p) (node.atom q)) 0 2 0 0
          = Be.And (proposition_at_time fsm.enc (node.atom q) 0)
              (Be.Or (proposition_at_time fsm.enc (node.atom p) 0)
                (proposition_at_time fsm.enc (node.atom q) 1))) ∧
      (∀ σ τ : Assignment, (∀ v t, ¬ (v = 0 ∧ t = some 1) → σ v t = τ v t) →
        (NO_MEMOIZE_sem_with_loop_offset example_fsm
            (node.mk NodeType.RELEASES (node.atom 0) (node.atom 1)) 0 2 0 0).eval σ
          = (NO_MEMOIZE_sem_with_loop_offset example_fsm
            (node.mk NodeType.RELEASES (node.atom 0) (node.atom 1)) 0 2 0 0).eval τ) := by
  have hR := with_loop_RELEASES fsm phi psi time k loop offset (by omega) ht
  refine ⟨hR, fun hagree => ?_, fun p q => ?_, fun σ τ hστ => ?_⟩
  · rw [hR, with_loop_RELEASES fsm phi2 psi time k loop offset (by omega) ht]
    apply foldl_congr_mem
    intro b i hi
    rw [List.mem_reverse, mem_int_range] at hi
    rw [hagree i hi.2]
  · rw [with_loop_RELEASES fsm _ _ 0 2 0 0 (by decide) (by decide)]
    have hr : int_range (min 0 0) (2 - 1) = [0] := by decide
    rw [hr]
    simp only [List.reverse_cons, List.reverse_nil, List.nil_append, List.foldl_cons,
      List.foldl_nil]
    have e1 : NO_MEMOIZE_sem_with_loop_offset fsm (node.atom q) (2 - 1) 2 0 0
        = proposition_at_time fsm.enc (node.atom q) 1 :=
      with_loop_atom fsm q 1 2 0 0 (by decide) (by decide)
    rw [e1, with_loop_atom fsm q 0 2 0 0 (by decide) (by decide),
      with_loop_atom fsm p 0 2 0 0 (by decide) (by decide)]
    simp only [add_zero]
  · have hS : NO_MEMOIZE_sem_with_loop_offset example_fsm
          (node.mk NodeType.RELEASES (node.atom 0) (node.atom 1)) 0 2 0 0
        = Be.And (Be.Var 1 (some 0)) (Be.Or (Be.Var 0 (some 0)) (Be.Var 1 (some 1))) := by
      decide
    rw [hS]
    simp only [Be.eval]
    rw [hστ 1 (some 0) (by decide), hστ 0 (some 0) (by decide), hστ 1 (some 1) (by decide)]

theorem sem_with_loop_releases_seed_witness :
    (1 : Int) ≤ 2 ∧ (0 : Int) ≤ 2 ∧
      NO_MEMOIZE_sem_with_loop_offset example_fsm
          (node.mk NodeType.RELEASES (node.atom 0) (node.atom 1)) 0 2 0 0
        = (int_range (min 0 0) (2 - 1)).reverse.foldl
            (fun r i =>
              Be.And (NO_MEMOIZE_sem_with_loop_offset example_fsm (node.atom 1) i 2 0 0)
                (Be.Or (NO_MEMOIZE_sem_with_loop_offset example_fsm (node.atom 0) i 2 0 0) r))
            (NO_MEMOIZE_sem_with_loop_offset example_fsm (node.atom 1) (2 - 1) 2 0 0) :=
  ⟨by decide, by decide,
    (sem_with_loop_releases_seed example_fsm (node.atom 0) (node.atom 0) (node.atom 1)
      0 2 0 0 (by decide) (by decide)).1⟩

/-! ## The offset -/

theorem untimed_expr_to_timed_shift (enc : BeEnc) (e : Be) (t o : Int)
    (h : e.untimed = true) :
    (BeEnc_untimed_expr_to_timed enc e t).shift o = BeEnc_untimed_expr_to_timed enc e (t + o) := by
  induction e with
  | Truth => rfl
  | Falsity => rfl
  | Var v time =>
    cases time with
    | none => rfl
    | some s => simp [Be.untimed] at h
  | Not a iha =>
    simp only [Be.untimed] at h
    simp only [BeEnc_untimed_expr_to_timed, Be.shift, iha h]
  | And a b iha ihb =>
    simp only [Be.untimed, Bool.and_eq_true] at h
    simp only [BeEnc_untimed_expr_to_timed, Be.shift, iha h.1, ihb h.2]
  | Or a b iha ihb =>
    simp only [Be.untimed, Bool.and_eq_true] at h
    simp only [BeEnc_untimed_expr_to_timed, Be.shift, iha h.1, ihb h.2]
  | Xor a b iha ihb =>
    simp only [Be.untimed, Bool.and_eq_true] at h
    simp only [BeEnc_untimed_expr_to_timed, Be.shift, iha h.1, ihb h.2]
  | Implies a b iha ihb =>
    simp only [Be.untimed, Bool.and_eq_true] at h
    simp only [BeEnc_untimed_expr_to_timed, Be.shift, iha h.1, ihb h.2]
  | Iff a b iha ihb =>
    simp only [Be.untimed, Bool.and_eq_true] at h
    simp only [BeEnc_untimed_expr_to_timed, Be.shift, iha h.1, ihb h.2]

theorem proposition_at_time_shift (enc : BeEnc) (f : node) (t o : Int)
    (hu : ∀ f, (enc.Bexp2Be f).untimed = true) :
    (proposition_at_time enc f (t + 0)).shift o = proposition_at_time enc f (t + o) := by
  unfold proposition_at_time
  rw [add_zero]
  exact untimed_expr_to_timed_shift enc _ t o (hu f)

theorem foldl_shift (o : Int) (L : List Int) (f g : Be → Int → Be)
    (h : ∀ r, ∀ i ∈ L, (f r i).shift o = g (r.shift o) i) (init : Be) :
    (L.foldl f init).shift o = L.foldl g (init.shift o) := by
  induction L generalizing init with
  | nil => rfl
  | cons a L ih =>
    rw [List.foldl_cons, List.foldl_cons, ih (fun r i hi => h r i (List.mem_cons_of_mem a hi)),
      h init a (List.mem_cons_self a L)]

theorem no_loop_offset_shift (fsm : BeFsm) (hu : ∀ f, (fsm.enc.Bexp2Be f).untimed = true)
    (formula : node) (time bound o : Int) :
    NO_MEMOIZE_sem_no_loop_offset fsm formula time bound o
      = (NO_MEMOIZE_sem_no_loop_offset fsm formula time bound 0).shift o := by
  induction formula, time, bound, o using NO_MEMOIZE_sem_no_loop_offset.induct fsm with
  | case1 formula time bound o h =>
    rw [no_loop_past_bound _ _ _ _ _ h, no_loop_past_bound _ _ _ _ _ h]
    rfl
  | case2 time bound o h l r ih1 ih2 =>
    rw [NO_MEMOIZE_sem_no_loop_offset, NO_MEMOIZE_sem_no_loop_offset.eq_def fsm _ time bound 0]
    simp only [h, if_false, Be.shift, ih1, ih2]
  | case3 time bound o h l r ih1 ih2 =>
    rw [NO_MEMOIZE_sem_no_loop_offset, NO_MEMOIZE_sem_no_loop_offset.eq_def fsm _ time bound 0]
    simp only [h, if_false, Be.shift, ih1, ih2]
  | case4 time bound o h l r ih1 ih2 =>
    rw [NO_MEMOIZE_sem_no_loop_offset, NO_MEMOIZE_sem_no_loop_offset.eq_def fsm _ time bound 0]
    simp only [h, if_false, Be.shift, ih1, ih2]
  | case5 time bound o h l r ih1 =>
    rw [NO_MEMOIZE_sem_no_loop_offset, NO_MEMOIZE_sem_no_loop_offset.eq_def fsm _ time bound 0]
    simp only [h, if_false, Be.shift, ih1]
  | case6 time bound o h l r ih1 ih2 =>
    rw [NO_MEMOIZE_sem_no_loop_offset, NO_MEMOIZE_sem_no_loop_offset.eq_def fsm _ time bound 0]
    simp only [h, if_false, Be.shift, ih1, ih2]
  | case7 time bound o h l r ih1 ih2 =>
    rw [NO_MEMOIZE_sem_no_loop_offset, NO_MEMOIZE_sem_no_loop_offset.eq_def fsm _ time bound 0]
    simp only [h, if_false, Be.shift, ih1, ih2]
  | case8 time bound o h l r ih1 =>
    rw [NO_MEMOIZE_sem_no_loop_offset, NO_MEMOIZE_sem_no_loop_offset.eq_def fsm _ time bound 0]
    simp only [h, if_false, Be.shift, ih1]
  | case9 time bound o h l r =>
    rw [no_loop_GLOBAL, no_loop_GLOBAL]
    rfl
  | case10 time bound o h l r ih1 ih2 =>
    rw [no_loop_FUTURE _ _ _ _ _ _ (not_lt.mp h), no_loop_FUTURE _ _ _ _ _ 0 (not_lt.mp h)]
    simp only [Be.shift, ih1, ih2]
  | case11 time bound o h l r ih1 ih2 ih3 =>
    rw [no_loop_UNTIL _ _ _ _ _ _ (not_lt.mp h), no_loop_UNTIL _ _ _ _ _ 0 (not_lt.mp h)]
    simp only [Be.shift, ih1, ih2, ih3]
  | case12 time bound o h l r ih1 ih2 ih3 =>
    rw [no_loop_RELEASES _ _ _ _ _ _ (not_lt.mp h), no_loop_RELEASES _ _ _ _ _ 0 (not_lt.mp h)]
    simp only [Be.shift, ih1, ih2, ih3]
  | case13 time bound o h f h1 h2 h3 h4 h5 h6 h7 h8 h9 h10 h11 =>
    have e : ∀ off, NO_MEMOIZE_sem_no_loop_offset fsm f time bound off
        = proposition_at_time fsm.enc f (time + off) := by
      intro off
      rw [NO_MEMOIZE_sem_no_loop_offset]
      · simp only [h, if_false]
      all_goals assumption
    rw [e o, e 0]
    exact (proposition_at_time_shift fsm.enc f time o hu).symm

theorem with_loop_offset_shift (fsm : BeFsm) (hu : ∀ f, (fsm.enc.Bexp2Be f).untimed = true)
    (formula : node) (time bound loop o : Int) :
    NO_MEMOIZE_sem_with_loop_offset fsm formula time bound loop o
      = (NO_MEMOIZE_sem_with_loop_offset fsm formula time bound loop 0).shift o := by
  induction formula, time, bound, loop, o using NO_MEMOIZE_sem_with_loop_offset.induct fsm with
  | case1 formula time loop o =>
    rw [with_loop_base _ _ _ _ _ _ (Or.inl rfl), with_loop_base _ _ _ _ _ _ (Or.inl rfl)]
    rfl
  | case2 formula time bound loop o hb h =>
    rw [with_loop_base _ _ _ _ _ _ (Or.inr h), with_loop_base _ _ _ _ _ _ (Or.inr h)]
    rfl
  | case3 time bound loop o hb h l r ih1 ih2 =>
    simp only [NO_MEMOIZE_sem_with_loop_offset, hb, h, if_false, Be.shift, ih1, ih2]
  | case4 time bound loop o hb h l r ih1 ih2 =>
    simp only [NO_MEMOIZE_sem_with_loop_offset, hb, h, if_false, Be.shift, ih1, ih2]
  | case5 time bound loop o hb h l r ih1 ih2 =>
    simp only [NO_MEMOIZE_sem_with_loop_offset, hb, h, if_false, Be.shift, ih1, ih2]
  | case6 time bound loop o hb h l r ih1 =>
    simp only [NO_MEMOIZE_sem_with_loop_offset, hb, h, if_false, Be.shift, ih1]
  | case7 time bound loop o hb h l r ih1 ih2 =>
    simp only [NO_MEMOIZE_sem_with_loop_offset, hb, h, if_false, Be.shift, ih1, ih2]
  | case8 time bound loop o hb h l r ih1 ih2 =>
    simp only [NO_MEMOIZE_sem_with_loop_offset, hb, h, if_false, Be.shift, ih1, ih2]
  | case9 time bound loop o hb h l r ih1 =>
    simp only [NO_MEMOIZE_sem_with_loop_offset, hb, h, if_false, Be.shift, ih1]
  | case10 time bound loop o hb h l r ih =>
    rw [with_loop_GLOBAL fsm l r time bound loop o hb (not_lt.mp h),
      with_loop_GLOBAL fsm l r time bound loop 0 hb (not_lt.mp h)]
    symm
    exact foldl_shift o _ _ _ (fun r i _ => by simp only [Be.shift, ih i]) Be.Truth
  | case11 time bound loop o hb h l r ih =>
    rw [with_loop_FUTURE fsm l r time bound loop o hb (not_lt.mp h),
      with_loop_FUTURE fsm l r time bound loop 0 hb (not_lt.mp h)]
    symm
    exact foldl_shift o _ _ _ (fun r i _ => by simp only [Be.shift, ih i]) Be.Falsity
  | case12 time bound loop o hb h l r ih1 ih2 =>
    rw [with_loop_UNTIL fsm l r time bound loop o hb (not_lt.mp h),
      with_loop_UNTIL fsm l r time bound loop 0 hb (not_lt.mp h)]
    symm
    exact foldl_shift o _ _ _ (fun r i _ => by simp only [Be.shift, ih1 i, ih2 i]) Be.Falsity
  | case13 time bound loop o hb h l r ih1 ih2 ih3 =>
    rw [with_loop_RELEASES fsm l r time bound loop o hb (not_lt.mp h),
      with_loop_RELEASES fsm l r time bound loop 0 hb (not_lt.mp h), ih3]
    symm
    exact foldl_shift o _ _ _ (fun r i _ => by simp only [Be.shift, ih1 i, ih2 i]) _
  | case14 time bound loop o hb h f h1 h2 h3 h4 h5 h6 h7 h8 h9 h10 h11 =>
    have e : ∀ off, NO_MEMOIZE_sem_with_loop_offset fsm f time bound loop off
        = proposition_at_time fsm.enc f (time + off) := by
      intro off
      rw [NO_MEMOIZE_sem_with_loop_offset]
      · simp only [hb, h, if_false]
      all_goals assumption
    rw [e o, e 0]
    exact (proposition_at_time_shift fsm.enc f time o hu).symm

theorem example_enc_untimed (f : node) : (example_fsm.enc.Bexp2Be f).untimed = true := by
  cases f <;> rfl

/-- C14: the offset only shifts the atoms. For an encoder whose leaves
convert to untimed expressions, the encoding with offset `o`, without loop
and with loop, is the encoding with offset 0 in which every variable timed
at a step `s` is timed at `s + o`; and an atomic leaf that the encoders reach
(`time <= bound`, and `bound != 0` with loop) is timed at `time + o`. -/
theorem offset_shifts_atoms (fsm : BeFsm) (hu : ∀ f, (fsm.enc.Bexp2Be f).untimed = true)
    (formula : node) (p : Nat) (time bound loop o : Int) :
    NO_MEMOIZE_sem_no_loop_offset fsm formula time bound o
        = (NO_MEMOIZE_sem_no_loop_offset fsm formula time bound 0).shift o ∧
      NO_MEMOIZE_sem_with_loop_offset fsm formula time bound loop o
        = (NO_MEMOIZE_sem_with_loop_offset fsm formula time bound loop 0).shift o ∧
      (time ≤ bound →
        NO_MEMOIZE_sem_no_loop_offset fsm (node.atom p) time bound o
          = proposition_at_time fsm.enc (node.atom p) (time + o)) ∧
      (time ≤ bound → bound ≠ 0 →
        NO_MEMOIZE_sem_with_loop_offset fsm (node.atom p) time bound loop o
          = proposition_at_time fsm.enc (node.atom p) (time + o)) :=
  ⟨no_loop_offset_shift fsm hu formula time bound o,
    with_loop_offset_shift fsm hu formula time bound loop o,
    fun h => no_loop_atom fsm p time bound o h,
    fun h hb => with_loop_atom fsm p time bound loop o hb h⟩

theorem offset_shifts_atoms_witness :
    (∀ f, (example_fsm.enc.Bexp2Be f).untimed = true) ∧
      NO_MEMOIZE_sem_no_loop_offset example_fsm
          (node.mk NodeType.UNTIL (node.atom 0) (node.atom 1)) 0 2 5
        = (NO_MEMOIZE_sem_no_loop_offset example_fsm
          (node.mk NodeType.UNTIL (node.atom 0) (node.atom 1)) 0 2 0).shift 5 ∧
      NO_MEMOIZE_sem_with_loop_offset example_fsm
          (node.mk NodeType.UNTIL (node.atom 0) (node.atom 1)) 0 2 1 5
        = (NO_MEMOIZE_sem_with_loop_offset example_fsm
          (node.mk NodeType.UNTIL (node.atom 0) (node.atom 1)) 0 2 1 0).shift 5 ∧
      NO_MEMOIZE_sem_no_loop_offset example_fsm (node.atom 1) 0 2 5
        = proposition_at_time example_fsm.enc (node.atom 1) (0 + 5) ∧
      NO_MEMOIZE_sem_with_loop_offset example_fsm (node.atom 1) 0 2 1 5
        = proposition_at_time example_fsm.enc (node.atom 1) (0 + 5) :=
  ⟨example_enc_untimed,
    (offset_shifts_atoms example_fsm example_enc_untimed
      (node.mk NodeType.UNTIL (node.atom 0) (node.atom 1)) 1 0 2 1 5).1,
    (offset_shifts_atoms example_fsm example_enc_untimed
      (node.mk NodeType.UNTIL (node.atom 0) (node.atom 1)) 1 0 2 1 5).2.1,
    (offset_shifts_atoms example_fsm example_enc_untimed
      (node.mk NodeType.UNTIL (node.atom 0) (node.atom 1)) 1 0 2 1 5).2.2.1 (by decide),
    (offset_shifts_atoms example_fsm example_enc_untimed
      (node.mk NodeType.UNTIL (node.atom 0) (node.atom 1)) 1 0 2 1 5).2.2.2 (by decide)
      (by decide)⟩

/-! ## The fairness constraint -/

/-- C19: with the "no loop" sentinel as `l`, `fairness_constraint` returns
falsity for every transition system and every bound `k`, 0 included. -/
theorem fairness_constraint_no_loop (fsm : BeFsm) (k : Int) :
    fairness_constraint fsm k Bmc_Utils_GetNoLoopback = Be.Falsity := by
  simp [fairness_constraint, Bmc_Utils_IsNoLoopback]

/-- C20 (counterexample): with `k = 0` and the "no loop" sentinel as `l`,
`fairness_constraint` returns falsity, not truth. -/
theorem fairness_constraint_zero_no_loop_not_truth :
    ¬ ∀ (fsm : BeFsm) (l : Int), fairness_constraint fsm 0 l = Be.Truth := by
  intro h
  have h0 := h example_fsm Bmc_Utils_GetNoLoopback
  revert h0
  decide

/-- C20 (amended): with `k = 0`, `fairness_constraint` returns truth for
every transition system and every `l` that is not the "no loop" sentinel;
for the sentinel it returns falsity, the test of the sentinel coming first. -/
theorem fairness_constraint_zero (fsm : BeFsm) (l : Int) :
    (l ≠ Bmc_Utils_GetNoLoopback → fairness_constraint fsm 0 l = Be.Truth) ∧
      fairness_constraint fsm 0 Bmc_Utils_GetNoLoopback = Be.Falsity := by
  refine ⟨fun h => ?_, ?_⟩
  · simp [fairness_constraint, Bmc_Utils_IsNoLoopback, h]
  · simp [fairness_constraint, Bmc_Utils_IsNoLoopback]

theorem fairness_constraint_zero_witness :
    (1 : Int) ≠ Bmc_Utils_GetNoLoopback ∧ fairness_constraint example_fsm 0 1 = Be.Truth :=
  ⟨by decide, (fairness_constraint_zero example_fsm 1).1 (by decide)⟩

/-! ## The memoization cache -/

theorem MEMOIZER_key_inj (f g : node) (t1 k1 l1 o1 t2 k2 l2 o2 : Int) :
    MEMOIZER_key f t1 k1 l1 o1 = MEMOIZER_key g t2 k2 l2 o2 ↔
      f = g ∧ t1 = t2 ∧ k1 = k2 ∧ l1 = l2 ∧ o1 = o2 := by
  simp only [MEMOIZER_key, node.mk.injEq, node.ptr_from_int.injEq, true_and]

theorem entry_get (key k : node) (W : MemoState) :
    (MEMOIZER_get key W).1 = W.entry key ∧ (MEMOIZER_get key W).2.entry k = W.entry k ∧
      (MEMOIZER_get key W).2.raw_runs = W.raw_runs := by
  unfold MEMOIZER_get MemoState.entry
  cases h : W.MEMOIZER <;> simp [h, find_assoc, new_assoc]

theorem entry_put (key k : node) (e : Be) (W : MemoState) :
    (MEMOIZER_put key e W).entry k = (if k = key then some e else W.entry k) ∧
      (MEMOIZER_put key e W).raw_runs = W.raw_runs := by
  unfold MEMOIZER_put MemoState.entry
  cases h : W.MEMOIZER
  · by_cases hk : k = key
    · simp [find_assoc, insert_assoc, new_assoc, List.lookup, hk]
    · have hb : (k == key) = false := by simp [hk]
      simp [find_assoc, insert_assoc, new_assoc, List.lookup, hk, hb]
  · by_cases hk : k = key
    · simp [find_assoc, insert_assoc, List.lookup, hk]
    · have hb : (k == key) = false := by simp [hk]
      simp [find_assoc, insert_assoc, List.lookup, hk, hb]

theorem entry_ran (key k : node) (W : MemoState) : (W.ran key).entry k = W.entry k := rfl

theorem sem_no_loop_offset_unfold (fsm : BeFsm) (formula : node) (time bound offset : Int)
    (W : MemoState) :
    sem_no_loop_offset fsm formula time bound offset W =
      match MEMOIZER_get (MEMOIZER_key formula time bound Bmc_Utils_GetNoLoopback offset) W with
      | (some result, W1) => (result, W1)
      | (none, W1) =>
        ((NO_MEMOIZE_sem_no_loop_offset_st fsm formula time bound offset W1).1,
          MEMOIZER_put (MEMOIZER_key formula time bound Bmc_Utils_GetNoLoopback offset)
            (NO_MEMOIZE_sem_no_loop_offset_st fsm formula time bound offset W1).1
            (NO_MEMOIZE_sem_no_loop_offset_st fsm formula time bound offset W1).2) := by
  rw [sem_no_loop_offset]

theorem sem_with_loop_offset_unfold (fsm : BeFsm) (formula : node)
    (time bound loop offset : Int) (W : MemoState) :
    sem_with_loop_offset fsm formula time bound loop offset W =
      match MEMOIZER_get (MEMOIZER_key formula time bound loop offset) W with
      | (some result, W1) => (result, W1)
      | (none, W1) =>
        ((NO_MEMOIZE_sem_with_loop_offset_st fsm formula time bound loop offset W1).1,
          MEMOIZER_put (MEMOIZER_key formula time bound loop offset)
            (NO_MEMOIZE_sem_with_loop_offset_st fsm formula time bound loop offset W1).1
            (NO_MEMOIZE_sem_with_loop_offset_st fsm formula time bound loop offset W1).2) := by
  rw [sem_with_loop_offset]

/-- A memoized call, whatever the raw body `raw` is: after it the table
exists and holds the returned expression under the key. -/
theorem memo_call_stores (key : node) (raw : MemoState → Be × MemoState) (W : MemoState) :
    ∃ h, (match MEMOIZER_get key W with
        | (some result, W1) => (result, W1)
        | (none, W1) => ((raw W1).1, MEMOIZER_put key (raw W1).1 (raw W1).2)).2.MEMOIZER = some h ∧
      find_assoc h key = some (match MEMOIZER_get key W with
        | (some result, W1) => (result, W1)
        | (none, W1) => ((raw W1).1, MEMOIZER_put key (raw W1).1 (raw W1).2)).1 := by
  cases hM : W.MEMOIZER with
  | none =>
    have hg : MEMOIZER_get key W = (none, { W with MEMOIZER := some new_assoc }) := by
      simp [MEMOIZER_get, hM, find_assoc, new_assoc]
    rw [hg]
    simp only
    cases hR : (raw { W with MEMOIZER := some new_assoc }).2.MEMOIZER <;>
      simp [MEMOIZER_put, hR, find_assoc, insert_assoc, List.lookup]
  | some h =>
    cases hF : find_assoc h key with
    | none =>
      have hg : MEMOIZER_get key W = (none, W) := by
        simp [MEMOIZER_get, hM, hF]
      rw [hg]
      simp only
      cases hR : (raw W).2.MEMOIZER <;>
        simp [MEMOIZER_put, hR, find_assoc, insert_assoc, List.lookup]
    | some e =>
      have hg : MEMOIZER_get key W = (some e, W) := by
        simp [MEMOIZER_get, hM, hF]
      rw [hg]
      exact ⟨h, hM, hF⟩

/-- A memoized call on a state whose table holds `e` under the key returns
`e` and leaves the state as it is. -/
theorem memo_call_hit (key : node) (raw : MemoState → Be × MemoState) (W : MemoState)
    (h : hash_ptr) (e : Be) (hM : W.MEMOIZER = some h) (hF : find_assoc h key = some e) :
    (match MEMOIZER_get key W with
      | (some result, W1) => (result, W1)
      | (none, W1) => ((raw W1).1, MEMOIZER_put key (raw W1).1 (raw W1).2)) = (e, W) := by
  have hg : MEMOIZER_get key W = (some e, W) := by
    simp [MEMOIZER_get, hM, hF]
  rw [hg]

/-! ## Calls that keep the cache consistent -/

theorem returns_pure (fsm : BeFsm) (W : MemoState) (e : Be) : returns fsm W (e, W) e :=
  ⟨⟨[], rfl⟩, fun h => ⟨rfl, h, fun _ _ hk => hk⟩⟩

theorem returns_seq3 (fsm : BeFsm) (W : MemoState) (r0 r1 r2 : Be × MemoState)
    (e0 e1 e2 : Be) (h0 : returns fsm W r0 e0) (h1 : returns fsm r0.2 r1 e1)
    (h2 : returns fsm r1.2 r2 e2) (f : Be → Be → Be → Be) :
    returns fsm W (f r0.1 r1.1 r2.1, r2.2) (f e0 e1 e2) := by
  obtain ⟨⟨p0, hp0⟩, hc0⟩ := h0
  obtain ⟨⟨p1, hp1⟩, hc1⟩ := h1
  obtain ⟨⟨p2, hp2⟩, hc2⟩ := h2
  refine ⟨⟨p2 ++ (p1 ++ p0), ?_⟩, fun hW => ?_⟩
  · show r2.2.raw_runs = _
    rw [hp2, hp1, hp0, List.append_assoc, List.append_assoc]
  · obtain ⟨hv0, hk0, hx0⟩ := hc0 hW
    obtain ⟨hv1, hk1, hx1⟩ := hc1 hk0
    obtain ⟨hv2, hk2, hx2⟩ := hc2 hk1
    refine ⟨?_, hk2, fun key e hk => hx2 key e (hx1 key e (hx0 key e hk))⟩
    show f r0.1 r1.1 r2.1 = f e0 e1 e2
    rw [hv0, hv1, hv2]

theorem returns_seq2 (fsm : BeFsm) (W : MemoState) (r1 r2 : Be × MemoState)
    (e1 e2 : Be) (h1 : returns fsm W r1 e1) (h2 : returns fsm r1.2 r2 e2)
    (f : Be → Be → Be) :
    returns fsm W (f r1.1 r2.1, r2.2) (f e1 e2) :=
  returns_seq3 fsm W (Be.Truth, W) r1 r2 Be.Truth e1 e2 (returns_pure fsm W Be.Truth) h1 h2
    (fun _ a b => f a b)

theorem returns_seq1 (fsm : BeFsm) (W : MemoState) (r1 : Be × MemoState)
    (e1 : Be) (h1 : returns fsm W r1 e1) (f : Be → Be) :
    returns fsm W (f r1.1, r1.2) (f e1) :=
  returns_seq3 fsm W (Be.Truth, W) r1 (Be.Truth, r1.2) Be.Truth e1 Be.Truth
    (returns_pure fsm W Be.Truth) h1 (returns_pure fsm r1.2 Be.Truth) (fun _ a _ => f a)

theorem returns_foldl (fsm : BeFsm) (L : List Int)
    (F : Be × MemoState → Int → Be × MemoState) (G : Be → Int → Be)
    (hstep : ∀ i ∈ L, ∀ (W0 : MemoState) (acc : Be × MemoState) (e0 : Be),
      returns fsm W0 acc e0 → returns fsm W0 (F acc i) (G e0 i))
    (W0 : MemoState) (acc : Be × MemoState) (e0 : Be) (h : returns fsm W0 acc e0) :
    returns fsm W0 (L.foldl F acc) (L.foldl G e0) := by
  induction L generalizing acc e0 with
  | nil => exact h
  | cons a L ih =>
    rw [List.foldl_cons, List.foldl_cons]
    exact ih (fun i hi => hstep i (List.mem_cons_of_mem a hi)) _ _
      (hstep a (List.mem_cons_self a L) W0 acc e0 h)

theorem raw_returns_intro (fsm : BeFsm) (W : MemoState) (x : Be × MemoState) (key : node)
    (e : Be) (h : returns fsm W x e) : raw_returns fsm W (x.1, x.2.ran key) key e :=
  ⟨x, rfl, h⟩

theorem raw_returns_runs (fsm : BeFsm) (W : MemoState) (r : Be × MemoState) (key : node)
    (e : Be) (h : raw_returns fsm W r key e) :
    ∃ pre, r.2.raw_runs = key :: (pre ++ W.raw_runs) := by
  obtain ⟨x, hr, ⟨pre, hpre⟩, _⟩ := h
  refine ⟨pre, ?_⟩
  rw [hr]
  show key :: x.2.raw_runs = _
  rw [hpre]

theorem raw_returns_returns (fsm : BeFsm) (W : MemoState) (r : Be × MemoState) (key : node)
    (e : Be) (h : raw_returns fsm W r key e) : returns fsm W r e := by
  obtain ⟨x, hr, ⟨pre, hpre⟩, hc⟩ := h
  rw [hr]
  refine ⟨⟨key :: pre, ?_⟩, fun hW => ?_⟩
  · show key :: x.2.raw_runs = _
    rw [hpre]
    rfl
  · obtain ⟨hv, hk, hx⟩ := hc hW
    exact ⟨hv, hk, hx⟩

/-- A memoized call returns what its raw body returns, provided the key is
that of the expression. -/
theorem memo_returns (fsm : BeFsm) (formula : node) (time bound l offset : Int) (e : Be)
    (he : e = cache_free fsm formula time bound l offset)
    (raw : MemoState → Be × MemoState)
    (hraw : ∀ W1, returns fsm W1 (raw W1) e) (W : MemoState) :
    returns fsm W
      (match MEMOIZER_get (MEMOIZER_key formula time bound l offset) W with
        | (some result, W1) => (result, W1)
        | (none, W1) =>
          ((raw W1).1,
            MEMOIZER_put (MEMOIZER_key formula time bound l offset) (raw W1).1 (raw W1).2))
      e := by
  have hg := entry_get (MEMOIZER_key formula time bound l offset)
  cases hG : MEMOIZER_get (MEMOIZER_key formula time bound l offset) W with
  | mk found W1 =>
    have h1 : found = W.entry (MEMOIZER_key formula time bound l offset) := by
      have := (hg (MEMOIZER_key formula time bound l offset) W).1
      rw [hG] at this
      exact this
    have h2 : ∀ k, W1.entry k = W.entry k := by
      intro k
      have := (hg k W).2.1
      rw [hG] at this
      exact this
    have h3 : W1.raw_runs = W.raw_runs := by
      have := (hg (MEMOIZER_key formula time bound l offset) W).2.2
      rw [hG] at this
      exact this
    have hW1 : cache_consistent fsm W → cache_consistent fsm W1 := by
      intro hW f t b l2 o e2 hk
      rw [h2] at hk
      exact hW f t b l2 o e2 hk
    cases found with
    | some result =>
      refine ⟨⟨[], by simpa using h3⟩, fun hW => ⟨?_, hW1 hW, fun k e2 hk => ?_⟩⟩
      · show result = e
        rw [he]
        exact hW formula time bound l offset result h1.symm
      · show W1.entry k = some e2
        rw [h2]
        exact hk
    | none =>
      obtain ⟨⟨pre, hpre⟩, hc⟩ := hraw W1
      have hput := entry_put (MEMOIZER_key formula time bound l offset)
      refine ⟨⟨pre, ?_⟩, fun hW => ?_⟩
      · show (MEMOIZER_put _ _ _).raw_runs = _
        rw [(hput (MEMOIZER_key formula time bound l offset) _ _).2, hpre, h3]
      · obtain ⟨hv, hk, hx⟩ := hc (hW1 hW)
        refine ⟨hv, fun f t b l2 o e2 hent => ?_, fun k e2 hent => ?_⟩
        · change (MEMOIZER_put _ _ _).entry _ = some e2 at hent
          rw [(hput _ _ _).1] at hent
          by_cases hkey : MEMOIZER_key f t b l2 o = MEMOIZER_key formula time bound l offset
          · rw [if_pos hkey] at hent
            have hinj := (MEMOIZER_key_inj _ _ _ _ _ _ _ _ _ _).mp hkey
            obtain ⟨hf, ht, hb, hl, ho⟩ := hinj
            subst hf ht hb hl ho
            rw [← he, ← hv]
            exact (Option.some.inj hent).symm
          · rw [if_neg hkey] at hent
            exact hk f t b l2 o e2 hent
        · show (MEMOIZER_put _ _ _).entry k = some e2
          rw [(hput _ _ _).1]
          by_cases hkey : k = MEMOIZER_key formula time bound l offset
          · subst hkey
            rw [← h1] at hent
            exact absurd hent (by simp)
          · rw [if_neg hkey]
            exact hx k e2 (by rw [h2]; exact hent)

/-! ## The memoized encoder without loop refines the cache-free one -/

theorem raw_returns_pair (fsm : BeFsm) (W : MemoState) (v : Be) (W2 : MemoState)
    (key : node) (e : Be) (h : returns fsm W (v, W2) e) :
    raw_returns fsm W (v, W2.ran key) key e :=
  ⟨(v, W2), rfl, h⟩

theorem no_loop_wrapper_of_raw (fsm : BeFsm) (formula : node) (time bound offset : Int)
    (hraw : ∀ W1, raw_returns fsm W1
      (NO_MEMOIZE_sem_no_loop_offset_st fsm formula time bound offset W1)
      (MEMOIZER_key formula time bound Bmc_Utils_GetNoLoopback offset)
      (NO_MEMOIZE_sem_no_loop_offset fsm formula time bound offset))
    (W : MemoState) :
    returns fsm W (sem_no_loop_offset fsm formula time bound offset W)
      (NO_MEMOIZE_sem_no_loop_offset fsm formula time bound offset) := by
  rw [sem_no_loop_offset_unfold]
  exact memo_returns fsm formula time bound Bmc_Utils_GetNoLoopback offset _
    (by simp [cache_free])
    (NO_MEMOIZE_sem_no_loop_offset_st fsm formula time bound offset)
    (fun W1 => raw_returns_returns _ _ _ _ _ (hraw W1)) W

theorem no_loop_raw_past (fsm : BeFsm) (formula : node) (time bound offset : Int)
    (W : MemoState) (h : time > bound) :
    raw_returns fsm W (NO_MEMOIZE_sem_no_loop_offset_st fsm formula time bound offset W)
      (MEMOIZER_key formula time bound Bmc_Utils_GetNoLoopback offset)
      (NO_MEMOIZE_sem_no_loop_offset fsm formula time bound offset) := by
  have e : NO_MEMOIZE_sem_no_loop_offset_st fsm formula time bound offset W
      = (Be.Falsity, W.ran (MEMOIZER_key formula time bound Bmc_Utils_GetNoLoopback offset)) := by
    unfold NO_MEMOIZE_sem_no_loop_offset_st
    simp [h]
  rw [e, no_loop_past_bound _ _ _ _ _ h]
  exact raw_returns_pair _ _ _ _ _ _ (returns_pure fsm W Be.Falsity)

theorem no_loop_XOR (fsm : BeFsm) (l r : node) (time bound offset : Int)
    (h : time ≤ bound) :
    NO_MEMOIZE_sem_no_loop_offset fsm (node.mk NodeType.XOR l r) time bound offset
      = Be.Xor (NO_MEMOIZE_sem_no_loop_offset fsm l time bound offset)
          (NO_MEMOIZE_sem_no_loop_offset fsm r time bound offset) := by
  rw [NO_MEMOIZE_sem_no_loop_offset]
  simp [not_lt.mpr h]

theorem no_loop_IMPLIES (fsm : BeFsm) (l r : node) (time bound offset : Int)
    (h : time ≤ bound) :
    NO_MEMOIZE_sem_no_loop_offset fsm (node.mk NodeType.IMPLIES l r) time bound offset
      = Be.Implies (NO_MEMOIZE_sem_no_loop_offset fsm l time bound offset)
          (NO_MEMOIZE_sem_no_loop_offset fsm r time bound offset) := by
  rw [NO_MEMOIZE_sem_no_loop_offset]
  simp [not_lt.mpr h]

theorem no_loop_IFF (fsm : BeFsm) (l r : node) (time bound offset : Int)
    (h : time ≤ bound) :
    NO_MEMOIZE_sem_no_loop_offset fsm (node.mk NodeType.IFF l r) time bound offset
      = Be.Iff (NO_MEMOIZE_sem_no_loop_offset fsm l time bound offset)
          (NO_MEMOIZE_sem_no_loop_offset fsm r time bound offset) := by
  rw [NO_MEMOIZE_sem_no_loop_offset]
  simp [not_lt.mpr h]

theorem no_loop_raw_returns (fsm : BeFsm) (formula : node) :
    ∀ (time bound offset : Int) (W : MemoState),
      raw_returns fsm W (NO_MEMOIZE_sem_no_loop_offset_st fsm formula time bound offset W)
        (MEMOIZER_key formula time bound Bmc_Utils_GetNoLoopback offset)
        (NO_MEMOIZE_sem_no_loop_offset fsm formula time bound offset) := by
  induction formula with
  | Nil =>
    intro time bound offset W
    by_cases h : time > bound
    · exact no_loop_raw_past fsm _ time bound offset W h
    · have e1 : NO_MEMOIZE_sem_no_loop_offset_st fsm (node.Nil) time bound offset W
          = (proposition_at_time fsm.enc (node.Nil) (time + offset),
            W.ran (MEMOIZER_key (node.Nil) time bound Bmc_Utils_GetNoLoopback offset)) := by
        unfold NO_MEMOIZE_sem_no_loop_offset_st
        simp [h]
      have e2 : NO_MEMOIZE_sem_no_loop_offset fsm (node.Nil) time bound offset
          = proposition_at_time fsm.enc (node.Nil) (time + offset) := by
        unfold NO_MEMOIZE_sem_no_loop_offset
        simp [h]
      rw [e1, e2]
      exact raw_returns_pair _ _ _ _ _ _ (returns_pure fsm W _)
  | atom p =>
    intro time bound offset W
    by_cases h : time > bound
    · exact no_loop_raw_past fsm _ time bound offset W h
    · have e1 : NO_MEMOIZE_sem_no_loop_offset_st fsm (node.atom p) time bound offset W
          = (proposition_at_time fsm.enc (node.atom p) (time + offset),
            W.ran (MEMOIZER_key (node.atom p) time bound Bmc_Utils_GetNoLoopback offset)) := by
        unfold NO_MEMOIZE_sem_no_loop_offset_st
        simp [h]
      have e2 : NO_MEMOIZE_sem_no_loop_offset fsm (node.atom p) time bound offset
          = proposition_at_time fsm.enc (node.atom p) (time + offset) := by
        unfold NO_MEMOIZE_sem_no_loop_offset
        simp [h]
      rw [e1, e2]
      exact raw_returns_pair _ _ _ _ _ _ (returns_pure fsm W _)
  | ptr_from_int i =>
    intro time bound offset W
    by_cases h : time > bound
    · exact no_loop_raw_past fsm _ time bound offset W h
    · have e1 : NO_MEMOIZE_sem_no_loop_offset_st fsm (node.ptr_from_int i) time bound offset W
          = (proposition_at_time fsm.enc (node.ptr_from_int i) (time + offset),
            W.ran (MEMOIZER_key (node.ptr_from_int i) time bound Bmc_Utils_GetNoLoopback offset)) := by
        unfold NO_MEMOIZE_sem_no_loop_offset_st
        simp [h]
      have e2 : NO_MEMOIZE_sem_no_loop_offset fsm (node.ptr_from_int i) time bound offset
          = proposition_at_time fsm.enc (node.ptr_from_int i) (time + offset) := by
        unfold NO_MEMOIZE_sem_no_loop_offset
        simp [h]
      rw [e1, e2]
      exact raw_returns_pair _ _ _ _ _ _ (returns_pure fsm W _)
  | mk type l r ihl ihr =>
    have hl : ∀ (time bound offset : Int) (W : MemoState), returns fsm W
        (sem_no_loop_offset fsm l time bound offset W)
        (NO_MEMOIZE_sem_no_loop_offset fsm l time bound offset) :=
      fun time bound offset W => no_loop_wrapper_of_raw fsm l time bound offset
        (fun W1 => ihl time bound offset W1) W
    have hr : ∀ (time bound offset : Int) (W : MemoState), returns fsm W
        (sem_no_loop_offset fsm r time bound offset W)
        (NO_MEMOIZE_sem_no_loop_offset fsm r time bound offset) :=
      fun time bound offset W => no_loop_wrapper_of_raw fsm r time bound offset
        (fun W1 => ihr time bound offset W1) W
    cases type with
    | AND =>
      intro time bound offset W
      by_cases h : time > bound
      · exact no_loop_raw_past fsm _ time bound offset W h
      · rw [NO_MEMOIZE_sem_no_loop_offset_st, if_neg h, no_loop_AND _ _ _ _ _ _ (not_lt.mp h)]
        exact raw_returns_pair _ _ _ _ _ _
          (returns_seq2 fsm W _ _ _ _ (hl time bound offset W) (hr time bound offset _) Be.And)
    | OR =>
      intro time bound offset W
      by_cases h : time > bound
      · exact no_loop_raw_past fsm _ time bound offset W h
      · rw [NO_MEMOIZE_sem_no_loop_offset_st, if_neg h, no_loop_OR _ _ _ _ _ _ (not_lt.mp h)]
        exact raw_returns_pair _ _ _ _ _ _
          (returns_seq2 fsm W _ _ _ _ (hl time bound offset W) (hr time bound offset _) Be.Or)
    | XOR =>
      intro time bound offset W
      by_cases h : time > bound
      · exact no_loop_raw_past fsm _ time bound offset W h
      · rw [NO_MEMOIZE_sem_no_loop_offset_st, if_neg h, no_loop_XOR _ _ _ _ _ _ (not_lt.mp h)]
        exact raw_returns_pair _ _ _ _ _ _
          (returns_seq2 fsm W _ _ _ _ (hl time bound offset W) (hr time bound offset _) Be.Xor)
    | NOT =>
      intro time bound offset W
      by_cases h : time > bound
      · exact no_loop_raw_past fsm _ time bound offset W h
      · rw [NO_MEMOIZE_sem_no_loop_offset_st, if_neg h, no_loop_NOT _ _ _ _ _ _ (not_lt.mp h)]
        exact raw_returns_pair _ _ _ _ _ _
          (returns_seq1 fsm W _ _ (hl time bound offset W) Be.Not)
    | IMPLIES =>
      intro time bound offset W
      by_cases h : time > bound
      · exact no_loop_raw_past fsm _ time bound offset W h
      · rw [NO_MEMOIZE_sem_no_loop_offset_st, if_neg h, no_loop_IMPLIES _ _ _ _ _ _ (not_lt.mp h)]
        exact raw_returns_pair _ _ _ _ _ _
          (returns_seq2 fsm W _ _ _ _ (hl time bound offset W) (hr time bound offset _) Be.Implies)
    | IFF =>
      intro time bound offset W
      by_cases h : time > bound
      · exact no_loop_raw_past fsm _ time bound offset W h
      · rw [NO_MEMOIZE_sem_no_loop_offset_st, if_neg h, no_loop_IFF _ _ _ _ _ _ (not_lt.mp h)]
        exact raw_returns_pair _ _ _ _ _ _
          (returns_seq2 fsm W _ _ _ _ (hl time bound offset W) (hr time bound offset _) Be.Iff)
    | OP_NEXT =>
      intro time bound offset W
      by_cases h : time > bound
      · exact no_loop_raw_past fsm _ time bound offset W h
      · rw [NO_MEMOIZE_sem_no_loop_offset_st, if_neg h, no_loop_NEXT _ _ _ _ _ _ (not_lt.mp h)]
        exact raw_returns_intro _ _ _ _ _ (hl (time + 1) bound offset W)
    | OP_GLOBAL =>
      intro time bound offset W
      by_cases h : time > bound
      · exact no_loop_raw_past fsm _ time bound offset W h
      · rw [NO_MEMOIZE_sem_no_loop_offset_st, if_neg h, no_loop_GLOBAL]
        exact raw_returns_pair _ _ _ _ _ _ (returns_pure fsm W _)
    | OP_FUTURE =>
      intro time bound offset
      have hn : ∀ (n : Nat) (time : Int) (W : MemoState), (bound + 1 - time).toNat = n →
          raw_returns fsm W
            (NO_MEMOIZE_sem_no_loop_offset_st fsm (node.mk NodeType.OP_FUTURE l r) time bound offset W)
            (MEMOIZER_key (node.mk NodeType.OP_FUTURE l r) time bound Bmc_Utils_GetNoLoopback offset)
            (NO_MEMOIZE_sem_no_loop_offset fsm (node.mk NodeType.OP_FUTURE l r) time bound offset) := by
        intro n
        induction n with
        | zero =>
          intro time W hz
          exact no_loop_raw_past fsm _ time bound offset W (by omega)
        | succ n ih =>
          intro time W hs
          have h : ¬ time > bound := by omega
          have hF : ∀ W, returns fsm W
              (sem_no_loop_offset fsm (node.mk NodeType.OP_FUTURE l r) (time + 1) bound offset W)
              (NO_MEMOIZE_sem_no_loop_offset fsm (node.mk NodeType.OP_FUTURE l r) (time + 1)
                bound offset) :=
            fun W => no_loop_wrapper_of_raw fsm _ (time + 1) bound offset
              (fun W1 => ih (time + 1) W1 (by omega)) W
          rw [NO_MEMOIZE_sem_no_loop_offset_st, if_neg h,
            no_loop_FUTURE _ _ _ _ _ _ (not_lt.mp h)]
          exact raw_returns_pair _ _ _ _ _ _
            (returns_seq2 fsm W _ _ _ _ (hl time bound offset W) (hF _) Be.Or)
      intro W
      exact hn _ time W rfl
    | UNTIL =>
      intro time bound offset
      have hn : ∀ (n : Nat) (time : Int) (W : MemoState), (bound + 1 - time).toNat = n →
          raw_returns fsm W
            (NO_MEMOIZE_sem_no_loop_offset_st fsm (node.mk NodeType.UNTIL l r) time bound offset W)
            (MEMOIZER_key (node.mk NodeType.UNTIL l r) time bound Bmc_Utils_GetNoLoopback offset)
            (NO_MEMOIZE_sem_no_loop_offset fsm (node.mk NodeType.UNTIL l r) time bound offset) := by
        intro n
        induction n with
        | zero =>
          intro time W hz
          exact no_loop_raw_past fsm _ time bound offset W (by omega)
        | succ n ih =>
          intro time W hs
          have h : ¬ time > bound := by omega
          have hF : ∀ W, returns fsm W
              (sem_no_loop_offset fsm (node.mk NodeType.UNTIL l r) (time + 1) bound offset W)
              (NO_MEMOIZE_sem_no_loop_offset fsm (node.mk NodeType.UNTIL l r) (time + 1)
                bound offset) :=
            fun W => no_loop_wrapper_of_raw fsm _ (time + 1) bound offset
              (fun W1 => ih (time + 1) W1 (by omega)) W
          rw [NO_MEMOIZE_sem_no_loop_offset_st, if_neg h,
            no_loop_UNTIL _ _ _ _ _ _ (not_lt.mp h)]
          exact raw_returns_pair _ _ _ _ _ _
            (returns_seq3 fsm W _ _ _ _ _ _ (hr time bound offset W)
              (hl time bound offset _) (hF _) (fun a b c => Be.Or a (Be.And b c)))
      intro W
      exact hn _ time W rfl
    | RELEASES =>
      intro time bound offset
      have hn : ∀ (n : Nat) (time : Int) (W : MemoState), (bound + 1 - time).toNat = n →
          raw_returns fsm W
            (NO_MEMOIZE_sem_no_loop_offset_st fsm (node.mk NodeType.RELEASES l r) time bound offset W)
            (MEMOIZER_key (node.mk NodeType.RELEASES l r) time bound Bmc_Utils_GetNoLoopback offset)
            (NO_MEMOIZE_sem_no_loop_offset fsm (node.mk NodeType.RELEASES l r) time bound offset) := by
        intro n
        induction n with
        | zero =>
          intro time W hz
          exact no_loop_raw_past fsm _ time bound offset W (by omega)
        | succ n ih =>
          intro time W hs
          have h : ¬ time > bound := by omega
          have hF : ∀ W, returns fsm W
              (sem_no_loop_offset fsm (node.mk NodeType.RELEASES l r) (time + 1) bound offset W)
              (NO_MEMOIZE_sem_no_loop_offset fsm (node.mk NodeType.RELEASES l r) (time + 1)
                bound offset) :=
            fun W => no_loop_wrapper_of_raw fsm _ (time + 1) bound offset
              (fun W1 => ih (time + 1) W1 (by omega)) W
          rw [NO_MEMOIZE_sem_no_loop_offset_st, if_neg h,
            no_loop_RELEASES _ _ _ _ _ _ (not_lt.mp h)]
          exact raw_returns_pair _ _ _ _ _ _
            (returns_seq3 fsm W _ _ _ _ _ _ (hr time bound offset W)
              (hl time bound offset _) (hF _) (fun a b c => Be.And a (Be.Or b c)))
      intro W
      exact hn _ time W rfl
    | ATOM =>
      intro time bound offset W
      by_cases h : time > bound
      · exact no_loop_raw_past fsm _ time bound offset W h
      · have e1 : NO_MEMOIZE_sem_no_loop_offset_st fsm (node.mk NodeType.ATOM l r) time bound offset W
            = (proposition_at_time fsm.enc (node.mk NodeType.ATOM l r) (time + offset),
              W.ran (MEMOIZER_key (node.mk NodeType.ATOM l r) time bound Bmc_Utils_GetNoLoopback offset)) := by
          unfold NO_MEMOIZE_sem_no_loop_offset_st
          simp [h]
        have e2 : NO_MEMOIZE_sem_no_loop_offset fsm (node.mk NodeType.ATOM l r) time bound offset
            = proposition_at_time fsm.enc (node.mk NodeType.ATOM l r) (time + offset) := by
          unfold NO_MEMOIZE_sem_no_loop_offset
          simp [h]
        rw [e1, e2]
        exact raw_returns_pair _ _ _ _ _ _ (returns_pure fsm W _)
    | CONS =>
      intro time bound offset W
      by_cases h : time > bound
      · exact no_loop_raw_past fsm _ time bound offset W h
      · have e1 : NO_MEMOIZE_sem_no_loop_offset_st fsm (node.mk NodeType.CONS l r) time bound offset W
            = (proposition_at_time fsm.enc (node.mk NodeType.CONS l r) (time + offset),
              W.ran (MEMOIZER_key (node.mk NodeType.CONS l r) time bound Bmc_Utils_GetNoLoopback offset)) := by
          unfold NO_MEMOIZE_sem_no_loop_offset_st
          simp [h]
        have e2 : NO_MEMOIZE_sem_no_loop_offset fsm (node.mk NodeType.CONS l r) time bound offset
            = proposition_at_time fsm.enc (node.mk NodeType.CONS l r) (time + offset) := by
          unfold NO_MEMOIZE_sem_no_loop_offset
          simp [h]
        rw [e1, e2]
        exact raw_returns_pair _ _ _ _ _ _ (returns_pure fsm W _)
    | other code =>
      intro time bound offset W
      by_cases h : time > bound
      · exact no_loop_raw_past fsm _ time bound offset W h
      · have e1 : NO_MEMOIZE_sem_no_loop_offset_st fsm (node.mk (NodeType.other code) l r) time bound offset W
            = (proposition_at_time fsm.enc (node.mk (NodeType.other code) l r) (time + offset),
              W.ran (MEMOIZER_key (node.mk (NodeType.other code) l r) time bound Bmc_Utils_GetNoLoopback offset)) := by
          unfold NO_MEMOIZE_sem_no_loop_offset_st
          simp [h]
        have e2 : NO_MEMOIZE_sem_no_loop_offset fsm (node.mk (NodeType.other code) l r) time bound offset
            = proposition_at_time fsm.enc (node.mk (NodeType.other code) l r) (time + offset) := by
          unfold NO_MEMOIZE_sem_no_loop_offset
          simp [h]
        rw [e1, e2]
        exact raw_returns_pair _ _ _ _ _ _ (returns_pure fsm W _)

theorem no_loop_wrapper_returns (fsm : BeFsm) (formula : node) (time bound offset : Int)
    (W : MemoState) :
    returns fsm W (sem_no_loop_offset fsm formula time bound offset W)
      (NO_MEMOIZE_sem_no_loop_offset fsm formula time bound offset) :=
  no_loop_wrapper_of_raw fsm formula time bound offset
    (fun W1 => no_loop_raw_returns fsm formula time bound offset W1) W

theorem with_loop_AND (fsm : BeFsm) (l r : node) (time bound loop offset : Int)
    (hb : bound ≠ 0) (h : time ≤ bound) :
    NO_MEMOIZE_sem_with_loop_offset fsm (node.mk NodeType.AND l r) time bound loop offset
      = Be.And (NO_MEMOIZE_sem_with_loop_offset fsm l time bound loop offset)
          (NO_MEMOIZE_sem_with_loop_offset fsm r time bound loop offset) := by
  rw [NO_MEMOIZE_sem_with_loop_offset]
  simp [hb, not_lt.mpr h]

theorem with_loop_OR (fsm : BeFsm) (l r : node) (time bound loop offset : Int)
    (hb : bound ≠ 0) (h : time ≤ bound) :
    NO_MEMOIZE_sem_with_loop_offset fsm (node.mk NodeType.OR l r) time bound loop offset
      = Be.Or (NO_MEMOIZE_sem_with_loop_offset fsm l time bound loop offset)
          (NO_MEMOIZE_sem_with_loop_offset fsm r time bound loop offset) := by
  rw [NO_MEMOIZE_sem_with_loop_offset]
  simp [hb, not_lt.mpr h]

theorem with_loop_XOR (fsm : BeFsm) (l r : node) (time bound loop offset : Int)
    (hb : bound ≠ 0) (h : time ≤ bound) :
    NO_MEMOIZE_sem_with_loop_offset fsm (node.mk NodeType.XOR l r) time bound loop offset
      = Be.Xor (NO_MEMOIZE_sem_with_loop_offset fsm l time bound loop offset)
          (NO_MEMOIZE_sem_with_loop_offset fsm r time bound loop offset) := by
  rw [NO_MEMOIZE_sem_with_loop_offset]
  simp [hb, not_lt.mpr h]

theorem with_loop_IMPLIES (fsm : BeFsm) (l r : node) (time bound loop offset : Int)
    (hb : bound ≠ 0) (h : time ≤ bound) :
    NO_MEMOIZE_sem_with_loop_offset fsm (node.mk NodeType.IMPLIES l r) time bound loop offset
      = Be.Implies (NO_MEMOIZE_sem_with_loop_offset fsm l time bound loop offset)
          (NO_MEMOIZE_sem_with_loop_offset fsm r time bound loop offset) := by
  rw [NO_MEMOIZE_sem_with_loop_offset]
  simp [hb, not_lt.mpr h]

theorem with_loop_IFF (fsm : BeFsm) (l r : node) (time bound loop offset : Int)
    (hb : bound ≠ 0) (h : time ≤ bound) :
    NO_MEMOIZE_sem_with_loop_offset fsm (node.mk NodeType.IFF l r) time bound loop offset
      = Be.Iff (NO_MEMOIZE_sem_with_loop_offset fsm l time bound loop offset)
          (NO_MEMOIZE_sem_with_loop_offset fsm r time bound loop offset) := by
  rw [NO_MEMOIZE_sem_with_loop_offset]
  simp [hb, not_lt.mpr h]

theorem with_loop_NEXT (fsm : BeFsm) (l r : node) (time bound loop offset : Int)
    (hb : bound ≠ 0) (h : time ≤ bound) :
    NO_MEMOIZE_sem_with_loop_offset fsm (node.mk NodeType.OP_NEXT l r) time bound loop offset
      = NO_MEMOIZE_sem_with_loop_offset fsm l (succ bound loop time) bound loop offset := by
  rw [NO_MEMOIZE_sem_with_loop_offset]
  simp [hb, not_lt.mpr h]

/-! ## The memoized encoder with loop refines the cache-free one -/

theorem with_loop_wrapper_of_raw (fsm : BeFsm) (formula : node)
    (time bound loop offset : Int) (hloop : loop ≠ Bmc_Utils_GetNoLoopback)
    (hraw : ∀ W1, raw_returns fsm W1
      (NO_MEMOIZE_sem_with_loop_offset_st fsm formula time bound loop offset W1)
      (MEMOIZER_key formula time bound loop offset)
      (NO_MEMOIZE_sem_with_loop_offset fsm formula time bound loop offset))
    (W : MemoState) :
    returns fsm W (sem_with_loop_offset fsm formula time bound loop offset W)
      (NO_MEMOIZE_sem_with_loop_offset fsm formula time bound loop offset) := by
  rw [sem_with_loop_offset_unfold]
  exact memo_returns fsm formula time bound loop offset _
    (by simp [cache_free, hloop])
    (NO_MEMOIZE_sem_with_loop_offset_st fsm formula time bound loop offset)
    (fun W1 => raw_returns_returns _ _ _ _ _ (hraw W1)) W

theorem with_loop_raw_base (fsm : BeFsm) (formula : node) (time bound loop offset : Int)
    (W : MemoState) (h : bound = 0 ∨ time > bound) :
    raw_returns fsm W (NO_MEMOIZE_sem_with_loop_offset_st fsm formula time bound loop offset W)
      (MEMOIZER_key formula time bound loop offset)
      (NO_MEMOIZE_sem_with_loop_offset fsm formula time bound loop offset) := by
  have e : NO_MEMOIZE_sem_with_loop_offset_st fsm formula time bound loop offset W
      = (Be.Falsity, W.ran (MEMOIZER_key formula time bound loop offset)) := by
    unfold NO_MEMOIZE_sem_with_loop_offset_st
    rcases h with h | h
    · simp [h]
    · simp [h]
  rw [e, with_loop_base _ _ _ _ _ _ h]
  exact raw_returns_pair _ _ _ _ _ _ (returns_pure fsm W Be.Falsity)

theorem with_loop_raw_returns (fsm : BeFsm) (loop : Int)
    (hloop : loop ≠ Bmc_Utils_GetNoLoopback) (formula : node) :
    ∀ (time bound offset : Int) (W : MemoState),
      raw_returns fsm W
        (NO_MEMOIZE_sem_with_loop_offset_st fsm formula time bound loop offset W)
        (MEMOIZER_key formula time bound loop offset)
        (NO_MEMOIZE_sem_with_loop_offset fsm formula time bound loop offset) := by
  induction formula with
  | Nil =>
    intro time bound offset W
    by_cases hb : bound = 0
    · exact with_loop_raw_base fsm _ time bound loop offset W (Or.inl hb)
    by_cases h : time > bound
    · exact with_loop_raw_base fsm _ time bound loop offset W (Or.inr h)
    have e1 : NO_MEMOIZE_sem_with_loop_offset_st fsm (node.Nil) time bound loop offset W
        = (proposition_at_time fsm.enc (node.Nil) (time + offset),
          W.ran (MEMOIZER_key (node.Nil) time bound loop offset)) := by
      unfold NO_MEMOIZE_sem_with_loop_offset_st
      simp [hb, h]
    have e2 : NO_MEMOIZE_sem_with_loop_offset fsm (node.Nil) time bound loop offset
        = proposition_at_time fsm.enc (node.Nil) (time + offset) := by
      unfold NO_MEMOIZE_sem_with_loop_offset
      simp [hb, h]
    rw [e1, e2]
    exact raw_returns_pair _ _ _ _ _ _ (returns_pure fsm W _)
  | atom p =>
    intro time bound offset W
    by_cases hb : bound = 0
    · exact with_loop_raw_base fsm _ time bound loop offset W (Or.inl hb)
    by_cases h : time > bound
    · exact with_loop_raw_base fsm _ time bound loop offset W (Or.inr h)
    have e1 : NO_MEMOIZE_sem_with_loop_offset_st fsm (node.atom p) time bound loop offset W
        = (proposition_at_time fsm.enc (node.atom p) (time + offset),
          W.ran (MEMOIZER_key (node.atom p) time bound loop offset)) := by
      unfold NO_MEMOIZE_sem_with_loop_offset_st
      simp [hb, h]
    have e2 : NO_MEMOIZE_sem_with_loop_offset fsm (node.atom p) time bound loop offset
        = proposition_at_time fsm.enc (node.atom p) (time + offset) := by
      unfold NO_MEMOIZE_sem_with_loop_offset
      simp [hb, h]
    rw [e1, e2]
    exact raw_returns_pair _ _ _ _ _ _ (returns_pure fsm W _)
  | ptr_from_int i =>
    intro time bound offset W
    by_cases hb : bound = 0
    · exact with_loop_raw_base fsm _ time bound loop offset W (Or.inl hb)
    by_cases h : time > bound
    · exact with_loop_raw_base fsm _ time bound loop offset W (Or.inr h)
    have e1 : NO_MEMOIZE_sem_with_loop_offset_st fsm (node.ptr_from_int i) time bound loop offset W
        = (proposition_at_time fsm.enc (node.ptr_from_int i) (time + offset),
          W.ran (MEMOIZER_key (node.ptr_from_int i) time bound loop offset)) := by
      unfold NO_MEMOIZE_sem_with_loop_offset_st
      simp [hb, h]
    have e2 : NO_MEMOIZE_sem_with_loop_offset fsm (node.ptr_from_int i) time bound loop offset
        = proposition_at_time fsm.enc (node.ptr_from_int i) (time + offset) := by
      unfold NO_MEMOIZE_sem_with_loop_offset
      simp [hb, h]
    rw [e1, e2]
    exact raw_returns_pair _ _ _ _ _ _ (returns_pure fsm W _)
  | mk type l r ihl ihr =>
    have hl : ∀ (time bound offset : Int) (W : MemoState), returns fsm W
        (sem_with_loop_offset fsm l time bound loop offset W)
        (NO_MEMOIZE_sem_with_loop_offset fsm l time bound loop offset) :=
      fun time bound offset W => with_loop_wrapper_of_raw fsm l time bound loop offset hloop
        (fun W1 => ihl time bound offset W1) W
    have hr : ∀ (time bound offset : Int) (W : MemoState), returns fsm W
        (sem_with_loop_offset fsm r time bound loop offset W)
        (NO_MEMOIZE_sem_with_loop_offset fsm r time bound loop offset) :=
      fun time bound offset W => with_loop_wrapper_of_raw fsm r time bound loop offset hloop
        (fun W1 => ihr time bound offset W1) W
    cases type with
    | AND =>
      intro time bound offset W
      by_cases hb : bound = 0
      · exact with_loop_raw_base fsm _ time bound loop offset W (Or.inl hb)
      by_cases h : time > bound
      · exact with_loop_raw_base fsm _ time bound loop offset W (Or.inr h)
      rw [NO_MEMOIZE_sem_with_loop_offset_st, if_neg hb, if_neg h,
        with_loop_AND _ _ _ _ _ _ _ hb (not_lt.mp h)]
      exact raw_returns_pair _ _ _ _ _ _
        (returns_seq2 fsm W _ _ _ _ (hl time bound offset W) (hr time bound offset _) Be.And)
    | OR =>
      intro time bound offset W
      by_cases hb : bound = 0
      · exact with_loop_raw_base fsm _ time bound loop offset W (Or.inl hb)
      by_cases h : time > bound
      · exact with_loop_raw_base fsm _ time bound loop offset W (Or.inr h)
      rw [NO_MEMOIZE_sem_with_loop_offset_st, if_neg hb, if_neg h,
        with_loop_OR _ _ _ _ _ _ _ hb (not_lt.mp h)]
      exact raw_returns_pair _ _ _ _ _ _
        (returns_seq2 fsm W _ _ _ _ (hl time bound offset W) (hr time bound offset _) Be.Or)
    | XOR =>
      intro time bound offset W
      by_cases hb : bound = 0
      · exact with_loop_raw_base fsm _ time bound loop offset W (Or.inl hb)
      by_cases h : time > bound
      · exact with_loop_raw_base fsm _ time bound loop offset W (Or.inr h)
      rw [NO_MEMOIZE_sem_with_loop_offset_st, if_neg hb, if_neg h,
        with_loop_XOR _ _ _ _ _ _ _ hb (not_lt.mp h)]
      exact raw_returns_pair _ _ _ _ _ _
        (returns_seq2 fsm W _ _ _ _ (hl time bound offset W) (hr time bound offset _) Be.Xor)
    | NOT =>
      intro time bound offset W
      by_cases hb : bound = 0
      · exact with_loop_raw_base fsm _ time bound loop offset W (Or.inl hb)
      by_cases h : time > bound
      · exact with_loop_raw_base fsm _ time bound loop offset W (Or.inr h)
      rw [NO_MEMOIZE_sem_with_loop_offset_st, if_neg hb, if_neg h,
        with_loop_NOT _ _ _ _ _ _ _ hb (not_lt.mp h)]
      exact raw_returns_pair _ _ _ _ _ _
        (returns_seq1 fsm W _ _ (hl time bound offset W) Be.Not)
    | IMPLIES =>
      intro time bound offset W
      by_cases hb : bound = 0
      · exact with_loop_raw_base fsm _ time bound loop offset W (Or.inl hb)
      by_cases h : time > bound
      · exact with_loop_raw_base fsm _ time bound loop offset W (Or.inr h)
      rw [NO_MEMOIZE_sem_with_loop_offset_st, if_neg hb, if_neg h,
        with_loop_IMPLIES _ _ _ _ _ _ _ hb (not_lt.mp h)]
      exact raw_returns_pair _ _ _ _ _ _
        (returns_seq2 fsm W _ _ _ _ (hl time bound offset W) (hr time bound offset _) Be.Implies)
    | IFF =>
      intro time bound offset W
      by_cases hb : bound = 0
      · exact with_loop_raw_base fsm _ time bound loop offset W (Or.inl hb)
      by_cases h : time > bound
      · exact with_loop_raw_base fsm _ time bound loop offset W (Or.inr h)
      rw [NO_MEMOIZE_sem_with_loop_offset_st, if_neg hb, if_neg h,
        with_loop_IFF _ _ _ _ _ _ _ hb (not_lt.mp h)]
      exact raw_returns_pair _ _ _ _ _ _
        (returns_seq2 fsm W _ _ _ _ (hl time bound offset W) (hr time bound offset _) Be.Iff)
    | OP_NEXT =>
      intro time bound offset W
      by_cases hb : bound = 0
      · exact with_loop_raw_base fsm _ time bound loop offset W (Or.inl hb)
      by_cases h : time > bound
      · exact with_loop_raw_base fsm _ time bound loop offset W (Or.inr h)
      rw [NO_MEMOIZE_sem_with_loop_offset_st, if_neg hb, if_neg h,
        with_loop_NEXT _ _ _ _ _ _ _ hb (not_lt.mp h)]
      exact raw_returns_intro _ _ _ _ _
        (hl (succ bound loop time) bound offset W)
    | OP_GLOBAL =>
      intro time bound offset W
      by_cases hb : bound = 0
      · exact with_loop_raw_base fsm _ time bound loop offset W (Or.inl hb)
      by_cases h : time > bound
      · exact with_loop_raw_base fsm _ time bound loop offset W (Or.inr h)
      rw [NO_MEMOIZE_sem_with_loop_offset_st, if_neg hb, if_neg h,
        with_loop_GLOBAL _ _ _ _ _ _ _ hb (not_lt.mp h)]
      exact raw_returns_intro _ _ _ _ _
        (returns_foldl fsm _ _ _
          (fun i _ W0 acc e0 hacc =>
            returns_seq2 fsm W0 acc _ e0 _ hacc (hl i bound offset acc.2) Be.And)
          W _ _ (returns_pure fsm W Be.Truth))
    | OP_FUTURE =>
      intro time bound offset W
      by_cases hb : bound = 0
      · exact with_loop_raw_base fsm _ time bound loop offset W (Or.inl hb)
      by_cases h : time > bound
      · exact with_loop_raw_base fsm _ time bound loop offset W (Or.inr h)
      rw [NO_MEMOIZE_sem_with_loop_offset_st, if_neg hb, if_neg h,
        with_loop_FUTURE _ _ _ _ _ _ _ hb (not_lt.mp h)]
      exact raw_returns_intro _ _ _ _ _
        (returns_foldl fsm _ _ _
          (fun i _ W0 acc e0 hacc =>
            returns_seq2 fsm W0 acc _ e0 _ hacc (hl i bound offset acc.2) Be.Or)
          W _ _ (returns_pure fsm W Be.Falsity))
    | UNTIL =>
      intro time bound offset W
      by_cases hb : bound = 0
      · exact with_loop_raw_base fsm _ time bound loop offset W (Or.inl hb)
      by_cases h : time > bound
      · exact with_loop_raw_base fsm _ time bound loop offset W (Or.inr h)
      rw [NO_MEMOIZE_sem_with_loop_offset_st, if_neg hb, if_neg h,
        with_loop_UNTIL _ _ _ _ _ _ _ hb (not_lt.mp h)]
      exact raw_returns_intro _ _ _ _ _
        (returns_foldl fsm _ _ _
          (fun i _ W0 acc e0 hacc =>
            returns_seq3 fsm W0 acc _ _ e0 _ _ hacc (hr i bound offset acc.2)
              (hl i bound offset _) (fun a b c => Be.Or b (Be.And c a)))
          W _ _ (returns_pure fsm W Be.Falsity))
    | RELEASES =>
      intro time bound offset W
      by_cases hb : bound = 0
      · exact with_loop_raw_base fsm _ time bound loop offset W (Or.inl hb)
      by_cases h : time > bound
      · exact with_loop_raw_base fsm _ time bound loop offset W (Or.inr h)
      rw [NO_MEMOIZE_sem_with_loop_offset_st, if_neg hb, if_neg h,
        with_loop_RELEASES _ _ _ _ _ _ _ hb (not_lt.mp h)]
      exact raw_returns_intro _ _ _ _ _
        (returns_foldl fsm _ _ _
          (fun i _ W0 acc e0 hacc =>
            returns_seq3 fsm W0 acc _ _ e0 _ _ hacc (hr i bound offset acc.2)
              (hl i bound offset _) (fun a b c => Be.And b (Be.Or c a)))
          W _ _ (hr (bound - 1) bound offset W))
    | ATOM =>
      intro time bound offset W
      by_cases hb : bound = 0
      · exact with_loop_raw_base fsm _ time bound loop offset W (Or.inl hb)
      by_cases h : time > bound
      · exact with_loop_raw_base fsm _ time bound loop offset W (Or.inr h)
      have e1 : NO_MEMOIZE_sem_with_loop_offset_st fsm (node.mk NodeType.ATOM l r) time bound loop offset W
          = (proposition_at_time fsm.enc (node.mk NodeType.ATOM l r) (time + offset),
            W.ran (MEMOIZER_key (node.mk NodeType.ATOM l r) time bound loop offset)) := by
        unfold NO_MEMOIZE_sem_with_loop_offset_st
        simp [hb, h]
      have e2 : NO_MEMOIZE_sem_with_loop_offset fsm (node.mk NodeType.ATOM l r) time bound loop offset
          = proposition_at_time fsm.enc (node.mk NodeType.ATOM l r) (time + offset) := by
        unfold NO_MEMOIZE_sem_with_loop_offset
        simp [hb, h]
      rw [e1, e2]
      exact raw_returns_pair _ _ _ _ _ _ (returns_pure fsm W _)
    | CONS =>
      intro time bound offset W
      by_cases hb : bound = 0
      · exact with_loop_raw_base fsm _ time bound loop offset W (Or.inl hb)
      by_cases h : time > bound
      · exact with_loop_raw_base fsm _ time bound loop offset W (Or.inr h)
      have e1 : NO_MEMOIZE_sem_with_loop_offset_st fsm (node.mk NodeType.CONS l r) time bound loop offset W
          = (proposition_at_time fsm.enc (node.mk NodeType.CONS l r) (time + offset),
            W.ran (MEMOIZER_key (node.mk NodeType.CONS l r) time bound loop offset)) := by
        unfold NO_MEMOIZE_sem_with_loop_offset_st
        simp [hb, h]
      have e2 : NO_MEMOIZE_sem_with_loop_offset fsm (node.mk NodeType.CONS l r) time bound loop offset
          = proposition_at_time fsm.enc (node.mk NodeType.CONS l r) (time + offset) := by
        unfold NO_MEMOIZE_sem_with_loop_offset
        simp [hb, h]
      rw [e1, e2]
      exact raw_returns_pair _ _ _ _ _ _ (returns_pure fsm W _)
    | other code =>
      intro time bound offset W
      by_cases hb : bound = 0
      · exact with_loop_raw_base fsm _ time bound loop offset W (Or.inl hb)
      by_cases h : time > bound
      · exact with_loop_raw_base fsm _ time bound loop offset W (Or.inr h)
      have e1 : NO_MEMOIZE_sem_with_loop_offset_st fsm (node.mk (NodeType.other code) l r) time bound loop offset W
          = (proposition_at_time fsm.enc (node.mk (NodeType.other code) l r) (time + offset),
            W.ran (MEMOIZER_key (node.mk (NodeType.other code) l r) time bound loop offset)) := by
        unfold NO_MEMOIZE_sem_with_loop_offset_st
        simp [hb, h]
      have e2 : NO_MEMOIZE_sem_with_loop_offset fsm (node.mk (NodeType.other code) l r) time bound loop offset
          = proposition_at_time fsm.enc (node.mk (NodeType.other code) l r) (time + offset) := by
        unfold NO_MEMOIZE_sem_with_loop_offset
        simp [hb, h]
      rw [e1, e2]
      exact raw_returns_pair _ _ _ _ _ _ (returns_pure fsm W _)

theorem with_loop_wrapper_returns (fsm : BeFsm) (formula : node)
    (time bound loop offset : Int) (hloop : loop ≠ Bmc_Utils_GetNoLoopback) (W : MemoState) :
    returns fsm W (sem_with_loop_offset fsm formula time bound loop offset W)
      (NO_MEMOIZE_sem_with_loop_offset fsm formula time bound loop offset) :=
  with_loop_wrapper_of_raw fsm formula time bound loop offset hloop
    (fun W1 => with_loop_raw_returns fsm loop hloop formula time bound offset W1) W

/-! ## Properties of the memoized encoders -/

/-- C15: whatever the cache state, a second call of the memoized
`sem_no_loop_offset` with the same arguments, made right after the first,
returns the same expression and is answered from the cache: the lookup of
the key finds that expression, no raw body is run (`raw_runs` is as the
first call left it) and the cache is as the first call left it. -/
theorem sem_no_loop_offset_twice (fsm : BeFsm) (formula : node) (time bound offset : Int)
    (W : MemoState) :
    (sem_no_loop_offset fsm formula time bound offset
        (sem_no_loop_offset fsm formula time bound offset W).2).1
      = (sem_no_loop_offset fsm formula time bound offset W).1 ∧
    MEMOIZER_get (MEMOIZER_key formula time bound Bmc_Utils_GetNoLoopback offset)
        (sem_no_loop_offset fsm formula time bound offset W).2
      = (some (sem_no_loop_offset fsm formula time bound offset W).1,
          (sem_no_loop_offset fsm formula time bound offset W).2) ∧
    (sem_no_loop_offset fsm formula time bound offset
        (sem_no_loop_offset fsm formula time bound offset W).2).2.raw_runs
      = (sem_no_loop_offset fsm formula time bound offset W).2.raw_runs ∧
    (sem_no_loop_offset fsm formula time bound offset
        (sem_no_loop_offset fsm formula time bound offset W).2).2.MEMOIZER
      = (sem_no_loop_offset fsm formula time bound offset W).2.MEMOIZER := by
  obtain ⟨h, hM, hF⟩ := memo_call_stores
    (MEMOIZER_key formula time bound Bmc_Utils_GetNoLoopback offset)
    (NO_MEMOIZE_sem_no_loop_offset_st fsm formula time bound offset) W
  rw [← sem_no_loop_offset_unfold] at hM hF
  have hsecond : sem_no_loop_offset fsm formula time bound offset
      (sem_no_loop_offset fsm formula time bound offset W).2
      = ((sem_no_loop_offset fsm formula time bound offset W).1,
        (sem_no_loop_offset fsm formula time bound offset W).2) := by
    rw [sem_no_loop_offset_unfold fsm formula time bound offset
      (sem_no_loop_offset fsm formula time bound offset W).2]
    exact memo_call_hit _ _ _ h _ hM hF
  refine ⟨by rw [hsecond], ?_, by rw [hsecond], by rw [hsecond]⟩
  simp [MEMOIZER_get, hM, hF]

/-- C16 (amended): from a cache in which every entry holds the expression the
cache-free encoder yields for its key (the empty cache is one), the memoized
`sem_no_loop_offset` and, for a loop start that is not the "no loop"
sentinel, the memoized `sem_with_loop_offset` return the expression of the
cache-free recursive definition, and the cache they leave has the same
property and contains every entry it had before. -/
theorem memoized_encoders_refine (fsm : BeFsm) (formula : node)
    (time bound loop offset : Int) (W : MemoState) (hW : cache_consistent fsm W) :
    ((sem_no_loop_offset fsm formula time bound offset W).1
        = NO_MEMOIZE_sem_no_loop_offset fsm formula time bound offset ∧
      cache_consistent fsm (sem_no_loop_offset fsm formula time bound offset W).2 ∧
      cache_extends W (sem_no_loop_offset fsm formula time bound offset W).2) ∧
    (loop ≠ Bmc_Utils_GetNoLoopback →
      (sem_with_loop_offset fsm formula time bound loop offset W).1
        = NO_MEMOIZE_sem_with_loop_offset fsm formula time bound loop offset ∧
      cache_consistent fsm (sem_with_loop_offset fsm formula time bound loop offset W).2 ∧
      cache_extends W (sem_with_loop_offset fsm formula time bound loop offset W).2) ∧
    cache_consistent fsm initial_state :=
  ⟨(no_loop_wrapper_returns fsm formula time bound offset W).2 hW,
    fun hloop => (with_loop_wrapper_returns fsm formula time bound loop offset hloop W).2 hW,
    fun _ _ _ _ _ _ h => by simp [MemoState.entry, initial_state] at h⟩

theorem memoized_encoders_refine_witness :
    cache_consistent example_fsm initial_state ∧
      (sem_no_loop_offset example_fsm (node.mk NodeType.UNTIL (node.atom 0) (node.atom 1))
          0 2 0 initial_state).1
        = NO_MEMOIZE_sem_no_loop_offset example_fsm
          (node.mk NodeType.UNTIL (node.atom 0) (node.atom 1)) 0 2 0 ∧
      (sem_with_loop_offset example_fsm (node.mk NodeType.UNTIL (node.atom 0) (node.atom 1))
          0 2 1 0 initial_state).1
        = NO_MEMOIZE_sem_with_loop_offset example_fsm
          (node.mk NodeType.UNTIL (node.atom 0) (node.atom 1)) 0 2 1 0 :=
  ⟨fun _ _ _ _ _ _ h => by simp [MemoState.entry, initial_state] at h,
    (memoized_encoders_refine example_fsm (node.mk NodeType.UNTIL (node.atom 0) (node.atom 1))
      0 2 1 0 initial_state
      (fun _ _ _ _ _ _ h => by simp [MemoState.entry, initial_state] at h)).1.1,
    ((memoized_encoders_refine example_fsm (node.mk NodeType.UNTIL (node.atom 0) (node.atom 1))
      0 2 1 0 initial_state
      (fun _ _ _ _ _ _ h => by simp [MemoState.entry, initial_state] at h)).2.1
      (by decide)).1⟩

/-- C17: `MEMOIZER_key` is injective on the tuples
`(formula, time, k, l, offset)`; for a real loop start `l >= 0` the key of
`sem_no_loop_offset`, built with the "no loop" sentinel, differs from the
key of `sem_with_loop_offset` with loop `l`; hence storing a value under
one of the two keys does not change what is found under the other. -/
theorem MEMOIZER_key_injective (f g : node) (t1 k1 l1 o1 t2 k2 l2 o2 : Int)
    (formula : node) (time bound l offset : Int) (e : Be) (W : MemoState) :
    (MEMOIZER_key f t1 k1 l1 o1 = MEMOIZER_key g t2 k2 l2 o2 ↔
      f = g ∧ t1 = t2 ∧ k1 = k2 ∧ l1 = l2 ∧ o1 = o2) ∧
    (0 ≤ l →
      MEMOIZER_key formula time bound Bmc_Utils_GetNoLoopback offset
          ≠ MEMOIZER_key formula time bound l offset ∧
      (MEMOIZER_get (MEMOIZER_key formula time bound l offset)
          (MEMOIZER_put (MEMOIZER_key formula time bound Bmc_Utils_GetNoLoopback offset) e W)).1
        = (MEMOIZER_get (MEMOIZER_key formula time bound l offset) W).1 ∧
      (MEMOIZER_get (MEMOIZER_key formula time bound Bmc_Utils_GetNoLoopback offset)
          (MEMOIZER_put (MEMOIZER_key formula time bound l offset) e W)).1
        = (MEMOIZER_get (MEMOIZER_key formula time bound Bmc_Utils_GetNoLoopback offset) W).1) := by
  refine ⟨MEMOIZER_key_inj f g t1 k1 l1 o1 t2 k2 l2 o2, fun hl => ?_⟩
  have hne : Bmc_Utils_GetNoLoopback ≠ l := by
    unfold Bmc_Utils_GetNoLoopback
    omega
  have hkey : MEMOIZER_key formula time bound Bmc_Utils_GetNoLoopback offset
      ≠ MEMOIZER_key formula time bound l offset := by
    intro h
    exact hne ((MEMOIZER_key_inj _ _ _ _ _ _ _ _ _ _).mp h).2.2.2.1
  refine ⟨hkey, ?_, ?_⟩
  · rw [(entry_get _ (MEMOIZER_key formula time bound l offset) _).1,
      (entry_get _ (MEMOIZER_key formula time bound l offset) _).1, (entry_put _ _ _ _).1,
      if_neg (Ne.symm hkey)]
  · rw [(entry_get _ (MEMOIZER_key formula time bound l offset) _).1,
      (entry_get _ (MEMOIZER_key formula time bound l offset) _).1, (entry_put _ _ _ _).1,
      if_neg hkey]

theorem MEMOIZER_key_injective_witness :
    (0 : Int) ≤ 1 ∧
      MEMOIZER_key (node.atom 0) 0 2 Bmc_Utils_GetNoLoopback 0
        ≠ MEMOIZER_key (node.atom 0) 0 2 1 0 :=
  ⟨by decide,
    ((MEMOIZER_key_injective (node.atom 0) (node.atom 0) 0 2 1 0 0 2 1 0 (node.atom 0) 0 2 1 0
      Be.Truth initial_state).2 (by decide)).1⟩

/-- C18: after `MEMOIZER_clear`, `MEMOIZER_get` finds nothing under any
key; a memoized encoder called then, also with a key that was cached
before, runs its raw body (the run is recorded on top of `raw_runs`) and
stores the result under the key; and `MEMOIZER_clear` changes nothing when
there is no table, in particular when it has just been called. -/
theorem MEMOIZER_clear_forgets (fsm : BeFsm) (formula : node)
    (time bound loop offset : Int) (key : node) (W : MemoState) :
    (MEMOIZER_get key (MEMOIZER_clear W)).1 = none ∧
    (sem_no_loop_offset fsm formula time bound offset (MEMOIZER_clear W)
      = ((NO_MEMOIZE_sem_no_loop_offset_st fsm formula time bound offset
            { MEMOIZER := some new_assoc, raw_runs := W.raw_runs }).1,
          MEMOIZER_put (MEMOIZER_key formula time bound Bmc_Utils_GetNoLoopback offset)
            (NO_MEMOIZE_sem_no_loop_offset_st fsm formula time bound offset
              { MEMOIZER := some new_assoc, raw_runs := W.raw_runs }).1
            (NO_MEMOIZE_sem_no_loop_offset_st fsm formula time bound offset
              { MEMOIZER := some new_assoc, raw_runs := W.raw_runs }).2)) ∧
    (∃ pre, (sem_no_loop_offset fsm formula time bound offset (MEMOIZER_clear W)).2.raw_runs
      = MEMOIZER_key formula time bound Bmc_Utils_GetNoLoopback offset
          :: (pre ++ W.raw_runs)) ∧
    ((sem_no_loop_offset fsm formula time bound offset (MEMOIZER_clear W)).2.entry
        (MEMOIZER_key formula time bound Bmc_Utils_GetNoLoopback offset)
      = some (sem_no_loop_offset fsm formula time bound offset (MEMOIZER_clear W)).1) ∧
    (sem_with_loop_offset fsm formula time bound loop offset (MEMOIZER_clear W)
      = ((NO_MEMOIZE_sem_with_loop_offset_st fsm formula time bound loop offset
            { MEMOIZER := some new_assoc, raw_runs := W.raw_runs }).1,
          MEMOIZER_put (MEMOIZER_key formula time bound loop offset)
            (NO_MEMOIZE_sem_with_loop_offset_st fsm formula time bound loop offset
              { MEMOIZER := some new_assoc, raw_runs := W.raw_runs }).1
            (NO_MEMOIZE_sem_with_loop_offset_st fsm formula time bound loop offset
              { MEMOIZER := some new_assoc, raw_runs := W.raw_runs }).2)) ∧
    ((sem_with_loop_offset fsm formula time bound loop offset (MEMOIZER_clear W)).2.entry
        (MEMOIZER_key formula time bound loop offset)
      = some (sem_with_loop_offset fsm formula time bound loop offset (MEMOIZER_clear W)).1) ∧
    (W.MEMOIZER = none → MEMOIZER_clear W = W) ∧
    MEMOIZER_clear (MEMOIZER_clear W) = MEMOIZER_clear W := by
  have hget : ∀ k, MEMOIZER_get k (MEMOIZER_clear W)
      = (none, { MEMOIZER := some new_assoc, raw_runs := W.raw_runs }) := by
    intro k
    cases hM : W.MEMOIZER <;> simp [MEMOIZER_clear, MEMOIZER_get, hM, find_assoc, new_assoc]
  have hnl : sem_no_loop_offset fsm formula time bound offset (MEMOIZER_clear W)
      = ((NO_MEMOIZE_sem_no_loop_offset_st fsm formula time bound offset
            { MEMOIZER := some new_assoc, raw_runs := W.raw_runs }).1,
          MEMOIZER_put (MEMOIZER_key formula time bound Bmc_Utils_GetNoLoopback offset)
            (NO_MEMOIZE_sem_no_loop_offset_st fsm formula time bound offset
              { MEMOIZER := some new_assoc, raw_runs := W.raw_runs }).1
            (NO_MEMOIZE_sem_no_loop_offset_st fsm formula time bound offset
              { MEMOIZER := some new_assoc, raw_runs := W.raw_runs }).2) := by
    rw [sem_no_loop_offset_unfold, hget]
  have hwl : sem_with_loop_offset fsm formula time bound loop offset (MEMOIZER_clear W)
      = ((NO_MEMOIZE_sem_with_loop_offset_st fsm formula time bound loop offset
            { MEMOIZER := some new_assoc, raw_runs := W.raw_runs }).1,
          MEMOIZER_put (MEMOIZER_key formula time bound loop offset)
            (NO_MEMOIZE_sem_with_loop_offset_st fsm formula time bound loop offset
              { MEMOIZER := some new_assoc, raw_runs := W.raw_runs }).1
            (NO_MEMOIZE_sem_with_loop_offset_st fsm formula time bound loop offset
              { MEMOIZER := some new_assoc, raw_runs := W.raw_runs }).2) := by
    rw [sem_with_loop_offset_unfold, hget]
  refine ⟨by rw [hget], hnl, ?_, ?_, hwl, ?_, ?_, ?_⟩
  · obtain ⟨pre, hpre⟩ := raw_returns_runs fsm _ _ _ _
      (no_loop_raw_returns fsm formula time bound offset
        { MEMOIZER := some new_assoc, raw_runs := W.raw_runs })
    refine ⟨pre, ?_⟩
    rw [hnl]
    show (MEMOIZER_put _ _ _).raw_runs = _
    rw [(entry_put _ (MEMOIZER_key formula time bound Bmc_Utils_GetNoLoopback offset) _ _).2,
      hpre]
  · rw [hnl]
    show (MEMOIZER_put _ _ _).entry _ = _
    rw [(entry_put _ _ _ _).1, if_pos rfl]
  · rw [hwl]
    show (MEMOIZER_put _ _ _).entry _ = _
    rw [(entry_put _ _ _ _).1, if_pos rfl]
  · intro hM
    simp [MEMOIZER_clear, hM]
  · cases hM : W.MEMOIZER <;> simp [MEMOIZER_clear, hM]

theorem MEMOIZER_clear_forgets_witness :
    initial_state.MEMOIZER = none ∧ MEMOIZER_clear initial_state = initial_state :=
  ⟨rfl,
    (MEMOIZER_clear_forgets example_fsm (node.atom 0) 0 2 1 0 (node.atom 0)
      initial_state).2.2.2.2.2.2.1 rfl⟩

/-! ## Fairness on a loop and the loop condition -/

theorem foldl_and_eval_list {α : Type} (σ : Assignment) (g : α → Be) (L : List α)
    (init : Be) :
    (L.foldl (fun result a => Be.And result (g a)) init).eval σ = true ↔
      init.eval σ = true ∧ ∀ a ∈ L, (g a).eval σ = true := by
  induction L generalizing init with
  | nil => simp
  | cons a L ih =>
    rw [List.foldl_cons, ih]
    simp only [Be.eval, Bool.and_eq_true, List.mem_cons, forall_eq_or_imp]
    tauto

theorem or_interval_eval (enc : BeEnc) (σ : Assignment) (exp : Be) (lo hi : Int) :
    (BeEnc_untimed_to_timed_or_interval enc exp lo hi).eval σ = true ↔
      ∃ t, lo ≤ t ∧ t ≤ hi ∧ (BeEnc_untimed_expr_to_timed enc exp t).eval σ = true := by
  unfold BeEnc_untimed_to_timed_or_interval
  rw [foldl_or_eval σ (fun t => BeEnc_untimed_expr_to_timed enc exp t)]
  simp only [Be.eval, Bool.false_eq_true, false_or, mem_int_range]
  constructor
  · rintro ⟨t, ⟨h1, h2⟩, h3⟩
    exact ⟨t, h1, by omega, h3⟩
  · rintro ⟨t, h1, h2, h3⟩
    exact ⟨t, ⟨h1, by omega⟩, h3⟩

/-- C21: for `k >= 1` and a real loop start `0 <= l < k`,
`fairness_constraint` is the conjunction, seeded with truth, of the
expressions "`f` holds at some time of `[l, k-1]`" of the encoder, one for
each entry `f` of the fairness list in turn: it evaluates to true exactly
when every fairness obligation holds at some time of `[l, k-1]`, and it is
truth when the fairness list is empty. -/
theorem fairness_constraint_conjunction (fsm : BeFsm) (σ : Assignment) (k l : Int)
    (hk : 1 ≤ k) (hl : 0 ≤ l) (_hlk : l < k) :
    fairness_constraint fsm k l
      = fsm.fairness_list.foldl
          (fun constraint fairness =>
            Be.And constraint (BeEnc_untimed_to_timed_or_interval fsm.enc fairness l (k - 1)))
          Be.Truth ∧
    ((fairness_constraint fsm k l).eval σ = true ↔
      ∀ f ∈ fsm.fairness_list, ∃ t, l ≤ t ∧ t ≤ k - 1 ∧
        (BeEnc_untimed_expr_to_timed fsm.enc f t).eval σ = true) ∧
    (fsm.fairness_list = [] → fairness_constraint fsm k l = Be.Truth) := by
  have hne : l ≠ Bmc_Utils_GetNoLoopback := by
    unfold Bmc_Utils_GetNoLoopback
    omega
  have hk0 : k ≠ 0 := by omega
  have hF : fairness_constraint fsm k l
      = fsm.fairness_list.foldl
          (fun constraint fairness =>
            Be.And constraint (BeEnc_untimed_to_timed_or_interval fsm.enc fairness l (k - 1)))
          Be.Truth := by
    simp [fairness_constraint, Bmc_Utils_IsNoLoopback, hne, hk0]
  refine ⟨hF, ?_, fun hnil => ?_⟩
  · rw [hF, foldl_and_eval_list σ
      (fun fairness => BeEnc_untimed_to_timed_or_interval fsm.enc fairness l (k - 1))]
    simp only [Be.eval, true_and, or_interval_eval]
  · rw [hF, hnil]
    rfl

theorem fairness_constraint_conjunction_witness :
    (1 : Int) ≤ 3 ∧ (0 : Int) ≤ 1 ∧ (1 : Int) < 3 ∧
      ((fairness_constraint fair_fsm 3 1).eval q_at_one = true ↔
        ∀ f ∈ fair_fsm.fairness_list, ∃ t, (1 : Int) ≤ t ∧ t ≤ 3 - 1 ∧
          (BeEnc_untimed_expr_to_timed fair_fsm.enc f t).eval q_at_one = true) :=
  ⟨by decide, by decide, by decide,
    (fairness_constraint_conjunction fair_fsm q_at_one 3 1 (by decide) (by decide)
      (by decide)).2.1⟩

/-- C22: `loop_condition` is the conjunction, seeded with truth, of
`(v timed at l) IFF (v timed at k)` over the variables `v` of the
enumeration of the encoder, each in turn: it evaluates to true exactly when
every state variable has the same value at time `l` and at time `k`. For
`k = 3`, `l = 1` and the variables `a`, `b` it is
`(truth AND (a@1 IFF a@3)) AND (b@1 IFF b@3)`, which has the value of
`(a@1 IFF a@3) AND (b@1 IFF b@3)`. -/
theorem loop_condition_conjunction (enc : BeEnc) (σ : Assignment) (k l : Int) (a b : Nat) :
    ((loop_condition enc k l).eval σ = true ↔
      ∀ v ∈ enc.state_vars, σ v (some l) = σ v (some k)) ∧
    loop_condition { Bexp2Be := enc.Bexp2Be, state_vars := [a, b] } 3 1
      = Be.And (Be.And Be.Truth (Be.Iff (Be.Var a (some 1)) (Be.Var a (some 3))))
          (Be.Iff (Be.Var b (some 1)) (Be.Var b (some 3))) ∧
    (loop_condition { Bexp2Be := enc.Bexp2Be, state_vars := [a, b] } 3 1).eval σ
      = (Be.And (Be.Iff (Be.Var a (some 1)) (Be.Var a (some 3)))
          (Be.Iff (Be.Var b (some 1)) (Be.Var b (some 3)))).eval σ := by
  refine ⟨?_, rfl, ?_⟩
  · unfold loop_condition
    rw [foldl_and_eval_list σ
      (fun iter => Be.Iff (BeEnc_index_to_timed enc iter l) (BeEnc_index_to_timed enc iter k))]
    simp only [Be.eval, true_and, BeEnc_index_to_timed, beq_iff_eq]
  · simp [loop_condition, BeEnc_index_to_timed, Be.eval]

/-! ## Further properties of the successor and of the encoder with loop -/

/-- C26: on a k-l loop (`0 <= l < k`) the successor of a time of `0..k-1`
is a time of `0..k-1`, and the successor of a time of `l..k-1` is a time
of `l..k-1`. -/
theorem succ_stays_on_loop (k l time : Int) (hl : 0 ≤ l) (hlk : l < k) (ht0 : 0 ≤ time)
    (htk : time < k) :
    0 ≤ succ k l time ∧ succ k l time ≤ k - 1 ∧
      (l ≤ time → l ≤ succ k l time ∧ succ k l time ≤ k - 1) := by
  unfold succ
  split_ifs with h
  · exact ⟨by omega, by omega, fun _ => ⟨by omega, by omega⟩⟩
  · exact ⟨by omega, by omega, fun _ => ⟨by omega, by omega⟩⟩

theorem succ_stays_on_loop_witness :
    (0 : Int) ≤ 1 ∧ (1 : Int) < 3 ∧ (0 : Int) ≤ 2 ∧ (2 : Int) < 3 ∧
      (0 ≤ succ 3 1 2 ∧ succ 3 1 2 ≤ 3 - 1 ∧
        ((1 : Int) ≤ 2 → 1 ≤ succ 3 1 2 ∧ succ 3 1 2 ≤ 3 - 1)) :=
  ⟨by decide, by decide, by decide, by decide,
    succ_stays_on_loop 3 1 2 (by decide) (by decide) (by decide) (by decide)⟩

theorem releases_fold_true (σ : Assignment) (A B : Int → Be) (L : List Int) (init : Be)
    (hinit : init.eval σ = true) (hB : ∀ i ∈ L, (B i).eval σ = true) :
    (L.foldl (fun result i => Be.And (B i) (Be.Or (A i) result)) init).eval σ = true := by
  induction L generalizing init with
  | nil => exact hinit
  | cons a L ih =>
    rw [List.foldl_cons]
    apply ih
    · simp only [Be.eval, hinit, hB a (List.mem_cons_self a L), Bool.or_true, Bool.and_self]
    · exact fun i hi => hB i (List.mem_cons_of_mem a hi)

/-- C25: in the encoder with loop `G psi` is enough for `phi R psi`: for
`k >= 1`, a loop start `0 <= l < k` and `time <= k`, whenever the encoding
of `GLOBALLY(psi)` evaluates to true so does the encoding of
`RELEASES(phi, psi)`. -/
theorem sem_with_loop_globally_implies_releases (fsm : BeFsm) (σ : Assignment)
    (phi psi : node) (time k l offset : Int) (hk : 1 ≤ k) (_hl : 0 ≤ l) (hlk : l < k)
    (ht : time ≤ k)
    (hG : (NO_MEMOIZE_sem_with_loop_offset fsm (node.mk NodeType.OP_GLOBAL psi node.Nil)
      time k l offset).eval σ = true) :
    (NO_MEMOIZE_sem_with_loop_offset fsm (node.mk NodeType.RELEASES phi psi)
      time k l offset).eval σ = true := by
  have hk0 : k ≠ 0 := by omega
  rw [with_loop_GLOBAL fsm psi node.Nil time k l offset hk0 ht, foldl_and_eval σ
    (fun i => NO_MEMOIZE_sem_with_loop_offset fsm psi i k l offset)] at hG
  have hall : ∀ i, min time l ≤ i → i < k →
      (NO_MEMOIZE_sem_with_loop_offset fsm psi i k l offset).eval σ = true :=
    fun i h1 h2 => hG.2 i ((mem_int_range _ _ i).mpr ⟨h1, h2⟩)
  rw [with_loop_RELEASES fsm phi psi time k l offset hk0 ht]
  apply releases_fold_true σ
    (fun i => NO_MEMOIZE_sem_with_loop_offset fsm phi i k l offset)
    (fun i => NO_MEMOIZE_sem_with_loop_offset fsm psi i k l offset)
  · exact hall (k - 1) (by omega) (by omega)
  · intro i hi
    rw [List.mem_reverse, mem_int_range] at hi
    exact hall i hi.1 (by omega)

theorem sem_with_loop_globally_implies_releases_witness :
    (1 : Int) ≤ 2 ∧ (0 : Int) ≤ 0 ∧ (0 : Int) < 2 ∧ (0 : Int) ≤ 2 ∧
      (NO_MEMOIZE_sem_with_loop_offset example_fsm
          (node.mk NodeType.OP_GLOBAL (node.atom 0) node.Nil) 0 2 0 0).eval q_at_three = true ∧
      (NO_MEMOIZE_sem_with_loop_offset example_fsm
          (node.mk NodeType.RELEASES (node.atom 1) (node.atom 0)) 0 2 0 0).eval q_at_three
        = true :=
  ⟨by decide, by decide, by decide, by decide, by decide,
    sem_with_loop_globally_implies_releases example_fsm q_at_three (node.atom 1) (node.atom 0)
      0 2 0 0 (by decide) (by decide) (by decide) (by decide) (by decide)⟩

/-- C28: in the encoder with loop, for `k >= 1` and a time `t` with
`l <= t <= k`, the encoding of a GLOBALLY, EVENTUALLY, UNTIL or RELEASES
formula at time `t` is its encoding at time `l`. -/
theorem sem_with_loop_time_independent (fsm : BeFsm) (phi psi : node)
    (t k l offset : Int) (hk : 1 ≤ k) (hlt : l ≤ t) (htk : t ≤ k) :
    NO_MEMOIZE_sem_with_loop_offset fsm (node.mk NodeType.OP_GLOBAL phi node.Nil) t k l offset
        = NO_MEMOIZE_sem_with_loop_offset fsm (node.mk NodeType.OP_GLOBAL phi node.Nil)
          l k l offset ∧
      NO_MEMOIZE_sem_with_loop_offset fsm (node.mk NodeType.OP_FUTURE phi node.Nil) t k l offset
        = NO_MEMOIZE_sem_with_loop_offset fsm (node.mk NodeType.OP_FUTURE phi node.Nil)
          l k l offset ∧
      NO_MEMOIZE_sem_with_loop_offset fsm (node.mk NodeType.UNTIL phi psi) t k l offset
        = NO_MEMOIZE_sem_with_loop_offset fsm (node.mk NodeType.UNTIL phi psi) l k l offset ∧
      NO_MEMOIZE_sem_with_loop_offset fsm (node.mk NodeType.RELEASES phi psi) t k l offset
        = NO_MEMOIZE_sem_with_loop_offset fsm (node.mk NodeType.RELEASES phi psi)
          l k l offset := by
  have hk0 : k ≠ 0 := by omega
  have hlk : l ≤ k := by omega
  have hm : min t l = l := min_eq_right hlt
  have hm2 : min l l = l := min_self l
  refine ⟨?_, ?_, ?_, ?_⟩
  · rw [with_loop_GLOBAL fsm _ _ t k l offset hk0 htk,
      with_loop_GLOBAL fsm _ _ l k l offset hk0 hlk, hm, hm2]
  · rw [with_loop_FUTURE fsm _ _ t k l offset hk0 htk,
      with_loop_FUTURE fsm _ _ l k l offset hk0 hlk, hm, hm2]
  · rw [with_loop_UNTIL fsm _ _ t k l offset hk0 htk,
      with_loop_UNTIL fsm _ _ l k l offset hk0 hlk, hm, hm2]
  · rw [with_loop_RELEASES fsm _ _ t k l offset hk0 htk,
      with_loop_RELEASES fsm _ _ l k l offset hk0 hlk, hm, hm2]

theorem sem_with_loop_time_independent_witness :
    (1 : Int) ≤ 3 ∧ (1 : Int) ≤ 2 ∧ (2 : Int) ≤ 3 ∧
      NO_MEMOIZE_sem_with_loop_offset example_fsm
          (node.mk NodeType.UNTIL (node.atom 0) (node.atom 1)) 2 3 1 0
        = NO_MEMOIZE_sem_with_loop_offset example_fsm
          (node.mk NodeType.UNTIL (node.atom 0) (node.atom 1)) 1 3 1 0 :=
  ⟨by decide, by decide, by decide,
    (sem_with_loop_time_independent example_fsm (node.atom 0) (node.atom 1) 2 3 1 0
      (by decide) (by decide) (by decide)).2.2.1⟩

/-! ## Nodes of other tags -/

/-- C23 (counterexample): a node whose tag `other 7` is outside the
supported set is encoded, without loop and with loop, as the atomic
proposition that the leaf conversion makes of it, here the variable 1007
timed at 0: no error is raised. -/
theorem unsupported_tag_encoded_as_atom :
    NO_MEMOIZE_sem_no_loop_offset leaf_fsm
        (node.mk (NodeType.other 7) (node.atom 0) (node.atom 1)) 0 2 0
      = Be.Var 1007 (some 0) ∧
    NO_MEMOIZE_sem_with_loop_offset leaf_fsm
        (node.mk (NodeType.other 7) (node.atom 0) (node.atom 1)) 0 2 1 0
      = Be.Var 1007 (some 0) ∧
    proposition_at_time leaf_fsm.enc
        (node.mk (NodeType.other 7) (node.atom 0) (node.atom 1)) 0
      = Be.Var 1007 (some 0) := by
  refine ⟨?_, by decide, by decide⟩
  unfold NO_MEMOIZE_sem_no_loop_offset
  simp [proposition_at_time, leaf_fsm, leaf_enc, BeEnc_untimed_expr_to_timed]

/-- C23 (amended): a node whose tag is none of the eleven operators of the
`switch` falls into the default branch of both encoders: at a time
`time <= bound` (and `bound != 0` with loop) its encoding is the node
itself, children included, handed as an atomic proposition to
`proposition_at_time` at `time + offset`. -/
theorem unsupported_tag_is_atomic (fsm : BeFsm) (type : NodeType) (l r : node)
    (time bound loop offset : Int) (hs : supported_operator type = false)
    (ht : time ≤ bound) :
    NO_MEMOIZE_sem_no_loop_offset fsm (node.mk type l r) time bound offset
        = proposition_at_time fsm.enc (node.mk type l r) (time + offset) ∧
      (bound ≠ 0 →
        NO_MEMOIZE_sem_with_loop_offset fsm (node.mk type l r) time bound loop offset
          = proposition_at_time fsm.enc (node.mk type l r) (time + offset)) := by
  have h : ¬ time > bound := not_lt.mpr ht
  cases type
  case ATOM =>
    refine ⟨?_, fun hb => ?_⟩
    · unfold NO_MEMOIZE_sem_no_loop_offset
      simp [h]
    · unfold NO_MEMOIZE_sem_with_loop_offset
      simp [h, hb]
  case CONS =>
    refine ⟨?_, fun hb => ?_⟩
    · unfold NO_MEMOIZE_sem_no_loop_offset
      simp [h]
    · unfold NO_MEMOIZE_sem_with_loop_offset
      simp [h, hb]
  case other code =>
    refine ⟨?_, fun hb => ?_⟩
    · unfold NO_MEMOIZE_sem_no_loop_offset
      simp [h]
    · unfold NO_MEMOIZE_sem_with_loop_offset
      simp [h, hb]
  all_goals simp [supported_operator] at hs

theorem unsupported_tag_is_atomic_witness :
    supported_operator (NodeType.other 7) = false ∧ (0 : Int) ≤ 2 ∧
      NO_MEMOIZE_sem_no_loop_offset leaf_fsm
          (node.mk (NodeType.other 7) (node.atom 0) (node.atom 1)) 0 2 0
        = proposition_at_time leaf_fsm.enc
          (node.mk (NodeType.other 7) (node.atom 0) (node.atom 1)) (0 + 0) ∧
      NO_MEMOIZE_sem_with_loop_offset leaf_fsm
          (node.mk (NodeType.other 7) (node.atom 0) (node.atom 1)) 0 2 1 0
        = proposition_at_time leaf_fsm.enc
          (node.mk (NodeType.other 7) (node.atom 0) (node.atom 1)) (0 + 0) :=
  ⟨rfl, by decide,
    (unsupported_tag_is_atomic leaf_fsm (NodeType.other 7) (node.atom 0) (node.atom 1)
      0 2 1 0 rfl (by decide)).1,
    (unsupported_tag_is_atomic leaf_fsm (NodeType.other 7) (node.atom 0) (node.atom 1)
      0 2 1 0 rfl (by decide)).2 (by decide)⟩

/-! ## RELEASES and UNTIL without loop -/

theorem no_loop_not_until_not_aux (fsm : BeFsm) (σ : Assignment) (phi psi : node)
    (k o : Int) :
    ∀ (n : Nat) (t : Int), (k + 1 - t).toNat = n → t ≤ k + 1 →
      ((!(NO_MEMOIZE_sem_no_loop_offset fsm
          (node.mk NodeType.UNTIL (node.mk NodeType.NOT phi node.Nil)
            (node.mk NodeType.NOT psi node.Nil)) t k o).eval σ) = true ↔
        (NO_MEMOIZE_sem_no_loop_offset fsm (node.mk NodeType.RELEASES phi psi) t k o).eval σ
            = true ∨
          ∀ m, t ≤ m → m ≤ k → (NO_MEMOIZE_sem_no_loop_offset fsm psi m k o).eval σ = true) := by
  intro n
  induction n with
  | zero =>
    intro t hn ht
    have htk : t = k + 1 := by omega
    subst htk
    rw [no_loop_past_bound _ _ _ _ _ (by omega), no_loop_past_bound _ _ _ _ _ (by omega)]
    simp only [Be.eval, Bool.not_false, Bool.false_eq_true, false_or, true_iff]
    intro m h1 h2
    omega
  | succ n ih =>
    intro t hn ht
    have htk : t ≤ k := by omega
    have ih1 := ih (t + 1) (by omega) (by omega)
    have hA : (∀ m, t ≤ m → m ≤ k →
          (NO_MEMOIZE_sem_no_loop_offset fsm psi m k o).eval σ = true) ↔
        ((NO_MEMOIZE_sem_no_loop_offset fsm psi t k o).eval σ = true ∧
          ∀ m, t + 1 ≤ m → m ≤ k →
            (NO_MEMOIZE_sem_no_loop_offset fsm psi m k o).eval σ = true) := by
      constructor
      · intro hall
        exact ⟨hall t (le_refl _) htk, fun m h1 h2 => hall m (by omega) h2⟩
      · rintro ⟨h0, hall⟩ m h1 h2
        by_cases hm : m = t
        · subst hm
          exact h0
        · exact hall m (by omega) h2
    rw [no_loop_UNTIL _ _ _ _ _ _ htk, no_loop_NOT _ _ _ _ _ _ htk,
      no_loop_NOT _ _ _ _ _ _ htk, no_loop_RELEASES _ _ _ _ _ _ htk, hA]
    simp only [Be.eval]
    revert ih1
    cases (NO_MEMOIZE_sem_no_loop_offset fsm psi t k o).eval σ <;>
      cases (NO_MEMOIZE_sem_no_loop_offset fsm phi t k o).eval σ <;>
      cases (NO_MEMOIZE_sem_no_loop_offset fsm
        (node.mk NodeType.UNTIL (node.mk NodeType.NOT phi node.Nil)
          (node.mk NodeType.NOT psi node.Nil)) (t + 1) k o).eval σ <;>
      cases (NO_MEMOIZE_sem_no_loop_offset fsm (node.mk NodeType.RELEASES phi psi)
        (t + 1) k o).eval σ <;>
      simp

/-- C24 (counterexample): without loop RELEASES is not the dual of UNTIL:
for atoms `p`, `q`, bound 0 and time 0, under `q_at_start` (q true and p
false at time 0) the encoding of `RELEASES(p, q)` is false and the negation
of the encoding of `UNTIL(NOT p, NOT q)` is true. -/
theorem sem_no_loop_releases_not_dual :
    ¬ ∀ σ : Assignment,
      (NO_MEMOIZE_sem_no_loop_offset example_fsm
          (node.mk NodeType.RELEASES (node.atom 0) (node.atom 1)) 0 0 0).eval σ
        = !(NO_MEMOIZE_sem_no_loop_offset example_fsm
            (node.mk NodeType.UNTIL (node.mk NodeType.NOT (node.atom 0) node.Nil)
              (node.mk NodeType.NOT (node.atom 1) node.Nil)) 0 0 0).eval σ := by
  intro h
  have h0 := h q_at_start
  have e1 : NO_MEMOIZE_sem_no_loop_offset example_fsm
      (node.mk NodeType.RELEASES (node.atom 0) (node.atom 1)) 0 0 0
      = Be.And (Be.Var 1 (some 0)) (Be.Or (Be.Var 0 (some 0)) Be.Falsity) := by
    simp [NO_MEMOIZE_sem_no_loop_offset, proposition_at_time, example_fsm, example_enc,
      BeEnc_untimed_expr_to_timed]
  have e2 : NO_MEMOIZE_sem_no_loop_offset example_fsm
      (node.mk NodeType.UNTIL (node.mk NodeType.NOT (node.atom 0) node.Nil)
        (node.mk NodeType.NOT (node.atom 1) node.Nil)) 0 0 0
      = Be.Or (Be.Not (Be.Var 1 (some 0)))
          (Be.And (Be.Not (Be.Var 0 (some 0))) Be.Falsity) := by
    simp [NO_MEMOIZE_sem_no_loop_offset, proposition_at_time, example_fsm, example_enc,
      BeEnc_untimed_expr_to_timed]
  rw [e1, e2] at h0
  revert h0
  decide

/-- C24 (amended): without loop, at a time `t <= k`, the negation of the
encoding of `UNTIL(NOT(phi), NOT(psi))` evaluates to true exactly when the
encoding of `RELEASES(phi, psi)` does or the encoding of `psi` is true at
every time of `[t, k]`; so the encoding of RELEASES implies that negation,
and not conversely. -/
theorem sem_no_loop_releases_half_dual (fsm : BeFsm) (σ : Assignment) (phi psi : node)
    (t k offset : Int) (h : t ≤ k) :
    ((!(NO_MEMOIZE_sem_no_loop_offset fsm
        (node.mk NodeType.UNTIL (node.mk NodeType.NOT phi node.Nil)
          (node.mk NodeType.NOT psi node.Nil)) t k offset).eval σ) = true ↔
      (NO_MEMOIZE_sem_no_loop_offset fsm (node.mk NodeType.RELEASES phi psi)
          t k offset).eval σ = true ∨
        ∀ m, t ≤ m → m ≤ k →
          (NO_MEMOIZE_sem_no_loop_offset fsm psi m k offset).eval σ = true) ∧
    ((NO_MEMOIZE_sem_no_loop_offset fsm (node.mk NodeType.RELEASES phi psi)
        t k offset).eval σ = true →
      (NO_MEMOIZE_sem_no_loop_offset fsm
        (node.mk NodeType.UNTIL (node.mk NodeType.NOT phi node.Nil)
          (node.mk NodeType.NOT psi node.Nil)) t k offset).eval σ = false) := by
  have hiff := no_loop_not_until_not_aux fsm σ phi psi k offset _ t rfl (by omega)
  refine ⟨hiff, fun hR => ?_⟩
  have hnot := hiff.mpr (Or.inl hR)
  simpa using hnot

theorem sem_no_loop_releases_half_dual_witness :
    (0 : Int) ≤ 0 ∧
      ((!(NO_MEMOIZE_sem_no_loop_offset example_fsm
          (node.mk NodeType.UNTIL (node.mk NodeType.NOT (node.atom 0) node.Nil)
            (node.mk NodeType.NOT (node.atom 1) node.Nil)) 0 0 0).eval q_at_start) = true ↔
        (NO_MEMOIZE_sem_no_loop_offset example_fsm
            (node.mk NodeType.RELEASES (node.atom 0) (node.atom 1)) 0 0 0).eval q_at_start
            = true ∨
          ∀ m, (0 : Int) ≤ m → m ≤ 0 →
            (NO_MEMOIZE_sem_no_loop_offset example_fsm (node.atom 1) m 0 0).eval q_at_start
              = true) :=
  ⟨by decide,
    (sem_no_loop_releases_half_dual example_fsm q_at_start (node.atom 0) (node.atom 1)
      0 0 0 (by decide)).1⟩

/-! ## The encoder without loop and infinite paths -/

theorem no_loop_bounded_iff (fsm : BeFsm) (σ : Assignment) (f : Nnf) (k t o : Int)
    (h : t ≤ k) :
    (NO_MEMOIZE_sem_no_loop_offset fsm f.toNode t k o).eval σ = true ↔
      f.bounded_holds (fun p i => atom_value fsm σ p (i + o)) k t := by
  induction f generalizing t with
  | atom p =>
    simp only [Nnf.toNode, Nnf.bounded_holds, atom_value]
    rw [no_loop_atom _ _ _ _ _ h]
  | natom p =>
    simp only [Nnf.toNode, Nnf.bounded_holds, atom_value]
    rw [no_loop_NOT _ _ _ _ _ _ h, no_loop_atom _ _ _ _ _ h]
    simp [Be.eval]
  | and f g ihf ihg =>
    simp only [Nnf.toNode, Nnf.bounded_holds]
    rw [no_loop_AND _ _ _ _ _ _ h]
    simp only [Be.eval, Bool.and_eq_true, ihf t h, ihg t h]
  | or f g ihf ihg =>
    simp only [Nnf.toNode, Nnf.bounded_holds]
    rw [no_loop_OR _ _ _ _ _ _ h]
    simp only [Be.eval, Bool.or_eq_true, ihf t h, ihg t h]
  | next f ih =>
    simp only [Nnf.toNode, Nnf.bounded_holds]
    rw [no_loop_NEXT _ _ _ _ _ _ h]
    by_cases htk : t < k
    · rw [ih (t + 1) (by omega)]
      exact ⟨fun hf => ⟨htk, hf⟩, fun hf => hf.2⟩
    · rw [no_loop_past_bound _ _ _ _ _ (by omega)]
      simp [Be.eval, htk]
  | globally f _ =>
    simp only [Nnf.toNode, Nnf.bounded_holds]
    rw [no_loop_GLOBAL]
    simp [Be.eval]
  | eventually f ih =>
    simp only [Nnf.toNode, Nnf.bounded_holds]
    rw [no_loop_future_eval _ _ _ _ _ _ _ h]
    constructor
    · rintro ⟨j, h1, h2, h3⟩
      exact ⟨j, h1, h2, (ih j h2).mp h3⟩
    · rintro ⟨j, h1, h2, h3⟩
      exact ⟨j, h1, h2, (ih j h2).mpr h3⟩
  | «until» f g ihf ihg =>
    simp only [Nnf.toNode, Nnf.bounded_holds]
    rw [no_loop_until_eval _ _ _ _ _ _ _ h]
    constructor
    · rintro ⟨j, h1, h2, h3, h4⟩
      exact ⟨j, h1, h2, (ihg j h2).mp h3, fun m hm1 hm2 => (ihf m (by omega)).mp (h4 m hm1 hm2)⟩
    · rintro ⟨j, h1, h2, h3, h4⟩
      exact ⟨j, h1, h2, (ihg j h2).mpr h3, fun m hm1 hm2 => (ihf m (by omega)).mpr (h4 m hm1 hm2)⟩
  | releases f g ihf ihg =>
    simp only [Nnf.toNode, Nnf.bounded_holds]
    rw [no_loop_releases_eval _ _ _ _ _ _ _ h]
    constructor
    · rintro ⟨j, h1, h2, h3, h4⟩
      exact ⟨j, h1, h2, (ihf j h2).mp h3, fun m hm1 hm2 => (ihg m (by omega)).mp (h4 m hm1 hm2)⟩
    · rintro ⟨j, h1, h2, h3, h4⟩
      exact ⟨j, h1, h2, (ihf j h2).mpr h3, fun m hm1 hm2 => (ihg m (by omega)).mpr (h4 m hm1 hm2)⟩

theorem bounded_holds_sound (val : Nat → Int → Bool) (path : Nat → Nat → Bool) (k : Int)
    (hpath : ∀ p i, 0 ≤ i → i ≤ k → val p i = path i.toNat p) (f : Nnf) :
    ∀ t : Int, 0 ≤ t → t ≤ k → f.bounded_holds val k t → f.toLtl.holds path t.toNat := by
  induction f with
  | atom p =>
    intro t h0 hk hb
    simp only [Nnf.bounded_holds] at hb
    simp only [Nnf.toLtl, Ltl.holds]
    rw [← hpath p t h0 hk]
    exact hb
  | natom p =>
    intro t h0 hk hb
    simp only [Nnf.bounded_holds] at hb
    simp only [Nnf.toLtl, Ltl.holds]
    rw [← hpath p t h0 hk, hb]
    exact Bool.false_ne_true
  | and f g ihf ihg =>
    intro t h0 hk hb
    exact ⟨ihf t h0 hk hb.1, ihg t h0 hk hb.2⟩
  | or f g ihf ihg =>
    intro t h0 hk hb
    rcases hb with hb | hb
    · exact Or.inl (ihf t h0 hk hb)
    · exact Or.inr (ihg t h0 hk hb)
  | next f ih =>
    intro t h0 hk hb
    simp only [Nnf.bounded_holds] at hb
    simp only [Nnf.toLtl, Ltl.holds]
    have h1 := ih (t + 1) (by omega) (by omega) hb.2
    have e : (t + 1).toNat = t.toNat + 1 := by omega
    rw [e] at h1
    exact h1
  | globally f _ =>
    intro t h0 hk hb
    exact False.elim hb
  | eventually f ih =>
    intro t h0 hk hb
    obtain ⟨j, h1, h2, h3⟩ := hb
    exact ⟨j.toNat, by omega, ih j (by omega) h2 h3⟩
  | «until» f g ihf ihg =>
    intro t h0 hk hb
    obtain ⟨j, h1, h2, h3, h4⟩ := hb
    refine ⟨j.toNat, by omega, ihg j (by omega) h2 h3, fun n hn1 hn2 => ?_⟩
    have h5 := ihf (n : Int) (by omega) (by omega) (h4 (n : Int) (by omega) (by omega))
    simpa using h5
  | releases f g ihf ihg =>
    intro t h0 hk hb
    obtain ⟨j, h1, h2, h3, h4⟩ := hb
    refine Or.inr ⟨j.toNat, by omega, ihf j (by omega) h2 h3, fun n hn1 hn2 => ?_⟩
    have h5 := ihg (n : Int) (by omega) (by omega) (h4 (n : Int) (by omega) (by omega))
    simpa using h5

theorem bounded_holds_mono (val : Nat → Int → Bool) (k : Int) (f : Nnf) :
    ∀ t : Int, f.bounded_holds val k t → f.bounded_holds val (k + 1) t := by
  induction f with
  | atom p => exact fun t hb => hb
  | natom p => exact fun t hb => hb
  | and f g ihf ihg => exact fun t hb => ⟨ihf t hb.1, ihg t hb.2⟩
  | or f g ihf ihg =>
    intro t hb
    rcases hb with hb | hb
    · exact Or.inl (ihf t hb)
    · exact Or.inr (ihg t hb)
  | next f ih =>
    intro t hb
    simp only [Nnf.bounded_holds] at hb ⊢
    exact ⟨by omega, ih (t + 1) hb.2⟩
  | globally f _ => exact fun t hb => hb
  | eventually f ih =>
    intro t hb
    obtain ⟨j, h1, h2, h3⟩ := hb
    exact ⟨j, h1, by omega, ih j h3⟩
  | «until» f g ihf ihg =>
    intro t hb
    obtain ⟨j, h1, h2, h3, h4⟩ := hb
    exact ⟨j, h1, by omega, ihg j h3, fun n hn1 hn2 => ihf n (h4 n hn1 hn2)⟩
  | releases f g ihf ihg =>
    intro t hb
    obtain ⟨j, h1, h2, h3, h4⟩ := hb
    exact ⟨j, h1, by omega, ihf j h3, fun n hn1 hn2 => ihg n (h4 n hn1 hn2)⟩

/-- C29: soundness of the encoding without loop on infinite paths. For a
formula in negation normal form, a time `0 <= t <= k` and an assignment that
gives every atom at every time `i` of `0..k` its value in the state
`path i` of an infinite path, if the encoding at `t` with bound `k` and
offset 0 evaluates to true, the formula holds at position `t` of the path
in the standard semantics of linear temporal logic. -/
theorem sem_no_loop_sound (fsm : BeFsm) (σ : Assignment) (f : Nnf) (k t : Int)
    (path : Nat → Nat → Bool) (h0 : 0 ≤ t) (h : t ≤ k)
    (hpath : ∀ p i, 0 ≤ i → i ≤ k → atom_value fsm σ p i = path i.toNat p)
    (henc : (NO_MEMOIZE_sem_no_loop_offset fsm f.toNode t k 0).eval σ = true) :
    f.toLtl.holds path t.toNat := by
  have hb := (no_loop_bounded_iff fsm σ f k t 0 h).mp henc
  refine bounded_holds_sound (fun p i => atom_value fsm σ p (i + 0)) path k ?_ f t h0 h hb
  intro p i hi0 hik
  simp only [add_zero]
  exact hpath p i hi0 hik

/-- C30: the encoding without loop is monotone in the bound. For a formula
in negation normal form, a time `t <= k`, every offset and every assignment,
if the encoding with bound `k` evaluates to true, so does the encoding with
bound `k + 1`. -/
theorem sem_no_loop_monotone_in_bound (fsm : BeFsm) (σ : Assignment) (f : Nnf)
    (k t offset : Int) (h : t ≤ k)
    (henc : (NO_MEMOIZE_sem_no_loop_offset fsm f.toNode t k offset).eval σ = true) :
    (NO_MEMOIZE_sem_no_loop_offset fsm f.toNode t (k + 1) offset).eval σ = true :=
  (no_loop_bounded_iff fsm σ f (k + 1) t offset (by omega)).mpr
    (bounded_holds_mono _ k f t ((no_loop_bounded_iff fsm σ f k t offset h).mp henc))

theorem example_eventually_q_encoded (k : Int) (hk : 1 ≤ k) :
    (NO_MEMOIZE_sem_no_loop_offset example_fsm (Nnf.eventually (Nnf.atom 1)).toNode
      0 k 0).eval q_at_one = true := by
  simp only [Nnf.toNode]
  rw [no_loop_future_eval _ _ _ _ _ _ _ (by omega)]
  refine ⟨1, by decide, hk, ?_⟩
  rw [no_loop_atom _ _ _ _ _ hk]
  decide

theorem path_q_at_one_agrees (p : Nat) (i : Int) :
    atom_value example_fsm q_at_one p i = path_q_at_one i.toNat p := by
  have e : (i = 1) ↔ (i.toNat = 1) := by omega
  simp [atom_value, proposition_at_time, example_fsm, example_enc,
    BeEnc_untimed_expr_to_timed, Be.eval, q_at_one, path_q_at_one, e]

theorem sem_no_loop_sound_witness :
    (0 : Int) ≤ 0 ∧ (0 : Int) ≤ 2 ∧
      (∀ p i, 0 ≤ i → i ≤ 2 →
        atom_value example_fsm q_at_one p i = path_q_at_one i.toNat p) ∧
      (NO_MEMOIZE_sem_no_loop_offset example_fsm (Nnf.eventually (Nnf.atom 1)).toNode
        0 2 0).eval q_at_one = true ∧
      (Nnf.eventually (Nnf.atom 1)).toLtl.holds path_q_at_one (0 : Int).toNat :=
  ⟨by decide, by decide, fun p i _ _ => path_q_at_one_agrees p i,
    example_eventually_q_encoded 2 (by decide),
    sem_no_loop_sound example_fsm q_at_one (Nnf.eventually (Nnf.atom 1)) 2 0 path_q_at_one
      (by decide) (by decide) (fun p i _ _ => path_q_at_one_agrees p i)
      (example_eventually_q_encoded 2 (by decide))⟩

theorem sem_no_loop_monotone_in_bound_witness :
    (0 : Int) ≤ 2 ∧
      (NO_MEMOIZE_sem_no_loop_offset example_fsm (Nnf.eventually (Nnf.atom 1)).toNode
        0 2 0).eval q_at_one = true ∧
      (NO_MEMOIZE_sem_no_loop_offset example_fsm (Nnf.eventually (Nnf.atom 1)).toNode
        0 (2 + 1) 0).eval q_at_one = true :=
  ⟨by decide, example_eventually_q_encoded 2 (by decide),
    sem_no_loop_monotone_in_bound example_fsm q_at_one (Nnf.eventually (Nnf.atom 1)) 2 0 0
      (by decide) (example_eventually_q_encoded 2 (by decide))⟩

/-! ## Termination on the C type `int` -/

theorem int_wrap_id (x : Int) (h1 : INT_MIN ≤ x) (h2 : x ≤ INT_MAX) : int_wrap x = x := by
  unfold INT_MIN at h1
  unfold INT_MAX at h2
  unfold int_wrap
  omega

theorem int_wrap_range (x : Int) : INT_MIN ≤ int_wrap x ∧ int_wrap x ≤ INT_MAX := by
  unfold INT_MIN INT_MAX int_wrap
  omega

theorem node_size_pos (formula : node) : 1 ≤ formula.size := by
  cases formula <;> unfold node.size <;> omega

theorem sem_no_loop_offset_int_unfold (fsm : BeFsm) (fuel : Nat) (formula : node)
    (time bound offset : Int) (W : MemoState) :
    sem_no_loop_offset_int fsm fuel formula time bound offset W =
      match MEMOIZER_get (MEMOIZER_key formula time bound Bmc_Utils_GetNoLoopback offset) W with
      | (some result, W1) => some (result, W1)
      | (none, W1) =>
          match NO_MEMOIZE_sem_no_loop_offset_int fsm fuel formula time bound offset W1 with
          | none => none
          | some r =>
              some (r.1,
                MEMOIZER_put (MEMOIZER_key formula time bound Bmc_Utils_GetNoLoopback offset)
                  r.1 r.2) := by
  rw [sem_no_loop_offset_int]

theorem sem_with_loop_offset_int_unfold (fsm : BeFsm) (fuel : Nat) (formula : node)
    (time bound loop offset : Int) (W : MemoState) :
    sem_with_loop_offset_int fsm fuel formula time bound loop offset W =
      match MEMOIZER_get (MEMOIZER_key formula time bound loop offset) W with
      | (some result, W1) => some (result, W1)
      | (none, W1) =>
          match NO_MEMOIZE_sem_with_loop_offset_int fsm fuel formula time bound loop offset
              W1 with
          | none => none
          | some r =>
              some (r.1, MEMOIZER_put (MEMOIZER_key formula time bound loop offset) r.1 r.2) := by
  rw [sem_with_loop_offset_int]

theorem memo_call_int_some (key : node) (raw : MemoState → Option (Be × MemoState))
    (hraw : ∀ W1, (raw W1).isSome = true) (W : MemoState) :
    (match MEMOIZER_get key W with
      | (some result, W1) => some (result, W1)
      | (none, W1) =>
          match raw W1 with
          | none => none
          | some r => some (r.1, MEMOIZER_put key r.1 r.2)).isSome = true := by
  cases hG : MEMOIZER_get key W with
  | mk found W1 =>
    cases found with
    | some result => rfl
    | none =>
      obtain ⟨r, hr⟩ := Option.isSome_iff_exists.mp (hraw W1)
      simp [hr]

theorem no_loop_int_raw_terminates (fsm : BeFsm) (bound offset : Int)
    (hbound : bound < INT_MAX) :
    ∀ (fuel : Nat) (formula : node) (time : Int) (W : MemoState),
      INT_MIN ≤ time → formula.size + (bound + 1 - time).toNat + 1 ≤ fuel →
        (NO_MEMOIZE_sem_no_loop_offset_int fsm fuel formula time bound offset W).isSome
          = true := by
  intro fuel
  induction fuel with
  | zero =>
    intro formula time W _ hf
    omega
  | succ fuel ih =>
    intro formula time W ht hf
    have hw : ∀ (f : node) (t : Int) (W1 : MemoState), INT_MIN ≤ t →
        f.size + (bound + 1 - t).toNat + 1 ≤ fuel →
          (sem_no_loop_offset_int fsm fuel f t bound offset W1).isSome = true := by
      intro f t W1 h1 h2
      rw [sem_no_loop_offset_int_unfold]
      exact memo_call_int_some _ _ (fun W2 => ih f t W2 h1 h2) W1
    by_cases h : time > bound
    · unfold NO_MEMOIZE_sem_no_loop_offset_int
      simp [h]
    · have hwrap : int_wrap (time + 1) = time + 1 :=
        int_wrap_id _ (by omega) (by omega)
      cases formula with
      | Nil =>
        unfold NO_MEMOIZE_sem_no_loop_offset_int
        simp [h]
      | atom p =>
        unfold NO_MEMOIZE_sem_no_loop_offset_int
        simp [h]
      | ptr_from_int i =>
        unfold NO_MEMOIZE_sem_no_loop_offset_int
        simp [h]
      | mk type l r =>
        have hl := node_size_pos l
        have hr := node_size_pos r
        simp only [node.size] at hf
        cases type with
        | AND =>
          obtain ⟨a, ha⟩ := Option.isSome_iff_exists.mp (hw l time W ht (by omega))
          obtain ⟨b, hb⟩ := Option.isSome_iff_exists.mp (hw r time a.2 ht (by omega))
          unfold NO_MEMOIZE_sem_no_loop_offset_int
          simp [h, ha, hb]
        | OR =>
          obtain ⟨a, ha⟩ := Option.isSome_iff_exists.mp (hw l time W ht (by omega))
          obtain ⟨b, hb⟩ := Option.isSome_iff_exists.mp (hw r time a.2 ht (by omega))
          unfold NO_MEMOIZE_sem_no_loop_offset_int
          simp [h, ha, hb]
        | XOR =>
          obtain ⟨a, ha⟩ := Option.isSome_iff_exists.mp (hw l time W ht (by omega))
          obtain ⟨b, hb⟩ := Option.isSome_iff_exists.mp (hw r time a.2 ht (by omega))
          unfold NO_MEMOIZE_sem_no_loop_offset_int
          simp [h, ha, hb]
        | NOT =>
          obtain ⟨a, ha⟩ := Option.isSome_iff_exists.mp (hw l time W ht (by omega))
          unfold NO_MEMOIZE_sem_no_loop_offset_int
          simp [h, ha]
        | IMPLIES =>
          obtain ⟨a, ha⟩ := Option.isSome_iff_exists.mp (hw l time W ht (by omega))
          obtain ⟨b, hb⟩ := Option.isSome_iff_exists.mp (hw r time a.2 ht (by omega))
          unfold NO_MEMOIZE_sem_no_loop_offset_int
          simp [h, ha, hb]
        | IFF =>
          obtain ⟨a, ha⟩ := Option.isSome_iff_exists.mp (hw l time W ht (by omega))
          obtain ⟨b, hb⟩ := Option.isSome_iff_exists.mp (hw r time a.2 ht (by omega))
          unfold NO_MEMOIZE_sem_no_loop_offset_int
          simp [h, ha, hb]
        | OP_NEXT =>
          obtain ⟨a, ha⟩ := Option.isSome_iff_exists.mp
            (hw l (time + 1) W (by omega) (by omega))
          unfold NO_MEMOIZE_sem_no_loop_offset_int
          simp [h, hwrap, ha]
        | OP_GLOBAL =>
          unfold NO_MEMOIZE_sem_no_loop_offset_int
          simp [h]
        | OP_FUTURE =>
          obtain ⟨a, ha⟩ := Option.isSome_iff_exists.mp (hw l time W ht (by omega))
          obtain ⟨c, hc⟩ := Option.isSome_iff_exists.mp
            (hw (node.mk NodeType.OP_FUTURE l r) (time + 1) a.2 (by omega)
              (by simp only [node.size]; omega))
          unfold NO_MEMOIZE_sem_no_loop_offset_int
          simp [h, hwrap, ha, hc]
        | UNTIL =>
          obtain ⟨a, ha⟩ := Option.isSome_iff_exists.mp (hw r time W ht (by omega))
          obtain ⟨b, hb⟩ := Option.isSome_iff_exists.mp (hw l time a.2 ht (by omega))
          obtain ⟨c, hc⟩ := Option.isSome_iff_exists.mp
            (hw (node.mk NodeType.UNTIL l r) (time + 1) b.2 (by omega)
              (by simp only [node.size]; omega))
          unfold NO_MEMOIZE_sem_no_loop_offset_int
          simp [h, hwrap, ha, hb, hc]
        | RELEASES =>
          obtain ⟨a, ha⟩ := Option.isSome_iff_exists.mp (hw r time W ht (by omega))
          obtain ⟨b, hb⟩ := Option.isSome_iff_exists.mp (hw l time a.2 ht (by omega))
          obtain ⟨c, hc⟩ := Option.isSome_iff_exists.mp
            (hw (node.mk NodeType.RELEASES l r) (time + 1) b.2 (by omega)
              (by simp only [node.size]; omega))
          unfold NO_MEMOIZE_sem_no_loop_offset_int
          simp [h, hwrap, ha, hb, hc]
        | ATOM =>
          unfold NO_MEMOIZE_sem_no_loop_offset_int
          simp [h]
        | CONS =>
          unfold NO_MEMOIZE_sem_no_loop_offset_int
          simp [h]
        | other code =>
          unfold NO_MEMOIZE_sem_no_loop_offset_int
          simp [h]

theorem no_loop_int_terminates (fsm : BeFsm) (fuel : Nat) (formula : node)
    (time bound offset : Int) (W : MemoState) (ht : INT_MIN ≤ time)
    (hbound : bound < INT_MAX)
    (hf : formula.size + (bound + 1 - time).toNat + 1 ≤ fuel) :
    (sem_no_loop_offset_int fsm fuel formula time bound offset W).isSome = true := by
  rw [sem_no_loop_offset_int_unfold]
  exact memo_call_int_some _ _
    (fun W1 => no_loop_int_raw_terminates fsm bound offset hbound fuel formula time W1 ht hf) W

theorem for_up_terminates (body : Int → Be × MemoState → Option (Be × MemoState))
    (bound lo : Int) (hbound : bound ≤ INT_MAX) (hlo : INT_MIN ≤ lo)
    (hbody : ∀ (i : Int) (acc : Be × MemoState), lo ≤ i → (body i acc).isSome = true) :
    ∀ (fuel : Nat) (i : Int) (acc : Be × MemoState), lo ≤ i →
      (bound - i).toNat + 1 ≤ fuel → (for_up body fuel i bound acc).isSome = true := by
  intro fuel
  induction fuel with
  | zero =>
    intro i acc _ hf
    omega
  | succ fuel ih =>
    intro i acc hi hf
    unfold for_up
    by_cases h : i < bound
    · obtain ⟨a, ha⟩ := Option.isSome_iff_exists.mp (hbody i acc hi)
      have hwrap : int_wrap (i + 1) = i + 1 := int_wrap_id _ (by omega) (by omega)
      simp only [h, if_true, ha, hwrap]
      exact ih (i + 1) a (by omega) (by omega)
    · simp [h]

theorem for_down_terminates (body : Int → Be × MemoState → Option (Be × MemoState))
    (lo : Int) (hlo : INT_MIN < lo)
    (hbody : ∀ (i : Int) (acc : Be × MemoState), lo ≤ i → (body i acc).isSome = true) :
    ∀ (fuel : Nat) (i : Int) (acc : Be × MemoState), i ≤ INT_MAX →
      (i + 1 - lo).toNat + 1 ≤ fuel → (for_down body fuel i lo acc).isSome = true := by
  intro fuel
  induction fuel with
  | zero =>
    intro i acc _ hf
    omega
  | succ fuel ih =>
    intro i acc hi hf
    unfold for_down
    by_cases h : i ≥ lo
    · obtain ⟨a, ha⟩ := Option.isSome_iff_exists.mp (hbody i acc h)
      have hwrap : int_wrap (i - 1) = i - 1 := int_wrap_id _ (by omega) (by omega)
      simp only [h, if_true, ha, hwrap]
      exact ih (i - 1) a (by omega) (by omega)
    · simp [h]

theorem with_loop_int_raw_terminates (fsm : BeFsm) (bound loop offset lo : Int)
    (hbound : bound ≤ INT_MAX) (hlo : INT_MIN < lo) (hloop : lo ≤ loop)
    (hlast : lo ≤ bound - 1) :
    ∀ (fuel : Nat) (formula : node) (time : Int) (W : MemoState),
      lo ≤ time → formula.size + (bound - lo).toNat + 1 ≤ fuel →
        (NO_MEMOIZE_sem_with_loop_offset_int fsm fuel formula time bound loop offset W).isSome
          = true := by
  intro fuel
  induction fuel with
  | zero =>
    intro formula time W _ hf
    omega
  | succ fuel ih =>
    intro formula time W ht hf
    have hw : ∀ (f : node) (t : Int) (W1 : MemoState), lo ≤ t →
        f.size + (bound - lo).toNat + 1 ≤ fuel →
          (sem_with_loop_offset_int fsm fuel f t bound loop offset W1).isSome = true := by
      intro f t W1 h1 h2
      rw [sem_with_loop_offset_int_unfold]
      exact memo_call_int_some _ _ (fun W2 => ih f t W2 h1 h2) W1
    by_cases hb0 : bound = 0
    · unfold NO_MEMOIZE_sem_with_loop_offset_int
      simp [hb0]
    by_cases h : time > bound
    · unfold NO_MEMOIZE_sem_with_loop_offset_int
      simp [hb0, h]
    · have hw1 : int_wrap (bound - 1) = bound - 1 := int_wrap_id _ (by omega) (by omega)
      have hw2 : int_wrap (bound - 2) = bound - 2 := int_wrap_id _ (by omega) (by omega)
      have hmin : lo ≤ min time loop := le_min ht hloop
      cases formula with
      | Nil =>
        unfold NO_MEMOIZE_sem_with_loop_offset_int
        simp [hb0, h]
      | atom p =>
        unfold NO_MEMOIZE_sem_with_loop_offset_int
        simp [hb0, h]
      | ptr_from_int i =>
        unfold NO_MEMOIZE_sem_with_loop_offset_int
        simp [hb0, h]
      | mk type l r =>
        have hl := node_size_pos l
        have hr := node_size_pos r
        simp only [node.size] at hf
        cases type with
        | AND =>
          obtain ⟨a, ha⟩ := Option.isSome_iff_exists.mp (hw l time W ht (by omega))
          obtain ⟨b, hb⟩ := Option.isSome_iff_exists.mp (hw r time a.2 ht (by omega))
          unfold NO_MEMOIZE_sem_with_loop_offset_int
          simp [hb0, h, ha, hb]
        | OR =>
          obtain ⟨a, ha⟩ := Option.isSome_iff_exists.mp (hw l time W ht (by omega))
          obtain ⟨b, hb⟩ := Option.isSome_iff_exists.mp (hw r time a.2 ht (by omega))
          unfold NO_MEMOIZE_sem_with_loop_offset_int
          simp [hb0, h, ha, hb]
        | XOR =>
          obtain ⟨a, ha⟩ := Option.isSome_iff_exists.mp (hw l time W ht (by omega))
          obtain ⟨b, hb⟩ := Option.isSome_iff_exists.mp (hw r time a.2 ht (by omega))
          unfold NO_MEMOIZE_sem_with_loop_offset_int
          simp [hb0, h, ha, hb]
        | NOT =>
          obtain ⟨a, ha⟩ := Option.isSome_iff_exists.mp (hw l time W ht (by omega))
          unfold NO_MEMOIZE_sem_with_loop_offset_int
          simp [hb0, h, ha]
        | IMPLIES =>
          obtain ⟨a, ha⟩ := Option.isSome_iff_exists.mp (hw l time W ht (by omega))
          obtain ⟨b, hb⟩ := Option.isSome_iff_exists.mp (hw r time a.2 ht (by omega))
          unfold NO_MEMOIZE_sem_with_loop_offset_int
          simp [hb0, h, ha, hb]
        | IFF =>
          obtain ⟨a, ha⟩ := Option.isSome_iff_exists.mp (hw l time W ht (by omega))
          obtain ⟨b, hb⟩ := Option.isSome_iff_exists.mp (hw r time a.2 ht (by omega))
          unfold NO_MEMOIZE_sem_with_loop_offset_int
          simp [hb0, h, ha, hb]
        | OP_NEXT =>
          have hs : lo ≤ succ_int bound loop time := by
            unfold succ_int
            rw [hw1]
            by_cases hlt : time < bound - 1
            · rw [if_pos hlt, int_wrap_id _ (by omega) (by omega)]
              omega
            · rw [if_neg hlt]
              exact hloop
          obtain ⟨a, ha⟩ := Option.isSome_iff_exists.mp
            (hw l (succ_int bound loop time) W hs (by omega))
          unfold NO_MEMOIZE_sem_with_loop_offset_int
          simp [hb0, h, ha]
        | OP_GLOBAL =>
          have hloop := for_up_terminates
            (fun i acc =>
              (sem_with_loop_offset_int fsm fuel l i bound loop offset acc.2).bind
                fun phi => some (Be.And acc.1 phi.1, phi.2))
            bound (min time loop) hbound (by omega) (by
            intro i acc hi
            obtain ⟨a, ha⟩ := Option.isSome_iff_exists.mp
              (hw l i acc.2 (by omega) (by omega))
            simp [ha]) fuel (min time loop) (Be.Truth, W) (le_refl _) (by omega)
          obtain ⟨a, ha⟩ := Option.isSome_iff_exists.mp hloop
          unfold NO_MEMOIZE_sem_with_loop_offset_int
          simp [hb0, h, ha]
        | OP_FUTURE =>
          have hloop := for_up_terminates
            (fun i acc =>
              (sem_with_loop_offset_int fsm fuel l i bound loop offset acc.2).bind
                fun phi => some (Be.Or acc.1 phi.1, phi.2))
            bound (min time loop) hbound (by omega) (by
            intro i acc hi
            obtain ⟨a, ha⟩ := Option.isSome_iff_exists.mp
              (hw l i acc.2 (by omega) (by omega))
            simp [ha]) fuel (min time loop) (Be.Falsity, W) (le_refl _) (by omega)
          obtain ⟨a, ha⟩ := Option.isSome_iff_exists.mp hloop
          unfold NO_MEMOIZE_sem_with_loop_offset_int
          simp [hb0, h, ha]
        | UNTIL =>
          have hloop2 := for_down_terminates
            (fun i acc =>
              (sem_with_loop_offset_int fsm fuel r i bound loop offset acc.2).bind
                fun psi =>
              (sem_with_loop_offset_int fsm fuel l i bound loop offset psi.2).bind
                fun phi => some (Be.Or psi.1 (Be.And phi.1 acc.1), phi.2))
            (min time loop) (by omega) (by
            intro i acc hi
            obtain ⟨a, ha⟩ := Option.isSome_iff_exists.mp
              (hw r i acc.2 (by omega) (by omega))
            obtain ⟨b, hb⟩ := Option.isSome_iff_exists.mp
              (hw l i a.2 (by omega) (by omega))
            simp [ha, hb]) fuel (bound - 1) (Be.Falsity, W) (by omega) (by omega)
          obtain ⟨a, ha⟩ := Option.isSome_iff_exists.mp hloop2
          unfold NO_MEMOIZE_sem_with_loop_offset_int
          simp [hb0, h, hw1, ha]
        | RELEASES =>
          obtain ⟨s, hs⟩ := Option.isSome_iff_exists.mp
            (hw r (bound - 1) W hlast (by omega))
          have hloop2 := for_down_terminates
            (fun i acc =>
              (sem_with_loop_offset_int fsm fuel r i bound loop offset acc.2).bind
                fun psi =>
              (sem_with_loop_offset_int fsm fuel l i bound loop offset psi.2).bind
                fun phi => some (Be.And psi.1 (Be.Or phi.1 acc.1), phi.2))
            (min time loop) (by omega) (by
            intro i acc hi
            obtain ⟨a, ha⟩ := Option.isSome_iff_exists.mp
              (hw r i acc.2 (by omega) (by omega))
            obtain ⟨b, hb⟩ := Option.isSome_iff_exists.mp
              (hw l i a.2 (by omega) (by omega))
            simp [ha, hb]) fuel (bound - 2) s (by omega) (by omega)
          obtain ⟨a, ha⟩ := Option.isSome_iff_exists.mp hloop2
          unfold NO_MEMOIZE_sem_with_loop_offset_int
          simp [hb0, h, hw1, hw2, hs, ha]
        | ATOM =>
          unfold NO_MEMOIZE_sem_with_loop_offset_int
          simp [hb0, h]
        | CONS =>
          unfold NO_MEMOIZE_sem_with_loop_offset_int
          simp [hb0, h]
        | other code =>
          unfold NO_MEMOIZE_sem_with_loop_offset_int
          simp [hb0, h]

theorem with_loop_int_terminates (fsm : BeFsm) (fuel : Nat) (formula : node)
    (time bound loop offset : Int) (W : MemoState) (ht : INT_MIN < time)
    (hloop : INT_MIN < loop) (hb1 : INT_MIN + 1 < bound) (hb2 : bound ≤ INT_MAX)
    (hf : formula.size + (bound - min (min time loop) (bound - 1)).toNat + 1 ≤ fuel) :
    (sem_with_loop_offset_int fsm fuel formula time bound loop offset W).isSome = true := by
  rw [sem_with_loop_offset_int_unfold]
  exact memo_call_int_some _ _
    (fun W1 => with_loop_int_raw_terminates fsm bound loop offset
      (min (min time loop) (bound - 1)) hb2 (by omega) (by omega) (by omega)
      fuel formula time W1 (by omega) hf) W

/-! ## Runs on the C type `int` that do not terminate -/

theorem memo_call_int_none (key : node) (raw : MemoState → Option (Be × MemoState))
    (W : MemoState) (hmiss : W.entry key = none)
    (hraw : ∀ W1, (∀ k, W1.entry k = W.entry k) → raw W1 = none) :
    (match MEMOIZER_get key W with
      | (some result, W1) => some (result, W1)
      | (none, W1) =>
          match raw W1 with
          | none => none
          | some r => some (r.1, MEMOIZER_put key r.1 r.2)) = none := by
  cases hG : MEMOIZER_get key W with
  | mk found W1 =>
    have h1 : found = none := by
      have := (entry_get key key W).1
      rw [hG, hmiss] at this
      exact this
    have h2 : ∀ k, W1.entry k = W.entry k := by
      intro k
      have := (entry_get key k W).2.1
      rw [hG] at this
      exact this
    subst h1
    simp only [hraw W1 h2]

theorem atom_call_int_entries (fsm : BeFsm) (fuel : Nat) (p : Nat)
    (time bound offset : Int) (W : MemoState) (r : Be × MemoState)
    (h : sem_no_loop_offset_int fsm fuel (node.atom p) time bound offset W = some r)
    (k : node)
    (hk : k ≠ MEMOIZER_key (node.atom p) time bound Bmc_Utils_GetNoLoopback offset) :
    r.2.entry k = W.entry k := by
  rw [sem_no_loop_offset_int_unfold] at h
  cases hG : MEMOIZER_get
      (MEMOIZER_key (node.atom p) time bound Bmc_Utils_GetNoLoopback offset) W with
  | mk found W1 =>
    have h2 : W1.entry k = W.entry k := by
      have := (entry_get
        (MEMOIZER_key (node.atom p) time bound Bmc_Utils_GetNoLoopback offset) k W).2.1
      rw [hG] at this
      exact this
    rw [hG] at h
    cases found with
    | some result =>
      simp only [Option.some.injEq] at h
      rw [← h]
      exact h2
    | none =>
      simp only at h
      cases hraw : NO_MEMOIZE_sem_no_loop_offset_int fsm fuel (node.atom p) time bound
          offset W1 with
      | none =>
        rw [hraw] at h
        exact absurd h (by simp)
      | some r1 =>
        rw [hraw] at h
        simp only [Option.some.injEq] at h
        have h3 : r1.2.entry k = W1.entry k := by
          cases fuel with
          | zero =>
            unfold NO_MEMOIZE_sem_no_loop_offset_int at hraw
            exact absurd hraw (by simp)
          | succ n =>
            unfold NO_MEMOIZE_sem_no_loop_offset_int at hraw
            by_cases hg : time > bound
            · simp [hg] at hraw
              rw [← hraw]
              rfl
            · simp [hg] at hraw
              rw [← hraw]
              rfl
        rw [← h]
        show (MEMOIZER_put _ _ _).entry k = _
        rw [(entry_put _ k _ _).1, if_neg hk, h3, h2]

theorem no_loop_int_future_diverges (fsm : BeFsm) (p : Nat) (r : node) (offset : Int) :
    ∀ (fuel : Nat) (time : Int) (W : MemoState), INT_MIN ≤ time → time ≤ INT_MAX →
      (∀ t, W.entry (MEMOIZER_key (node.mk NodeType.OP_FUTURE (node.atom p) r) t INT_MAX
        Bmc_Utils_GetNoLoopback offset) = none) →
      sem_no_loop_offset_int fsm fuel (node.mk NodeType.OP_FUTURE (node.atom p) r) time
        INT_MAX offset W = none := by
  intro fuel
  induction fuel with
  | zero =>
    intro time W _ _ hinv
    rw [sem_no_loop_offset_int_unfold]
    refine memo_call_int_none _ _ W (hinv time) (fun W1 _ => ?_)
    unfold NO_MEMOIZE_sem_no_loop_offset_int
    rfl
  | succ n ih =>
    intro time W h1 h2 hinv
    rw [sem_no_loop_offset_int_unfold]
    refine memo_call_int_none _ _ W (hinv time) (fun W1 hW1 => ?_)
    have hg : ¬ time > INT_MAX := by omega
    unfold NO_MEMOIZE_sem_no_loop_offset_int
    cases hnow : sem_no_loop_offset_int fsm n (node.atom p) time INT_MAX offset W1 with
    | none => simp [hg, hnow]
    | some now =>
      have hinv2 : ∀ t, now.2.entry (MEMOIZER_key (node.mk NodeType.OP_FUTURE (node.atom p) r)
          t INT_MAX Bmc_Utils_GetNoLoopback offset) = none := by
        intro t
        rw [atom_call_int_entries fsm n p time INT_MAX offset W1 now hnow _
          (by rw [Ne, MEMOIZER_key_inj]; simp), hW1]
        exact hinv t
      have hthen := ih (int_wrap (time + 1)) now.2 (int_wrap_range _).1 (int_wrap_range _).2
        hinv2
      simp [hg, hnow, hthen]

theorem for_down_diverges (body : Int → Be × MemoState → Option (Be × MemoState)) :
    ∀ (fuel : Nat) (i : Int) (acc : Be × MemoState), INT_MIN ≤ i →
      for_down body fuel i INT_MIN acc = none := by
  intro fuel
  induction fuel with
  | zero =>
    intro i acc _
    rfl
  | succ n ih =>
    intro i acc hi
    unfold for_down
    cases hb : body i acc with
    | none => simp [hi]
    | some acc1 =>
      simp only [ge_iff_le, hi, if_true]
      exact ih (int_wrap (i - 1)) acc1 (int_wrap_range _).1

theorem with_loop_int_until_diverges (fsm : BeFsm) (l r : node) (bound loop offset : Int)
    (hb0 : bound ≠ 0) (hb : INT_MIN ≤ bound) (hloop : INT_MIN ≤ loop) (fuel : Nat)
    (W : MemoState)
    (hmiss : W.entry (MEMOIZER_key (node.mk NodeType.UNTIL l r) INT_MIN bound loop offset)
      = none) :
    sem_with_loop_offset_int fsm fuel (node.mk NodeType.UNTIL l r) INT_MIN bound loop offset W
      = none := by
  rw [sem_with_loop_offset_int_unfold]
  refine memo_call_int_none _ _ W hmiss (fun W1 _ => ?_)
  cases fuel with
  | zero =>
    unfold NO_MEMOIZE_sem_with_loop_offset_int
    rfl
  | succ n =>
    have hg : ¬ INT_MIN > bound := by omega
    have hmin : min INT_MIN loop = INT_MIN := min_eq_left hloop
    unfold NO_MEMOIZE_sem_with_loop_offset_int
    simp only [hb0, hg, if_false, hmin]
    rw [for_down_diverges _ n _ _ (int_wrap_range _).1]
    rfl

/-- C27 (counterexample): on the C type `int` neither encoder terminates on
every input. Without loop, `F p` at time 0 with the bound `INT_MAX` never
meets `time > bound`: whatever the fuel, the run from the empty cache does
not return. With loop, `p U q` at time `INT_MIN` with bound 1 and loop 0
runs the loop `for (i = bound - 1; i >= min(time, loop); i--)` with the test
`i >= INT_MIN`, which never fails. -/
theorem encoders_diverge_at_int_limits :
    (∀ fuel : Nat,
      sem_no_loop_offset_int example_fsm fuel
        (node.mk NodeType.OP_FUTURE (node.atom 1) node.Nil) 0 INT_MAX 0 initial_state = none) ∧
    (∀ fuel : Nat,
      sem_with_loop_offset_int example_fsm fuel
        (node.mk NodeType.UNTIL (node.atom 0) (node.atom 1)) INT_MIN 1 0 0 initial_state
        = none) :=
  ⟨fun fuel => no_loop_int_future_diverges example_fsm 1 node.Nil 0 fuel 0 initial_state
      (by decide) (by decide) (fun _ => rfl),
    fun fuel => with_loop_int_until_diverges example_fsm (node.atom 0) (node.atom 1) 1 0 0
      (by decide) (by decide) (by decide) fuel initial_state rfl⟩

/-- C27 (amended): on the C type `int` both encoders terminate when no operation on
the times overflows. Without loop, for a time that is an `int` and a bound
below `INT_MAX`, the memoized encoder and its raw body return from every
cache with any fuel of at least
`size of the formula + (bound + 1 - time) + 1`: every recursive call is on a
formula with fewer nodes or on the same formula at `time + 1` with
`time <= bound`. With loop, for a time and a loop above `INT_MIN` and a
bound from `INT_MIN + 2` to `INT_MAX`, they return with any fuel of at
least `size of the formula + (bound - lo) + 1`, where `lo` is the least of
time, loop and `bound - 1`: every recursive call is on a formula with fewer
nodes and every loop runs over a finite range. -/
theorem encoders_terminate (fsm : BeFsm) (fuel : Nat) (formula : node)
    (time bound loop offset : Int) (W : MemoState) :
    (INT_MIN ≤ time → bound < INT_MAX →
      formula.size + (bound + 1 - time).toNat + 1 ≤ fuel →
        (∃ r, sem_no_loop_offset_int fsm fuel formula time bound offset W = some r) ∧
        (∃ r, NO_MEMOIZE_sem_no_loop_offset_int fsm fuel formula time bound offset W
          = some r)) ∧
    (INT_MIN < time → INT_MIN < loop → INT_MIN + 1 < bound → bound ≤ INT_MAX →
      formula.size + (bound - min (min time loop) (bound - 1)).toNat + 1 ≤ fuel →
        (∃ r, sem_with_loop_offset_int fsm fuel formula time bound loop offset W = some r) ∧
        (∃ r, NO_MEMOIZE_sem_with_loop_offset_int fsm fuel formula time bound loop offset W
          = some r)) := by
  refine ⟨fun ht hb hf => ⟨?_, ?_⟩, fun ht hl hb1 hb2 hf => ⟨?_, ?_⟩⟩
  · exact Option.isSome_iff_exists.mp
      (no_loop_int_terminates fsm fuel formula time bound offset W ht hb hf)
  · exact Option.isSome_iff_exists.mp
      (no_loop_int_raw_terminates fsm bound offset hb fuel formula time W ht hf)
  · exact Option.isSome_iff_exists.mp
      (with_loop_int_terminates fsm fuel formula time bound loop offset W ht hl hb1 hb2 hf)
  · exact Option.isSome_iff_exists.mp
      (with_loop_int_raw_terminates fsm bound loop offset (min (min time loop) (bound - 1))
        hb2 (by omega) (by omega) (by omega) fuel formula time W (by omega) hf)

theorem encoders_terminate_witness :
    (INT_MIN < 0 ∧ INT_MIN < 1 ∧ INT_MIN + 1 < 3 ∧ (3 : Int) < INT_MAX ∧
      (node.mk NodeType.UNTIL (node.atom 0) (node.atom 1)).size + 5 ≤ 8) ∧
    (∃ r, sem_no_loop_offset_int example_fsm 8
      (node.mk NodeType.UNTIL (node.atom 0) (node.atom 1)) 0 3 0 initial_state = some r) ∧
    (∃ r, sem_with_loop_offset_int example_fsm 8
      (node.mk NodeType.UNTIL (node.atom 0) (node.atom 1)) 0 3 1 0 initial_state = some r) :=
  ⟨by decide,
    ((encoders_terminate example_fsm 8 (node.mk NodeType.UNTIL (node.atom 0) (node.atom 1))
      0 3 1 0 initial_state).1 (by decide) (by decide) (by decide)).1,
    ((encoders_terminate example_fsm 8 (node.mk NodeType.UNTIL (node.atom 0) (node.atom 1))
      0 3 1 0 initial_state).2 (by decide) (by decide) (by decide) (by decide)
      (by decide)).1⟩

/-! ## Entries of the cache are kept by the encoders -/

theorem extends_refl (W : MemoState) : cache_extends W W :=
  fun _ _ h => h

theorem extends_trans (W1 W2 W3 : MemoState) (h12 : cache_extends W1 W2)
    (h23 : cache_extends W2 W3) : cache_extends W1 W3 :=
  fun key e h => h23 key e (h12 key e h)

theorem extends_ran (W W2 : MemoState) (key : node) (h : cache_extends W W2) :
    cache_extends W (W2.ran key) :=
  fun k e hk => h k e hk

theorem memo_keeps (key : node) (raw : MemoState → Be × MemoState)
    (hraw : ∀ W1, cache_extends W1 (raw W1).2) (W : MemoState) :
    cache_extends W
      (match MEMOIZER_get key W with
        | (some result, W1) => (result, W1)
        | (none, W1) => ((raw W1).1, MEMOIZER_put key (raw W1).1 (raw W1).2)).2 := by
  have hg := entry_get key
  cases hG : MEMOIZER_get key W with
  | mk found W1 =>
    have h1 : found = W.entry key := by
      have := (hg key W).1
      rw [hG] at this
      exact this
    have h2 : ∀ k, W1.entry k = W.entry k := by
      intro k
      have := (hg k W).2.1
      rw [hG] at this
      exact this
    cases found with
    | some result =>
      intro k e hk
      show W1.entry k = some e
      rw [h2]
      exact hk
    | none =>
      intro k e hk
      show (MEMOIZER_put key (raw W1).1 (raw W1).2).entry k = some e
      rw [(entry_put key k _ _).1]
      by_cases hkey : k = key
      · subst hkey
        rw [← h1] at hk
        exact absurd hk (by simp)
      · rw [if_neg hkey]
        exact hraw W1 k e (by rw [h2]; exact hk)

theorem memo_call_hit_entry (key : node) (raw : MemoState → Be × MemoState) (W : MemoState)
    (e : Be) (h : W.entry key = some e) :
    (match MEMOIZER_get key W with
      | (some result, W1) => (result, W1)
      | (none, W1) => ((raw W1).1, MEMOIZER_put key (raw W1).1 (raw W1).2)) = (e, W) := by
  unfold MemoState.entry at h
  cases hM : W.MEMOIZER with
  | none => simp [hM] at h
  | some tbl =>
    rw [hM] at h
    exact memo_call_hit key raw W tbl e hM h

theorem memo_call_entry (key : node) (raw : MemoState → Be × MemoState) (W : MemoState) :
    (match MEMOIZER_get key W with
      | (some result, W1) => (result, W1)
      | (none, W1) => ((raw W1).1, MEMOIZER_put key (raw W1).1 (raw W1).2)).2.entry key
      = some (match MEMOIZER_get key W with
        | (some result, W1) => (result, W1)
        | (none, W1) => ((raw W1).1, MEMOIZER_put key (raw W1).1 (raw W1).2)).1 := by
  obtain ⟨tbl, hM, hF⟩ := memo_call_stores key raw W
  unfold MemoState.entry
  rw [hM]
  exact hF

theorem no_loop_wrapper_keeps_of_raw (fsm : BeFsm) (formula : node)
    (time bound offset : Int)
    (hraw : ∀ W1, cache_extends W1
      (NO_MEMOIZE_sem_no_loop_offset_st fsm formula time bound offset W1).2)
    (W : MemoState) :
    cache_extends W (sem_no_loop_offset fsm formula time bound offset W).2 := by
  rw [sem_no_loop_offset_unfold]
  exact memo_keeps _ (NO_MEMOIZE_sem_no_loop_offset_st fsm formula time bound offset) hraw W

theorem no_loop_raw_keeps_past (fsm : BeFsm) (formula : node) (time bound offset : Int)
    (W : MemoState) (h : time > bound) :
    cache_extends W (NO_MEMOIZE_sem_no_loop_offset_st fsm formula time bound offset W).2 := by
  have e : NO_MEMOIZE_sem_no_loop_offset_st fsm formula time bound offset W
      = (Be.Falsity, W.ran (MEMOIZER_key formula time bound Bmc_Utils_GetNoLoopback offset)) := by
    unfold NO_MEMOIZE_sem_no_loop_offset_st
    simp [h]
  rw [e]
  exact extends_ran _ _ _ (extends_refl W)

theorem no_loop_raw_keeps (fsm : BeFsm) (formula : node) :
    ∀ (time bound offset : Int) (W : MemoState),
      cache_extends W
        (NO_MEMOIZE_sem_no_loop_offset_st fsm formula time bound offset W).2 := by
  induction formula with
  | Nil =>
    intro time bound offset W
    by_cases h : time > bound
    · exact no_loop_raw_keeps_past fsm _ time bound offset W h
    · have e1 : NO_MEMOIZE_sem_no_loop_offset_st fsm (node.Nil) time bound offset W
          = (proposition_at_time fsm.enc (node.Nil) (time + offset),
            W.ran (MEMOIZER_key (node.Nil) time bound Bmc_Utils_GetNoLoopback offset)) := by
        unfold NO_MEMOIZE_sem_no_loop_offset_st
        simp [h]
      rw [e1]
      exact extends_ran _ _ _ (extends_refl W)
  | atom p =>
    intro time bound offset W
    by_cases h : time > bound
    · exact no_loop_raw_keeps_past fsm _ time bound offset W h
    · have e1 : NO_MEMOIZE_sem_no_loop_offset_st fsm (node.atom p) time bound offset W
          = (proposition_at_time fsm.enc (node.atom p) (time + offset),
            W.ran (MEMOIZER_key (node.atom p) time bound Bmc_Utils_GetNoLoopback offset)) := by
        unfold NO_MEMOIZE_sem_no_loop_offset_st
        simp [h]
      rw [e1]
      exact extends_ran _ _ _ (extends_refl W)
  | ptr_from_int i =>
    intro time bound offset W
    by_cases h : time > bound
    · exact no_loop_raw_keeps_past fsm _ time bound offset W h
    · have e1 : NO_MEMOIZE_sem_no_loop_offset_st fsm (node.ptr_from_int i) time bound offset W
          = (proposition_at_time fsm.enc (node.ptr_from_int i) (time + offset),
            W.ran (MEMOIZER_key (node.ptr_from_int i) time bound Bmc_Utils_GetNoLoopback offset)) := by
        unfold NO_MEMOIZE_sem_no_loop_offset_st
        simp [h]
      rw [e1]
      exact extends_ran _ _ _ (extends_refl W)
  | mk type l r ihl ihr =>
    have hl : ∀ (time bound offset : Int) (W : MemoState),
        cache_extends W (sem_no_loop_offset fsm l time bound offset W).2 :=
      fun time bound offset W => no_loop_wrapper_keeps_of_raw fsm l time bound offset
        (fun W1 => ihl time bound offset W1) W
    have hr : ∀ (time bound offset : Int) (W : MemoState),
        cache_extends W (sem_no_loop_offset fsm r time bound offset W).2 :=
      fun time bound offset W => no_loop_wrapper_keeps_of_raw fsm r time bound offset
        (fun W1 => ihr time bound offset W1) W
    cases type with
    | AND =>
      intro time bound offset W
      by_cases h : time > bound
      · exact no_loop_raw_keeps_past fsm _ time bound offset W h
      · rw [NO_MEMOIZE_sem_no_loop_offset_st, if_neg h]
        exact extends_ran _ _ _
          (extends_trans _ _ _ (hl time bound offset W) (hr time bound offset _))
    | OR =>
      intro time bound offset W
      by_cases h : time > bound
      · exact no_loop_raw_keeps_past fsm _ time bound offset W h
      · rw [NO_MEMOIZE_sem_no_loop_offset_st, if_neg h]
        exact extends_ran _ _ _
          (extends_trans _ _ _ (hl time bound offset W) (hr time bound offset _))
    | XOR =>
      intro time bound offset W
      by_cases h : time > bound
      · exact no_loop_raw_keeps_past fsm _ time bound offset W h
      · rw [NO_MEMOIZE_sem_no_loop_offset_st, if_neg h]
        exact extends_ran _ _ _
          (extends_trans _ _ _ (hl time bound offset W) (hr time bound offset _))
    | NOT =>
      intro time bound offset W
      by_cases h : time > bound
      · exact no_loop_raw_keeps_past fsm _ time bound offset W h
      · rw [NO_MEMOIZE_sem_no_loop_offset_st, if_neg h]
        exact extends_ran _ _ _
          (hl time bound offset W)
    | IMPLIES =>
      intro time bound offset W
      by_cases h : time > bound
      · exact no_loop_raw_keeps_past fsm _ time bound offset W h
      · rw [NO_MEMOIZE_sem_no_loop_offset_st, if_neg h]
        exact extends_ran _ _ _
          (extends_trans _ _ _ (hl time bound offset W) (hr time bound offset _))
    | IFF =>
      intro time bound offset W
      by_cases h : time > bound
      · exact no_loop_raw_keeps_past fsm _ time bound offset W h
      · rw [NO_MEMOIZE_sem_no_loop_offset_st, if_neg h]
        exact extends_ran _ _ _
          (extends_trans _ _ _ (hl time bound offset W) (hr time bound offset _))
    | OP_NEXT =>
      intro time bound offset W
      by_cases h : time > bound
      · exact no_loop_raw_keeps_past fsm _ time bound offset W h
      · rw [NO_MEMOIZE_sem_no_loop_offset_st, if_neg h]
        exact extends_ran _ _ _
          (hl (time + 1) bound offset W)
    | OP_GLOBAL =>
      intro time bound offset W
      by_cases h : time > bound
      · exact no_loop_raw_keeps_past fsm _ time bound offset W h
      · rw [NO_MEMOIZE_sem_no_loop_offset_st, if_neg h]
        exact extends_ran _ _ _
          (extends_refl W)
    | OP_FUTURE =>
      intro time bound offset
      have hn : ∀ (n : Nat) (time : Int) (W : MemoState), (bound + 1 - time).toNat = n →
          cache_extends W
            (NO_MEMOIZE_sem_no_loop_offset_st fsm (node.mk NodeType.OP_FUTURE l r)
              time bound offset W).2 := by
        intro n
        induction n with
        | zero =>
          intro time W hz
          exact no_loop_raw_keeps_past fsm _ time bound offset W (by omega)
        | succ n ih =>
          intro time W hs
          have h : ¬ time > bound := by omega
          have hF : ∀ W, cache_extends W
              (sem_no_loop_offset fsm (node.mk NodeType.OP_FUTURE l r) (time + 1) bound offset W).2 :=
            fun W => no_loop_wrapper_keeps_of_raw fsm _ (time + 1) bound offset
              (fun W1 => ih (time + 1) W1 (by omega)) W
          rw [NO_MEMOIZE_sem_no_loop_offset_st, if_neg h]
          exact extends_ran _ _ _
            (extends_trans _ _ _ (hl time bound offset W) (hF _))
      intro W
      exact hn _ time W rfl
    | UNTIL =>
      intro time bound offset
      have hn : ∀ (n : Nat) (time : Int) (W : MemoState), (bound + 1 - time).toNat = n →
          cache_extends W
            (NO_MEMOIZE_sem_no_loop_offset_st fsm (node.mk NodeType.UNTIL l r)
              time bound offset W).2 := by
        intro n
        induction n with
        | zero =>
          intro time W hz
          exact no_loop_raw_keeps_past fsm _ time bound offset W (by omega)
        | succ n ih =>
          intro time W hs
          have h : ¬ time > bound := by omega
          have hF : ∀ W, cache_extends W
              (sem_no_loop_offset fsm (node.mk NodeType.UNTIL l r) (time + 1) bound offset W).2 :=
            fun W => no_loop_wrapper_keeps_of_raw fsm _ (time + 1) bound offset
              (fun W1 => ih (time + 1) W1 (by omega)) W
          rw [NO_MEMOIZE_sem_no_loop_offset_st, if_neg h]
          exact extends_ran _ _ _
            (extends_trans _ _ _ (hr time bound offset W)
              (extends_trans _ _ _ (hl time bound offset _) (hF _)))
      intro W
      exact hn _ time W rfl
    | RELEASES =>
      intro time bound offset
      have hn : ∀ (n : Nat) (time : Int) (W : MemoState), (bound + 1 - time).toNat = n →
          cache_extends W
            (NO_MEMOIZE_sem_no_loop_offset_st fsm (node.mk NodeType.RELEASES l r)
              time bound offset W).2 := by
        intro n
        induction n with
        | zero =>
          intro time W hz
          exact no_loop_raw_keeps_past fsm _ time bound offset W (by omega)
        | succ n ih =>
          intro time W hs
          have h : ¬ time > bound := by omega
          have hF : ∀ W, cache_extends W
              (sem_no_loop_offset fsm (node.mk NodeType.RELEASES l r) (time + 1) bound offset W).2 :=
            fun W => no_loop_wrapper_keeps_of_raw fsm _ (time + 1) bound offset
              (fun W1 => ih (time + 1) W1 (by omega)) W
          rw [NO_MEMOIZE_sem_no_loop_offset_st, if_neg h]
          exact extends_ran _ _ _
            (extends_trans _ _ _ (hr time bound offset W)
              (extends_trans _ _ _ (hl time bound offset _) (hF _)))
      intro W
      exact hn _ time W rfl
    | ATOM =>
      intro time bound offset W
      by_cases h : time > bound
      · exact no_loop_raw_keeps_past fsm _ time bound offset W h
      · have e1 : NO_MEMOIZE_sem_no_loop_offset_st fsm (node.mk NodeType.ATOM l r) time bound offset W
            = (proposition_at_time fsm.enc (node.mk NodeType.ATOM l r) (time + offset),
              W.ran (MEMOIZER_key (node.mk NodeType.ATOM l r) time bound Bmc_Utils_GetNoLoopback offset)) := by
          unfold NO_MEMOIZE_sem_no_loop_offset_st
          simp [h]
        rw [e1]
        exact extends_ran _ _ _ (extends_refl W)
    | CONS =>
      intro time bound offset W
      by_cases h : time > bound
      · exact no_loop_raw_keeps_past fsm _ time bound offset W h
      · have e1 : NO_MEMOIZE_sem_no_loop_offset_st fsm (node.mk NodeType.CONS l r) time bound offset W
            = (proposition_at_time fsm.enc (node.mk NodeType.CONS l r) (time + offset),
              W.ran (MEMOIZER_key (node.mk NodeType.CONS l r) time bound Bmc_Utils_GetNoLoopback offset)) := by
          unfold NO_MEMOIZE_sem_no_loop_offset_st
          simp [h]
        rw [e1]
        exact extends_ran _ _ _ (extends_refl W)
    | other code =>
      intro time bound offset W
      by_cases h : time > bound
      · exact no_loop_raw_keeps_past fsm _ time bound offset W h
      · have e1 : NO_MEMOIZE_sem_no_loop_offset_st fsm (node.mk (NodeType.other code) l r) time bound offset W
            = (proposition_at_time fsm.enc (node.mk (NodeType.other code) l r) (time + offset),
              W.ran (MEMOIZER_key (node.mk (NodeType.other code) l r) time bound Bmc_Utils_GetNoLoopback offset)) := by
          unfold NO_MEMOIZE_sem_no_loop_offset_st
          simp [h]
        rw [e1]
        exact extends_ran _ _ _ (extends_refl W)

theorem no_loop_wrapper_keeps (fsm : BeFsm) (formula : node) (time bound offset : Int)
    (W : MemoState) :
    cache_extends W (sem_no_loop_offset fsm formula time bound offset W).2 :=
  no_loop_wrapper_keeps_of_raw fsm formula time bound offset
    (fun W1 => no_loop_raw_keeps fsm formula time bound offset W1) W

/-! ## Entries of the cache are kept by the encoder with loop -/

theorem keeps_foldl (L : List Int) (F : Be × MemoState → Int → Be × MemoState)
    (hstep : ∀ (i : Int) (acc : Be × MemoState), cache_extends acc.2 (F acc i).2) :
    ∀ acc : Be × MemoState, cache_extends acc.2 (L.foldl F acc).2 := by
  induction L with
  | nil =>
    intro acc
    exact extends_refl acc.2
  | cons i L ih =>
    intro acc
    rw [List.foldl_cons]
    exact extends_trans _ _ _ (hstep i acc) (ih (F acc i))

theorem with_loop_wrapper_keeps_of_raw (fsm : BeFsm) (formula : node)
    (time bound loop offset : Int)
    (hraw : ∀ W1, cache_extends W1
      (NO_MEMOIZE_sem_with_loop_offset_st fsm formula time bound loop offset W1).2)
    (W : MemoState) :
    cache_extends W (sem_with_loop_offset fsm formula time bound loop offset W).2 := by
  rw [sem_with_loop_offset_unfold]
  exact memo_keeps _ (NO_MEMOIZE_sem_with_loop_offset_st fsm formula time bound loop offset)
    hraw W

theorem with_loop_raw_keeps_base (fsm : BeFsm) (formula : node)
    (time bound loop offset : Int) (W : MemoState) (h : bound = 0 ∨ time > bound) :
    cache_extends W
      (NO_MEMOIZE_sem_with_loop_offset_st fsm formula time bound loop offset W).2 := by
  have e : NO_MEMOIZE_sem_with_loop_offset_st fsm formula time bound loop offset W
      = (Be.Falsity, W.ran (MEMOIZER_key formula time bound loop offset)) := by
    unfold NO_MEMOIZE_sem_with_loop_offset_st
    rcases h with h | h
    · simp [h]
    · simp [h]
  rw [e]
  exact extends_ran _ _ _ (extends_refl W)

theorem with_loop_raw_keeps (fsm : BeFsm) (loop : Int) (formula : node) :
    ∀ (time bound offset : Int) (W : MemoState),
      cache_extends W
        (NO_MEMOIZE_sem_with_loop_offset_st fsm formula time bound loop offset W).2 := by
  induction formula with
  | Nil =>
    intro time bound offset W
    by_cases hb : bound = 0
    · exact with_loop_raw_keeps_base fsm _ time bound loop offset W (Or.inl hb)
    by_cases h : time > bound
    · exact with_loop_raw_keeps_base fsm _ time bound loop offset W (Or.inr h)
    have e1 : NO_MEMOIZE_sem_with_loop_offset_st fsm (node.Nil) time bound loop offset W
        = (proposition_at_time fsm.enc (node.Nil) (time + offset),
          W.ran (MEMOIZER_key (node.Nil) time bound loop offset)) := by
      unfold NO_MEMOIZE_sem_with_loop_offset_st
      simp [hb, h]
    rw [e1]
    exact extends_ran _ _ _ (extends_refl W)
  | atom p =>
    intro time bound offset W
    by_cases hb : bound = 0
    · exact with_loop_raw_keeps_base fsm _ time bound loop offset W (Or.inl hb)
    by_cases h : time > bound
    · exact with_loop_raw_keeps_base fsm _ time bound loop offset W (Or.inr h)
    have e1 : NO_MEMOIZE_sem_with_loop_offset_st fsm (node.atom p) time bound loop offset W
        = (proposition_at_time fsm.enc (node.atom p) (time + offset),
          W.ran (MEMOIZER_key (node.atom p) time bound loop offset)) := by
      unfold NO_MEMOIZE_sem_with_loop_offset_st
      simp [hb, h]
    rw [e1]
    exact extends_ran _ _ _ (extends_refl W)
  | ptr_from_int i =>
    intro time bound offset W
    by_cases hb : bound = 0
    · exact with_loop_raw_keeps_base fsm _ time bound loop offset W (Or.inl hb)
    by_cases h : time > bound
    · exact with_loop_raw_keeps_base fsm _ time bound loop offset W (Or.inr h)
    have e1 : NO_MEMOIZE_sem_with_loop_offset_st fsm (node.ptr_from_int i) time bound loop offset W
        = (proposition_at_time fsm.enc (node.ptr_from_int i) (time + offset),
          W.ran (MEMOIZER_key (node.ptr_from_int i) time bound loop offset)) := by
      unfold NO_MEMOIZE_sem_with_loop_offset_st
      simp [hb, h]
    rw [e1]
    exact extends_ran _ _ _ (extends_refl W)
  | mk type l r ihl ihr =>
    have hl : ∀ (time bound offset : Int) (W : MemoState),
        cache_extends W (sem_with_loop_offset fsm l time bound loop offset W).2 :=
      fun time bound offset W => with_loop_wrapper_keeps_of_raw fsm l time bound loop offset
        (fun W1 => ihl time bound offset W1) W
    have hr : ∀ (time bound offset : Int) (W : MemoState),
        cache_extends W (sem_with_loop_offset fsm r time bound loop offset W).2 :=
      fun time bound offset W => with_loop_wrapper_keeps_of_raw fsm r time bound loop offset
        (fun W1 => ihr time bound offset W1) W
    cases type with
    | AND =>
      intro time bound offset W
      by_cases hb : bound = 0
      · exact with_loop_raw_keeps_base fsm _ time bound loop offset W (Or.inl hb)
      by_cases h : time > bound
      · exact with_loop_raw_keeps_base fsm _ time bound loop offset W (Or.inr h)
      rw [NO_MEMOIZE_sem_with_loop_offset_st, if_neg hb, if_neg h]
      exact extends_ran _ _ _
        (extends_trans _ _ _ (hl time bound offset W) (hr time bound offset _))
    | OR =>
      intro time bound offset W
      by_cases hb : bound = 0
      · exact with_loop_raw_keeps_base fsm _ time bound loop offset W (Or.inl hb)
      by_cases h : time > bound
      · exact with_loop_raw_keeps_base fsm _ time bound loop offset W (Or.inr h)
      rw [NO_MEMOIZE_sem_with_loop_offset_st, if_neg hb, if_neg h]
      exact extends_ran _ _ _
        (extends_trans _ _ _ (hl time bound offset W) (hr time bound offset _))
    | XOR =>
      intro time bound offset W
      by_cases hb : bound = 0
      · exact with_loop_raw_keeps_base fsm _ time bound loop offset W (Or.inl hb)
      by_cases h : time > bound
      · exact with_loop_raw_keeps_base fsm _ time bound loop offset W (Or.inr h)
      rw [NO_MEMOIZE_sem_with_loop_offset_st, if_neg hb, if_neg h]
      exact extends_ran _ _ _
        (extends_trans _ _ _ (hl time bound offset W) (hr time bound offset _))
    | NOT =>
      intro time bound offset W
      by_cases hb : bound = 0
      · exact with_loop_raw_keeps_base fsm _ time bound loop offset W (Or.inl hb)
      by_cases h : time > bound
      · exact with_loop_raw_keeps_base fsm _ time bound loop offset W (Or.inr h)
      rw [NO_MEMOIZE_sem_with_loop_offset_st, if_neg hb, if_neg h]
      exact extends_ran _ _ _
        (hl time bound offset W)
    | IMPLIES =>
      intro time bound offset W
      by_cases hb : bound = 0
      · exact with_loop_raw_keeps_base fsm _ time bound loop offset W (Or.inl hb)
      by_cases h : time > bound
      · exact with_loop_raw_keeps_base fsm _ time bound loop offset W (Or.inr h)
      rw [NO_MEMOIZE_sem_with_loop_offset_st, if_neg hb, if_neg h]
      exact extends_ran _ _ _
        (extends_trans _ _ _ (hl time bound offset W) (hr time bound offset _))
    | IFF =>
      intro time bound offset W
      by_cases hb : bound = 0
      · exact with_loop_raw_keeps_base fsm _ time bound loop offset W (Or.inl hb)
      by_cases h : time > bound
      · exact with_loop_raw_keeps_base fsm _ time bound loop offset W (Or.inr h)
      rw [NO_MEMOIZE_sem_with_loop_offset_st, if_neg hb, if_neg h]
      exact extends_ran _ _ _
        (extends_trans _ _ _ (hl time bound offset W) (hr time bound offset _))
    | OP_NEXT =>
      intro time bound offset W
      by_cases hb : bound = 0
      · exact with_loop_raw_keeps_base fsm _ time bound loop offset W (Or.inl hb)
      by_cases h : time > bound
      · exact with_loop_raw_keeps_base fsm _ time bound loop offset W (Or.inr h)
      rw [NO_MEMOIZE_sem_with_loop_offset_st, if_neg hb, if_neg h]
      exact extends_ran _ _ _
        (hl (succ bound loop time) bound offset W)
    | OP_GLOBAL =>
      intro time bound offset W
      by_cases hb : bound = 0
      · exact with_loop_raw_keeps_base fsm _ time bound loop offset W (Or.inl hb)
      by_cases h : time > bound
      · exact with_loop_raw_keeps_base fsm _ time bound loop offset W (Or.inr h)
      rw [NO_MEMOIZE_sem_with_loop_offset_st, if_neg hb, if_neg h]
      refine extends_ran _ _ _ ?_
      refine keeps_foldl _ _ ?_ (_, W)
      intro i acc
      exact hl i bound offset acc.2
    | OP_FUTURE =>
      intro time bound offset W
      by_cases hb : bound = 0
      · exact with_loop_raw_keeps_base fsm _ time bound loop offset W (Or.inl hb)
      by_cases h : time > bound
      · exact with_loop_raw_keeps_base fsm _ time bound loop offset W (Or.inr h)
      rw [NO_MEMOIZE_sem_with_loop_offset_st, if_neg hb, if_neg h]
      refine extends_ran _ _ _ ?_
      refine keeps_foldl _ _ ?_ (_, W)
      intro i acc
      exact hl i bound offset acc.2
    | UNTIL =>
      intro time bound offset W
      by_cases hb : bound = 0
      · exact with_loop_raw_keeps_base fsm _ time bound loop offset W (Or.inl hb)
      by_cases h : time > bound
      · exact with_loop_raw_keeps_base fsm _ time bound loop offset W (Or.inr h)
      rw [NO_MEMOIZE_sem_with_loop_offset_st, if_neg hb, if_neg h]
      refine extends_ran _ _ _ ?_
      refine keeps_foldl _ _ ?_ (_, W)
      intro i acc
      exact extends_trans _ _ _ (hr i bound offset acc.2) (hl i bound offset _)
    | RELEASES =>
      intro time bound offset W
      by_cases hb : bound = 0
      · exact with_loop_raw_keeps_base fsm _ time bound loop offset W (Or.inl hb)
      by_cases h : time > bound
      · exact with_loop_raw_keeps_base fsm _ time bound loop offset W (Or.inr h)
      rw [NO_MEMOIZE_sem_with_loop_offset_st, if_neg hb, if_neg h]
      refine extends_ran _ _ _ ?_
      refine extends_trans _ _ _ (hr (bound - 1) bound offset W) ?_
      refine keeps_foldl _ _ ?_ _
      intro i acc
      exact extends_trans _ _ _ (hr i bound offset acc.2) (hl i bound offset _)
    | ATOM =>
      intro time bound offset W
      by_cases hb : bound = 0
      · exact with_loop_raw_keeps_base fsm _ time bound loop offset W (Or.inl hb)
      by_cases h : time > bound
      · exact with_loop_raw_keeps_base fsm _ time bound loop offset W (Or.inr h)
      have e1 : NO_MEMOIZE_sem_with_loop_offset_st fsm (node.mk NodeType.ATOM l r) time bound loop offset W
          = (proposition_at_time fsm.enc (node.mk NodeType.ATOM l r) (time + offset),
            W.ran (MEMOIZER_key (node.mk NodeType.ATOM l r) time bound loop offset)) := by
        unfold NO_MEMOIZE_sem_with_loop_offset_st
        simp [hb, h]
      rw [e1]
      exact extends_ran _ _ _ (extends_refl W)
    | CONS =>
      intro time bound offset W
      by_cases hb : bound = 0
      · exact with_loop_raw_keeps_base fsm _ time bound loop offset W (Or.inl hb)
      by_cases h : time > bound
      · exact with_loop_raw_keeps_base fsm _ time bound loop offset W (Or.inr h)
      have e1 : NO_MEMOIZE_sem_with_loop_offset_st fsm (node.mk NodeType.CONS l r) time bound loop offset W
          = (proposition_at_time fsm.enc (node.mk NodeType.CONS l r) (time + offset),
            W.ran (MEMOIZER_key (node.mk NodeType.CONS l r) time bound loop offset)) := by
        unfold NO_MEMOIZE_sem_with_loop_offset_st
        simp [hb, h]
      rw [e1]
      exact extends_ran _ _ _ (extends_refl W)
    | other code =>
      intro time bound offset W
      by_cases hb : bound = 0
      · exact with_loop_raw_keeps_base fsm _ time bound loop offset W (Or.inl hb)
      by_cases h : time > bound
      · exact with_loop_raw_keeps_base fsm _ time bound loop offset W (Or.inr h)
      have e1 : NO_MEMOIZE_sem_with_loop_offset_st fsm (node.mk (NodeType.other code) l r) time bound loop offset W
          = (proposition_at_time fsm.enc (node.mk (NodeType.other code) l r) (time + offset),
            W.ran (MEMOIZER_key (node.mk (NodeType.other code) l r) time bound loop offset)) := by
        unfold NO_MEMOIZE_sem_with_loop_offset_st
        simp [hb, h]
      rw [e1]
      exact extends_ran _ _ _ (extends_refl W)

theorem with_loop_wrapper_keeps (fsm : BeFsm) (formula : node)
    (time bound loop offset : Int) (W : MemoState) :
    cache_extends W (sem_with_loop_offset fsm formula time bound loop offset W).2 :=
  with_loop_wrapper_keeps_of_raw fsm formula time bound loop offset
    (fun W1 => with_loop_raw_keeps fsm loop formula time bound offset W1) W

theorem run_calls_keeps (calls : List EncoderCall) :
    ∀ W : MemoState, cache_extends W (run_calls calls W) := by
  induction calls with
  | nil =>
    intro W
    exact extends_refl W
  | cons c calls ih =>
    intro W
    have h1 : cache_extends W (c.run W) := by
      cases c with
      | no_loop fsm formula time bound offset =>
        exact no_loop_wrapper_keeps fsm formula time bound offset W
      | with_loop fsm formula time bound loop offset =>
        exact with_loop_wrapper_keeps fsm formula time bound loop offset W
    have h2 : run_calls (c :: calls) W = run_calls calls (c.run W) := by
      simp [run_calls]
    rw [h2]
    exact extends_trans _ _ _ h1 (ih (c.run W))

/-! ## The cache does not tell the transition systems apart -/

theorem no_loop_entry_after (fsm : BeFsm) (formula : node) (time bound offset : Int)
    (W : MemoState) :
    (sem_no_loop_offset fsm formula time bound offset W).2.entry
        (MEMOIZER_key formula time bound Bmc_Utils_GetNoLoopback offset)
      = some (sem_no_loop_offset fsm formula time bound offset W).1 := by
  have h := memo_call_entry (MEMOIZER_key formula time bound Bmc_Utils_GetNoLoopback offset)
    (NO_MEMOIZE_sem_no_loop_offset_st fsm formula time bound offset) W
  rw [← sem_no_loop_offset_unfold] at h
  exact h

theorem with_loop_entry_after (fsm : BeFsm) (formula : node)
    (time bound loop offset : Int) (W : MemoState) :
    (sem_with_loop_offset fsm formula time bound loop offset W).2.entry
        (MEMOIZER_key formula time bound loop offset)
      = some (sem_with_loop_offset fsm formula time bound loop offset W).1 := by
  have h := memo_call_entry (MEMOIZER_key formula time bound loop offset)
    (NO_MEMOIZE_sem_with_loop_offset_st fsm formula time bound loop offset) W
  rw [← sem_with_loop_offset_unfold] at h
  exact h

theorem no_loop_hit_any_fsm (fsm : BeFsm) (formula : node) (time bound offset : Int)
    (W : MemoState) (e : Be)
    (h : W.entry (MEMOIZER_key formula time bound Bmc_Utils_GetNoLoopback offset) = some e) :
    sem_no_loop_offset fsm formula time bound offset W = (e, W) := by
  rw [sem_no_loop_offset_unfold]
  exact memo_call_hit_entry _ _ _ _ h

theorem with_loop_hit_any_fsm (fsm : BeFsm) (formula : node)
    (time bound loop offset : Int) (W : MemoState) (e : Be)
    (h : W.entry (MEMOIZER_key formula time bound loop offset) = some e) :
    sem_with_loop_offset fsm formula time bound loop offset W = (e, W) := by
  rw [sem_with_loop_offset_unfold]
  exact memo_call_hit_entry _ _ _ _ h

/-- C31: the memoization key does not contain the transition system. When
`sem_no_loop_offset` (resp. `sem_with_loop_offset`) is called with `fsm1`
and later, after any sequence of calls of the memoized encoders and no
`MEMOIZER_clear`, with any `fsm2` and the same formula, time, bound, loop
and offset, the second call returns the expression the first call returned
and leaves the global state as it found it, the record of the raw runs
included: no raw body is run with `fsm2`. When the cache was consistent
with `fsm1` before the first call, the expression returned for `fsm2` is
the one the cache-free encoder builds with the encoder of `fsm1`. -/
theorem memoization_key_ignores_fsm (fsm1 fsm2 : BeFsm) (formula : node)
    (time bound loop offset : Int) (calls : List EncoderCall) (W : MemoState) :
    sem_no_loop_offset fsm2 formula time bound offset
        (run_calls calls (sem_no_loop_offset fsm1 formula time bound offset W).2)
      = ((sem_no_loop_offset fsm1 formula time bound offset W).1,
          run_calls calls (sem_no_loop_offset fsm1 formula time bound offset W).2) ∧
    sem_with_loop_offset fsm2 formula time bound loop offset
        (run_calls calls (sem_with_loop_offset fsm1 formula time bound loop offset W).2)
      = ((sem_with_loop_offset fsm1 formula time bound loop offset W).1,
          run_calls calls (sem_with_loop_offset fsm1 formula time bound loop offset W).2) ∧
    (cache_consistent fsm1 W →
      (sem_no_loop_offset fsm2 formula time bound offset
          (run_calls calls (sem_no_loop_offset fsm1 formula time bound offset W).2)).1
        = NO_MEMOIZE_sem_no_loop_offset fsm1 formula time bound offset) ∧
    (cache_consistent fsm1 W → loop ≠ Bmc_Utils_GetNoLoopback →
      (sem_with_loop_offset fsm2 formula time bound loop offset
          (run_calls calls (sem_with_loop_offset fsm1 formula time bound loop offset W).2)).1
        = NO_MEMOIZE_sem_with_loop_offset fsm1 formula time bound loop offset) := by
  have h1 := no_loop_hit_any_fsm fsm2 formula time bound offset
    (run_calls calls (sem_no_loop_offset fsm1 formula time bound offset W).2) _
    (run_calls_keeps calls _ _ _ (no_loop_entry_after fsm1 formula time bound offset W))
  have h2 := with_loop_hit_any_fsm fsm2 formula time bound loop offset
    (run_calls calls (sem_with_loop_offset fsm1 formula time bound loop offset W).2) _
    (run_calls_keeps calls _ _ _ (with_loop_entry_after fsm1 formula time bound loop offset W))
  refine ⟨h1, h2, fun hW => ?_, fun hW hloop => ?_⟩
  · rw [h1]
    exact ((no_loop_wrapper_returns fsm1 formula time bound offset W).2 hW).1
  · rw [h2]
    exact ((with_loop_wrapper_returns fsm1 formula time bound loop offset hloop W).2 hW).1

theorem memoization_key_ignores_fsm_witness :
    cache_consistent example_fsm initial_state ∧
    (0 : Int) ≠ Bmc_Utils_GetNoLoopback ∧
    (sem_no_loop_offset shifted_fsm (node.atom 1) 0 1 0
        (run_calls [EncoderCall.no_loop shifted_fsm (node.atom 0) 0 1 0]
          (sem_no_loop_offset example_fsm (node.atom 1) 0 1 0 initial_state).2)).1
      = NO_MEMOIZE_sem_no_loop_offset example_fsm (node.atom 1) 0 1 0 ∧
    (sem_with_loop_offset shifted_fsm (node.atom 1) 0 1 0 0
        (run_calls [EncoderCall.no_loop shifted_fsm (node.atom 0) 0 1 0]
          (sem_with_loop_offset example_fsm (node.atom 1) 0 1 0 0 initial_state).2)).1
      = NO_MEMOIZE_sem_with_loop_offset example_fsm (node.atom 1) 0 1 0 0 ∧
    NO_MEMOIZE_sem_with_loop_offset example_fsm (node.atom 1) 0 1 0 0 = Be.Var 1 (some 0) ∧
    NO_MEMOIZE_sem_with_loop_offset shifted_fsm (node.atom 1) 0 1 0 0 = Be.Var 101 (some 0) :=
  ⟨fun _ _ _ _ _ _ h => by simp [MemoState.entry, initial_state] at h,
    by decide,
    (memoization_key_ignores_fsm example_fsm shifted_fsm (node.atom 1) 0 1 0 0
      [EncoderCall.no_loop shifted_fsm (node.atom 0) 0 1 0] initial_state).2.2.1
      (fun _ _ _ _ _ _ h => by simp [MemoState.entry, initial_state] at h),
    (memoization_key_ignores_fsm example_fsm shifted_fsm (node.atom 1) 0 1 0 0
      [EncoderCall.no_loop shifted_fsm (node.atom 0) 0 1 0] initial_state).2.2.2
      (fun _ _ _ _ _ _ h => by simp [MemoState.entry, initial_state] at h) (by decide),
    by decide,
    by decide⟩

/-! ## The key of the encoder with loop at the sentinel -/

/-- C16 (counterexample): the cache left by `sem_no_loop_offset` on the
atom 1 at time 0 and bound 0, called from the empty cache, is consistent,
yet `sem_with_loop_offset` called on it with the same formula, time, bound
and offset and the "no loop" sentinel as loop finds the entry of the encoder
without loop, the variable 1 at time 0, where the cache-free encoder with
loop yields falsity (its bound is 0). -/
theorem sem_with_loop_sentinel_hits_no_loop_entry :
    cache_consistent example_fsm
        (sem_no_loop_offset example_fsm (node.atom 1) 0 0 0 initial_state).2 ∧
      (sem_with_loop_offset example_fsm (node.atom 1) 0 0 Bmc_Utils_GetNoLoopback 0
          (sem_no_loop_offset example_fsm (node.atom 1) 0 0 0 initial_state).2).1
        = Be.Var 1 (some 0) ∧
      NO_MEMOIZE_sem_with_loop_offset example_fsm (node.atom 1) 0 0 Bmc_Utils_GetNoLoopback 0
        = Be.Falsity := by
  have hinit : cache_consistent example_fsm initial_state :=
    fun _ _ _ _ _ _ h => by simp [MemoState.entry, initial_state] at h
  have h1 := (no_loop_wrapper_returns example_fsm (node.atom 1) 0 0 0 initial_state).2 hinit
  have h2 := with_loop_hit_any_fsm example_fsm (node.atom 1) 0 0 Bmc_Utils_GetNoLoopback 0
    (sem_no_loop_offset example_fsm (node.atom 1) 0 0 0 initial_state).2 _
    (no_loop_entry_after example_fsm (node.atom 1) 0 0 0 initial_state)
  refine ⟨h1.2.1, ?_, by decide⟩
  rw [h2]
  show (sem_no_loop_offset example_fsm (node.atom 1) 0 0 0 initial_state).1 = _
  rw [h1.1]
  unfold NO_MEMOIZE_sem_no_loop_offset
  simp [proposition_at_time, example_fsm, example_enc, BeEnc_untimed_expr_to_timed]

end PyNuSMV
